import Mathlib

/-!
# tyger CLI: run execution, status watch and log follow

A shallow embedding of `cli/cmd/tyger/run.go`:

* the buffered reader (`bufio.Reader`) that `followLogs` and `watchRun` read the
  response body through, over a body that is delivered in read fragments;
* `followLogs`, `watchRun`;
* the watch loops of `tyger run exec` (`postCreate`) and `tyger run watch`;
* `preValidate` and `newRunCreateCommandCore`: the run assembled from the spec
  file and the flags, and its submission;
* `getLogs` with its reconnection;

and of `GetUriFromAccessString` (`cli/internal/buffer-proxy/uri.go`),
`InvokeRequest` and `InvokePageRequests` (`cli/internal/cmd/common.go`). The
transfer of a buffer in blocks (`bufferproxy.Write`, `bufferproxy.Read`) is
modelled from its specification.

Bytes are natural numbers; a sink is the list of the bytes written to it.
Loops that run until the input ends take a bound on their iterations and
return `none` past it; the bound the callers pass is shown to be enough. The
operations of the reader are related to the same operations on the unsplit
stream (`Wire`), which is how results about `followLogs` are made independent
of the read fragments.
-/

namespace Tyger

/-! ## Bytes -/

/-- A byte of a stream. -/
abbrev Byte := Nat

/-- The space character, the delimiter `followLogs` reads the timestamp up to. -/
def SP : Byte := 32

/-- The newline character. -/
def LF : Byte := 10

/-- The carriage return, which `ReadLine` drops in front of a newline. -/
def CR : Byte := 13

/-- The bytes of an ASCII string literal. -/
def ascii (s : String) : List Byte := s.toList.map Char.toNat

/-! ## The response body as an `io.Reader` -/

/-- Errors an `io.Reader` returns. -/
inductive IOErr where
  /-- The value `io.EOF`. -/
  | eof
  /-- The value `io.ErrNoProgress`, set by `fill` after 100 empty reads. -/
  | noProgress
  /-- Any other error of the body (connection reset, ...). -/
  | failed (msg : String)
deriving DecidableEq, Repr

/-- A response body: the data arrives in the fragments `frags`, one per `Read`
call (a fragment larger than the room offered is delivered in several calls);
once the data is exhausted every `Read` returns `final`. When `errWithLast` is
set the `Read` that delivers the last byte returns `final` together with it, as
`io.Reader` allows. -/
structure Source where
  frags : List (List Byte)
  final : IOErr
  errWithLast : Bool
deriving DecidableEq, Repr

/-- One call `rd.Read(p)` with `len(p) = cap`: the bytes read, the error, and the
body afterwards. -/
def Source.read (cap : Nat) (s : Source) : List Byte × Option IOErr × Source :=
  match s.frags with
  | [] => ([], some s.final, s)
  | f :: rest =>
    if f.length ≤ cap then
      if rest.isEmpty && s.errWithLast then (f, some s.final, { s with frags := [] })
      else (f, none, { s with frags := rest })
    else (f.take cap, none, { s with frags := f.drop cap :: rest })

/-- All the bytes the body still holds. -/
def Source.data (s : Source) : List Byte := s.frags.flatten

/-! ## `bufio.Reader` -/

/-- The value of `defaultBufSize` in package bufio, the size `bufio.NewReader` uses. -/
def defaultBufSize : Nat := 4096

/-- The value of `maxConsecutiveEmptyReads` in package bufio. -/
def maxConsecutiveEmptyReads : Nat := 100

/-- A `bufio.Reader`: `size` is `len(b.buf)`, `buf` the unread bytes
`b.buf[b.r:b.w]`, `err` the pending error `b.err`, `rd` the body. -/
structure Reader where
  size : Nat
  buf : List Byte
  err : Option IOErr
  rd : Source
deriving DecidableEq, Repr

/-- The call `bufio.NewReaderSize(rd, size)`. -/
def NewReaderSize (rd : Source) (size : Nat) : Reader := ⟨size, [], none, rd⟩

/-- The call `bufio.NewReader(rd)`. -/
def NewReader (rd : Source) : Reader := NewReaderSize rd defaultBufSize

/-- The bytes not yet returned to the caller: buffered ones, then the body's. -/
def Reader.rest (b : Reader) : List Byte := b.buf ++ b.rd.data

/-- The retry loop of `fill`: read into the free room of the buffer until a read
returns data or an error, at most `i` times. -/
def Reader.fillLoop : Nat → Reader → Reader
  | 0, b => { b with err := some IOErr.noProgress }
  | i + 1, b =>
    match b.rd.read (b.size - b.buf.length) with
    | (data, e, rd') =>
      match e with
      | some e => { b with buf := b.buf ++ data, rd := rd', err := some e }
      | none =>
        if data.length > 0 then { b with buf := b.buf ++ data, rd := rd' }
        else Reader.fillLoop i { b with buf := b.buf ++ data, rd := rd' }

/-- The method `fill`: slide the unread bytes to the front and read new data. -/
def Reader.fill (b : Reader) : Reader := b.fillLoop maxConsecutiveEmptyReads

/-- Split a buffer after the first `delim`: `bytes.IndexByte` followed by the
slicing `b.buf[b.r : b.r+i+1]`. -/
def cutAfter (delim : Byte) : List Byte → Option (List Byte × List Byte)
  | [] => none
  | x :: xs =>
    if x = delim then some ([x], xs)
    else
      match cutAfter delim xs with
      | none => none
      | some (l, r) => some (x :: l, r)

/-- Errors of `ReadSlice`: `bufio.ErrBufferFull`, or the body's error. -/
inductive SliceErr where
  | bufferFull
  | io (e : IOErr)
deriving DecidableEq, Repr

/-- The loop of `ReadSlice`, `n` iterations at most (`none` past them). -/
def Reader.readSliceLoop (delim : Byte) : Nat → Reader → Option (List Byte × Option SliceErr × Reader)
  | 0, _ => none
  | n + 1, b =>
    match cutAfter delim b.buf with
    | some (line, rest) => some (line, none, { b with buf := rest })
    | none =>
      match b.err with
      | some e => some (b.buf, some (SliceErr.io e), { b with buf := [], err := none })
      | none =>
        if b.buf.length ≥ b.size then some (b.buf, some SliceErr.bufferFull, { b with buf := [] })
        else Reader.readSliceLoop delim n b.fill

/-- The method `ReadSlice`. An iteration that does not return fills the buffer
with at least one more byte or records an error, so `size + 1` iterations are
enough. -/
def Reader.ReadSlice (delim : Byte) (b : Reader) : Option (List Byte × Option SliceErr × Reader) :=
  b.readSliceLoop delim (b.size + 1)

/-- The function `collectFragments` with the concatenation `ReadString` does:
call `ReadSlice`, accumulating full buffers, until the delimiter or an error. -/
def Reader.collectFragments (delim : Byte) : Nat → List Byte → Reader → Option (List Byte × Option IOErr × Reader)
  | 0, _, _ => none
  | n + 1, acc, b =>
    match b.ReadSlice delim with
    | none => none
    | some (frag, none, b') => some (acc ++ frag, none, b')
    | some (frag, some SliceErr.bufferFull, b') => Reader.collectFragments delim n (acc ++ frag) b'
    | some (frag, some (SliceErr.io e), b') => some (acc ++ frag, some e, b')

/-- The method `ReadString`: everything up to and including the first `delim`,
or everything up to the error. Each full buffer consumes bytes, so one
iteration more than the bytes left is enough. -/
def Reader.ReadString (delim : Byte) (b : Reader) : Option (List Byte × Option IOErr × Reader) :=
  b.collectFragments delim (b.rest.length + 1) []

/-- The line `ReadLine` returns from a slice that is not a full buffer: without
the final newline and without a carriage return in front of it. -/
def dropLineEnd (line : List Byte) : List Byte :=
  if line.getLast? = some LF then
    if line.length > 1 ∧ line.dropLast.getLast? = some CR then line.take (line.length - 2)
    else line.take (line.length - 1)
  else line

/-- The method `ReadLine`: `(line, isPrefix, err)` and the reader afterwards. -/
def Reader.ReadLine (b : Reader) : Option (List Byte × Bool × Option IOErr × Reader) :=
  match b.ReadSlice LF with
  | none => none
  | some (line, some SliceErr.bufferFull, b') =>
    if line.getLast? = some CR then
      some (line.dropLast, true, none, { b' with buf := CR :: b'.buf })
    else some (line, true, none, b')
  | some (line, some (SliceErr.io e), b') =>
    if line.length = 0 then some ([], false, some e, b')
    else some (dropLineEnd line, false, none, b')
  | some (line, none, b') =>
    if line.length = 0 then some (line, false, none, b')
    else some (dropLineEnd line, false, none, b')

/-! ## followLogs -/

/-- What `followLogs` leaves behind: the sink, and the returned `lastTimestamp`
and `err`. -/
structure FollowResult where
  sink : List Byte
  lastTimestamp : List Byte
  err : IOErr
deriving DecidableEq, Repr

/-- The `for` loop of `followLogs`, `n` iterations at most (`none` past them). -/
def followLogsLoop (includeTimestamps : Bool) :
    Nat → Reader → Bool → List Byte → List Byte → Option FollowResult
  | 0, _, _, _, _ => none
  | n + 1, reader, atStartOfLine, lastTimestamp, sink =>
    let afterTimestamp : Option (Sum FollowResult (Reader × List Byte × List Byte)) :=
      if atStartOfLine then
        match reader.ReadString SP with
        | none => none
        | some (_, some err, _) => some (Sum.inl ⟨sink, lastTimestamp, err⟩)
        | some (localLastTimestamp, none, reader') =>
          some (Sum.inr (reader', localLastTimestamp,
            if includeTimestamps then sink ++ localLastTimestamp else sink))
      else some (Sum.inr (reader, lastTimestamp, sink))
    match afterTimestamp with
    | none => none
    | some (Sum.inl res) => some res
    | some (Sum.inr (reader, lastTimestamp, sink)) =>
      match reader.ReadLine with
      | none => none
      | some (_, _, some err, _) => some ⟨sink, lastTimestamp, err⟩
      | some (line, isPrefix, none, reader') =>
        followLogsLoop includeTimestamps n reader' (!isPrefix) lastTimestamp
          (if isPrefix then sink ++ line else sink ++ line ++ [LF])

/-- The function `followLogs(body, includeTimestamps, outputSink)` over a reader
of buffer size `size`. Every iteration that does not return consumes a byte. -/
def followLogsSize (size : Nat) (body : Source) (includeTimestamps : Bool) (outputSink : List Byte) :
    Option FollowResult :=
  followLogsLoop includeTimestamps (body.data.length + 1) (NewReaderSize body size) true [] outputSink

/-- The function `followLogs(body, includeTimestamps, outputSink)`. -/
def followLogs (body : Source) (includeTimestamps : Bool) (outputSink : List Byte) :
    Option FollowResult :=
  followLogsSize defaultBufSize body includeTimestamps outputSink

/-! ## The run model -/

/-- Modelled from the spec: package `model` is not among the sources. The
struct `model.RunMetadata` with the fields run.go reads: the identifier, the
lifecycle status, its reason and the optional count of running replicas. -/
structure RunMetadata where
  Id : Int
  Status : String
  StatusReason : String
  RunningCount : Option Int
deriving DecidableEq, Repr

/-- Modelled from the spec: package `model` is not among the sources. The
struct `model.BufferParameters`, the buffer parameter names a codespec declares. -/
structure BufferParameters where
  Inputs : List String
  Outputs : List String
deriving DecidableEq, Repr

/-- Modelled from the spec: package `model` is not among the sources. The
struct `model.Codespec`, with the one field `preValidate` reads. -/
structure Codespec where
  Buffers : Option BufferParameters
deriving DecidableEq, Repr

/-- Modelled from the spec: package `model` is not among the sources. The
struct `model.CodespecRef`: an inline codespec or the name of one. -/
structure CodespecRef where
  Inline : Option Codespec
  Named : Option String
deriving DecidableEq, Repr

/-- Modelled from the spec: package `model` is not among the sources. The
struct `model.RunCodeTarget` with the fields `preValidate` and `postCreate`
read; `Buffers` maps a buffer parameter to a buffer id. -/
structure RunCodeTarget where
  Codespec : CodespecRef
  Buffers : List (String × String)
deriving DecidableEq, Repr

/-- Modelled from the spec: package `model` is not among the sources. The
struct `model.Run`: the embedded metadata and the job. -/
structure Run where
  RunMetadata : RunMetadata
  Job : RunCodeTarget
deriving DecidableEq, Repr

/-- The lookup `m[key]` in a Go map of strings: the empty string when absent. -/
def mapIndex (m : List (String × String)) (key : String) : String :=
  match m.lookup key with
  | some v => v
  | none => ""

/-! ## watchRun -/

/-- An HTTP response as `watchRun` uses it. -/
structure Response where
  StatusCode : Nat
  Body : Source
deriving DecidableEq, Repr

/-- The pair `(resp, err)` that `tyger.InvokeRequest` returns. -/
structure InvokeResult where
  resp : Option Response
  err : Option String
deriving DecidableEq, Repr

/-- The errors `watchRun` sends on its error channel. -/
inductive WatchError where
  /-- The sentinel `errNotFound`. -/
  | errNotFound
  /-- The error `tyger.InvokeRequest` returned. -/
  | invoke (msg : String)
  /-- The error "unexpected response code %d". -/
  | unexpectedCode (code : Nat)
  /-- An error of `reader.ReadString` other than `io.EOF`. -/
  | read (e : IOErr)
  /-- The error of `json.Unmarshal`. -/
  | unmarshal (msg : String)
deriving DecidableEq, Repr

/-- How the goroutine of `watchRun` stops: it returns at the end of the stream,
which only closes the event channel; it sends an error and returns; it panics. -/
inductive WatchStop where
  | closed
  | error (e : WatchError)
  | panic
deriving DecidableEq, Repr

/-- Everything one call of `watchRun` delivers to its consumer, in order: the
events sent on the event channel, then how the goroutine stopped. -/
structure Subscription where
  events : List RunMetadata
  stop : WatchStop
deriving DecidableEq, Repr

/-- The read loop of the goroutine of `watchRun`, `n` iterations at most;
`unmarshal` stands for `json.Unmarshal` into a `model.Run`. -/
def watchRunLoop (unmarshal : List Byte → Except String Run) :
    Nat → Reader → List RunMetadata → Option Subscription
  | 0, _, _ => none
  | n + 1, reader, sent =>
    match reader.ReadString LF with
    | none => none
    | some (line, some IOErr.eof, _) =>
      if line ≠ [] then some ⟨sent, WatchStop.panic⟩ else some ⟨sent, WatchStop.closed⟩
    | some (_, some e, _) => some ⟨sent, WatchStop.error (WatchError.read e)⟩
    | some (line, none, reader') =>
      match unmarshal line with
      | Except.error msg => some ⟨sent, WatchStop.error (WatchError.unmarshal msg)⟩
      | Except.ok run => watchRunLoop unmarshal n reader' (sent ++ [run.RunMetadata])

/-- The function `watchRun`, given what `tyger.InvokeRequest` returns for the
watch request. A nil response without an error makes the goroutine panic on
`resp.StatusCode`. -/
def watchRun (unmarshal : List Byte → Except String Run) (res : InvokeResult) : Option Subscription :=
  match res.resp, res.err with
  | some resp, err =>
    if resp.StatusCode = 404 then some ⟨[], WatchStop.error WatchError.errNotFound⟩
    else
      match err with
      | some msg => some ⟨[], WatchStop.error (WatchError.invoke msg)⟩
      | none =>
        if resp.StatusCode ≠ 200 then
          some ⟨[], WatchStop.error (WatchError.unexpectedCode resp.StatusCode)⟩
        else watchRunLoop unmarshal (resp.Body.data.length + 1) (NewReader resp.Body) []
  | none, some msg => some ⟨[], WatchStop.error (WatchError.invoke msg)⟩
  | none, none => some ⟨[], WatchStop.panic⟩

/-- What a `select` of a watch loop receives. -/
inductive Received where
  /-- An error from `errChan`. -/
  | err (e : WatchError)
  /-- An event from `eventChan` (`ok` is true). -/
  | event (ev : RunMetadata)
  /-- The event channel is closed (`ok` is false). -/
  | closed
deriving DecidableEq, Repr

/-! ## The watch loop of `tyger run exec` -/

/-- The tasks `postCreate` starts in goroutines registered with the wait group. -/
inductive Task where
  /-- The call `bufferproxy.Write(inputSasUri, writeDop, blockSize, os.Stdin)`. -/
  | write (inputSasUri : String)
  /-- The call `bufferproxy.Read(outputSasUri, readDop, os.Stdout)`. -/
  | read (outputSasUri : String)
  /-- The call `getLogs(runId, logTimestamps, -1, nil, true, os.Stderr)`. -/
  | logs
deriving DecidableEq, Repr

/-- How `postCreate` ends. -/
inductive ExecResult where
  /-- Label `end`: `wg.Wait()` then `return nil`. -/
  | returnedNil
  /-- An early `return err` after `getBufferAccessUri` failed. -/
  | returnedErr (msg : String)
  /-- The call `log.Fatal()...Msg("Failed to watch run")`, which exits the process. -/
  | fatalWatch (e : WatchError)
  /-- The call `log.Fatal()...Msg("Run failed.")`, which exits the process. -/
  | fatalRunFailed (status : String) (statusReason : String)
  /-- The goroutine of `watchRun` panicked. The panic ends the process, unless
  the `select` first receives from the event channel, which the deferred
  `close` closes while the panic unwinds: then the loop goes to `end` and
  `postCreate` can return nil before the process dies. Which of the two comes
  first is not determined; this result stands for both. -/
  | panicked
  /-- The loop is blocked in `select`: nothing more is scripted. -/
  | blocked
deriving DecidableEq, Repr

/-- Where control goes after one pass through the `select` of `postCreate`. -/
inductive ExecStep where
  /-- Stay in the `for` loop with this value of `consecutiveErrors`. -/
  | watching (consecutiveErrors : Nat)
  /-- Jump to `beginWatch` with this value of `consecutiveErrors`. -/
  | beginWatch (consecutiveErrors : Nat)
  /-- Jump to `end`. -/
  | toEnd
  /-- The process exits through `log.Fatal`. -/
  | fatal (r : ExecResult)
deriving DecidableEq, Repr

/-- The body of the `select` in `postCreate`. -/
def execSelect (consecutiveErrors : Nat) : Received → ExecStep
  | Received.err e =>
    if consecutiveErrors + 1 > 1 then ExecStep.fatal (ExecResult.fatalWatch e)
    else ExecStep.beginWatch (consecutiveErrors + 1)
  | Received.closed => ExecStep.toEnd
  | Received.event event =>
    if event.Status = "Succeeded" then ExecStep.toEnd
    else if event.Status = "Pending" then ExecStep.watching 0
    else if event.Status = "Running" then ExecStep.watching 0
    else ExecStep.fatal (ExecResult.fatalRunFailed event.Status event.StatusReason)

/-- The `for` loop of `postCreate` on the channels of one subscription: the step
that leaves the loop and the number of events consumed up to it, starting from
`consumed`. After a panic of the goroutine the step is `panicked`, which leaves
open whether the process dies or the closed channel is seen first. -/
def execFor (consecutiveErrors consumed : Nat) : List RunMetadata → WatchStop → ExecStep × Nat
  | [], WatchStop.closed => (execSelect consecutiveErrors Received.closed, consumed)
  | [], WatchStop.error e => (execSelect consecutiveErrors (Received.err e), consumed)
  | [], WatchStop.panic => (ExecStep.fatal ExecResult.panicked, consumed)
  | event :: events, stop =>
    match execSelect consecutiveErrors (Received.event event) with
    | ExecStep.watching c => execFor c (consumed + 1) events stop
    | step => (step, consumed + 1)

/-- What the watch loop of `postCreate` did. -/
structure WatchOutcome where
  result : ExecResult
  /-- Number of calls of `watchRun`. -/
  watchRunCalls : Nat
  /-- Number of events received from the event channels. -/
  eventsConsumed : Nat
deriving DecidableEq, Repr

/-- The watch loop of `postCreate` from label `beginWatch`; the k-th call of
`watchRun` delivers the k-th subscription of the list. -/
def execWatch (consecutiveErrors calls consumed : Nat) : List Subscription → WatchOutcome
  | [] => ⟨ExecResult.blocked, calls, consumed⟩
  | sub :: subs =>
    match execFor consecutiveErrors consumed sub.events sub.stop with
    | (ExecStep.beginWatch c, n) => execWatch c (calls + 1) n subs
    | (ExecStep.toEnd, n) => ⟨ExecResult.returnedNil, calls + 1, n⟩
    | (ExecStep.fatal r, n) => ⟨r, calls + 1, n⟩
    | (ExecStep.watching _, n) => ⟨ExecResult.blocked, calls + 1, n⟩

/-- The variables of `newRunExecCommand` that its closures share. -/
structure ExecVars where
  logs : Bool
  inputBufferParameter : String
  outputBufferParameter : String
deriving DecidableEq, Repr

/-- What `postCreate` did: how it ended, the tasks it started, the tasks it had
waited for in `wg.Wait()` when it ended, and the watch counters. -/
structure ExecOutcome where
  result : ExecResult
  started : List Task
  joined : List Task
  watchRunCalls : Nat
  eventsConsumed : Nat
deriving DecidableEq, Repr

/-- The tasks `postCreate` starts, from the two access URIs and the logs flag. -/
def startedTasks (inputSasUri outputSasUri : String) (logs : Bool) : List Task :=
  (if inputSasUri ≠ "" then [Task.write inputSasUri] else [])
    ++ (if outputSasUri ≠ "" then [Task.read outputSasUri] else [])
    ++ (if logs then [Task.logs] else [])

/-- The first part of `postCreate`: the access URIs of the input and of the
output buffer, empty when `preValidate` chose no parameter. `getBufferAccessUri`
is the function of that name (it is not among the sources). -/
def accessUris (getBufferAccessUri : String → Bool → Except String String) (vars : ExecVars)
    (run : Run) : Except String (String × String) :=
  let input : Except String String :=
    if vars.inputBufferParameter ≠ "" then
      getBufferAccessUri (mapIndex run.Job.Buffers vars.inputBufferParameter) true
    else Except.ok ""
  match input with
  | Except.error err => Except.error err
  | Except.ok inputSasUri =>
    let output : Except String String :=
      if vars.outputBufferParameter ≠ "" then
        getBufferAccessUri (mapIndex run.Job.Buffers vars.outputBufferParameter) false
      else Except.ok ""
    match output with
    | Except.error err => Except.error err
    | Except.ok outputSasUri => Except.ok (inputSasUri, outputSasUri)

/-- The closure `postCreate` of `newRunExecCommand`; `subs` is what the
successive calls of `watchRun` deliver. `wg.Wait()` runs only at label `end`;
`log.Fatal` exits the process on the spot. -/
def postCreate (getBufferAccessUri : String → Bool → Except String String) (vars : ExecVars)
    (subs : List Subscription) (run : Run) : ExecOutcome :=
  match accessUris getBufferAccessUri vars run with
  | Except.error err => ⟨ExecResult.returnedErr err, [], [], 0, 0⟩
  | Except.ok (inputSasUri, outputSasUri) =>
    let started := startedTasks inputSasUri outputSasUri vars.logs
    let w := execWatch 0 0 0 subs
    match w.result with
    | ExecResult.returnedNil => ⟨w.result, started, started, w.watchRunCalls, w.eventsConsumed⟩
    | _ => ⟨w.result, started, [], w.watchRunCalls, w.eventsConsumed⟩

/-! ## The loop of `tyger run watch` -/

/-- How the `RunE` of `newRunWatchCommand` ends. -/
inductive WatchCmdResult where
  /-- The statement `return nil`. -/
  | returnedNil
  /-- The statement `return errors.New("run not found")`. -/
  | runNotFound
  /-- The statement `return err` with the watch error. -/
  | returnedErr (e : WatchError)
  /-- The goroutine of `watchRun` panicked. The panic ends the process, unless
  the `select` first receives from the event channel, which the deferred
  `close` closes while the panic unwinds: then the command can return nil
  before the process dies. Which of the two comes first is not determined;
  this result stands for both. -/
  | panicked
  /-- The loop is blocked in `select`: nothing more is scripted. -/
  | blocked
deriving DecidableEq, Repr

/-- Where control goes after one pass through the `select` of `run watch`. -/
inductive WatchCmdStep where
  | watching (consecutiveErrors : Nat)
  | start (consecutiveErrors : Nat)
  | done (r : WatchCmdResult)
deriving DecidableEq, Repr

/-- The body of the `select` in the `RunE` of `newRunWatchCommand`
(`json.Marshal` of the event does not fail). -/
def watchSelect (consecutiveErrors : Nat) : Received → WatchCmdStep
  | Received.err e =>
    if e = WatchError.errNotFound then WatchCmdStep.done WatchCmdResult.runNotFound
    else if consecutiveErrors + 1 > 1 then WatchCmdStep.done (WatchCmdResult.returnedErr e)
    else WatchCmdStep.start (consecutiveErrors + 1)
  | Received.closed => WatchCmdStep.done WatchCmdResult.returnedNil
  | Received.event _ => WatchCmdStep.watching 0

/-- The `for` loop of `run watch` on the channels of one subscription: the step
that leaves it and the events printed so far. After a panic of the goroutine
the step is `panicked`, which leaves open whether the process dies or the
closed channel is seen first. -/
def watchFor (consecutiveErrors : Nat) (printed : List RunMetadata) :
    List RunMetadata → WatchStop → WatchCmdStep × List RunMetadata
  | [], WatchStop.closed => (watchSelect consecutiveErrors Received.closed, printed)
  | [], WatchStop.error e => (watchSelect consecutiveErrors (Received.err e), printed)
  | [], WatchStop.panic => (WatchCmdStep.done WatchCmdResult.panicked, printed)
  | event :: events, stop =>
    match watchSelect consecutiveErrors (Received.event event) with
    | WatchCmdStep.watching c => watchFor c (printed ++ [event]) events stop
    | step => (step, printed ++ [event])

/-- What `tyger run watch` did. -/
structure WatchCmdOutcome where
  result : WatchCmdResult
  watchRunCalls : Nat
  printed : List RunMetadata
deriving DecidableEq, Repr

/-- The `RunE` of `newRunWatchCommand` from label `start`. -/
def runWatch (consecutiveErrors calls : Nat) (printed : List RunMetadata) :
    List Subscription → WatchCmdOutcome
  | [] => ⟨WatchCmdResult.blocked, calls, printed⟩
  | sub :: subs =>
    match watchFor consecutiveErrors printed sub.events sub.stop with
    | (WatchCmdStep.start c, p) => runWatch c (calls + 1) p subs
    | (WatchCmdStep.done r, p) => ⟨r, calls + 1, p⟩
    | (WatchCmdStep.watching _, p) => ⟨WatchCmdResult.blocked, calls + 1, p⟩

/-! ## preValidate and the submission -/

/-- A request sent through `tyger.InvokeRequest`. -/
inductive HttpCall where
  | get (relativeUri : String)
  | post (relativeUri : String)
deriving DecidableEq, Repr

/-- The closure `preValidate` of `newRunExecCommand`: the error returned (`none`
for nil), the shared variables afterwards and the requests sent. `getCodespec`
is the server's answer to `GET v1/codespecs/<name>`. -/
def preValidate (getCodespec : String → Except String Codespec) (vars : ExecVars) (run : Run) :
    Option String × ExecVars × List HttpCall :=
  let resolved : Except (Option String × ExecVars × List HttpCall) (Codespec × List HttpCall) :=
    match run.Job.Codespec.Inline with
    | some inline => Except.ok (inline, [])
    | none =>
      match run.Job.Codespec.Named with
      | some named =>
        let relativeUri := "v1/codespecs/" ++ named
        match getCodespec relativeUri with
        | Except.error err => Except.error (some err, vars, [HttpCall.get relativeUri])
        | Except.ok c => Except.ok (c, [HttpCall.get relativeUri])
      | none => Except.error (some "a codespec for the job must be specified", vars, [])
  match resolved with
  | Except.error r => r
  | Except.ok (resolvedCodespec, calls) =>
    match resolvedCodespec.Buffers with
    | none => (none, vars, calls)
    | some bufferParameters =>
      let inputs : Except String ExecVars :=
        match bufferParameters.Inputs with
        | [] => Except.ok vars
        | [input] => Except.ok { vars with inputBufferParameter := input }
        | _ => Except.error "exec cannot be called if the job has multiple input buffers"
      match inputs with
      | Except.error err => (some err, vars, calls)
      | Except.ok vars1 =>
        match bufferParameters.Outputs with
        | [] => (none, vars1, calls)
        | [output] => (none, { vars1 with outputBufferParameter := output }, calls)
        | _ => (some "exec cannot be called if the job has multiple output buffers", vars1, calls)

/-- The end of the `RunE` of `newRunCreateCommandCore`, from the assembled
`newRun` on: `preValidate` when there is one, the submission `POST v1/runs`,
then `postCreate`. Returns the error (`none` for nil) and the requests sent by
`preValidate` and by the submission; `postRun` is the server's answer to the
submission and `postCreate` gives the error of the post-creation step. -/
def RunE (preValidate : Option (Run → Option String × ExecVars × List HttpCall))
    (postRun : Run → Except String Run) (postCreate : Option (ExecVars → Run → Option String))
    (vars : ExecVars) (newRun : Run) : Option String × List HttpCall :=
  let validated : Option String × ExecVars × List HttpCall :=
    match preValidate with
    | some pv => pv newRun
    | none => (none, vars, [])
  match validated with
  | (some err, _, calls) => (some err, calls)
  | (none, vars1, calls) =>
    match postRun newRun with
    | Except.error err => (some err, calls ++ [HttpCall.post "v1/runs"])
    | Except.ok committedRun =>
      match postCreate with
      | some pc => (pc vars1 committedRun, calls ++ [HttpCall.post "v1/runs"])
      | none => (none, calls ++ [HttpCall.post "v1/runs"])

/-! ## The unsplit view of a stream -/

/-- What the operations of a reader depend on besides the bytes left: the
buffer size, the terminal error of the body and whether it comes with the last
byte. -/
structure Wire where
  size : Nat
  final : IOErr
  errWithLast : Bool
deriving DecidableEq, Repr

/-- The wire of a reader. -/
def Reader.wire (b : Reader) : Wire := ⟨b.size, b.rd.final, b.rd.errWithLast⟩

/-- The states a reader over a body with non-empty fragments goes through. -/
structure Reader.Inv (b : Reader) : Prop where
  size_pos : 1 ≤ b.size
  frags_ne : ∀ f ∈ b.rd.frags, f ≠ []
  buf_le : b.buf.length ≤ b.size
  err_final : ∀ e, b.err = some e → e = b.rd.final ∧ b.rd.frags = []
  eager_err : b.rd.errWithLast = true → b.rd.frags = [] → b.buf ≠ [] → b.err = some b.rd.final
  lazy_err : b.rd.errWithLast = false → b.err ≠ none → b.buf.length < b.size

/-- The method `ReadSlice` on the unsplit stream `rest`: the slice, the error
and the bytes left. -/
def Wire.slice (w : Wire) (delim : Byte) (rest : List Byte) :
    List Byte × Option SliceErr × List Byte :=
  match cutAfter delim rest with
  | some (l, r) =>
    if l.length ≤ w.size then (l, none, r)
    else (rest.take w.size, some SliceErr.bufferFull, rest.drop w.size)
  | none =>
    if rest.length < w.size ∨ (rest.length = w.size ∧ w.errWithLast = true) then
      (rest, some (SliceErr.io w.final), [])
    else (rest.take w.size, some SliceErr.bufferFull, rest.drop w.size)

/-- The method `ReadString` on the unsplit stream: the string, the error and the
bytes left. -/
def Wire.readString (w : Wire) (delim : Byte) (rest : List Byte) :
    List Byte × Option IOErr × List Byte :=
  match cutAfter delim rest with
  | some (l, r) => (l, none, r)
  | none => (rest, some w.final, [])

/-- The method `ReadLine` on the unsplit stream. -/
def Wire.readLine (w : Wire) (rest : List Byte) : List Byte × Bool × Option IOErr × List Byte :=
  match w.slice LF rest with
  | (line, some SliceErr.bufferFull, rest') =>
    if line.getLast? = some CR then (line.dropLast, true, none, CR :: rest')
    else (line, true, none, rest')
  | (line, some (SliceErr.io e), rest') =>
    if line.length = 0 then ([], false, some e, rest')
    else (dropLineEnd line, false, none, rest')
  | (line, none, rest') =>
    if line.length = 0 then (line, false, none, rest')
    else (dropLineEnd line, false, none, rest')

/-- The loop of `followLogs` on the unsplit stream. -/
def Wire.followLoop (w : Wire) (includeTimestamps : Bool) :
    Nat → List Byte → Bool → List Byte → List Byte → Option FollowResult
  | 0, _, _, _, _ => none
  | n + 1, rest, atStartOfLine, lastTimestamp, sink =>
    let afterTimestamp : Sum FollowResult (List Byte × List Byte × List Byte) :=
      if atStartOfLine then
        match w.readString SP rest with
        | (_, some err, _) => Sum.inl ⟨sink, lastTimestamp, err⟩
        | (localLastTimestamp, none, rest') =>
          Sum.inr (rest', localLastTimestamp,
            if includeTimestamps then sink ++ localLastTimestamp else sink)
      else Sum.inr (rest, lastTimestamp, sink)
    match afterTimestamp with
    | Sum.inl res => some res
    | Sum.inr (rest, lastTimestamp, sink) =>
      match w.readLine rest with
      | (_, _, some err, _) => some ⟨sink, lastTimestamp, err⟩
      | (line, isPrefix, none, rest') =>
        Wire.followLoop w includeTimestamps n rest' (!isPrefix) lastTimestamp
          (if isPrefix then sink ++ line else sink ++ line ++ [LF])

/-! ## Log streams made of lines -/

/-- A line of a log stream: the timestamp token and the payload. -/
structure LogLine where
  timestamp : List Byte
  payload : List Byte
deriving DecidableEq, Repr

/-- The bytes of a line in the stream: the timestamp, a space, the payload and
a newline. -/
def LogLine.bytes (l : LogLine) : List Byte := l.timestamp ++ SP :: (l.payload ++ [LF])

/-- The timestamp holds no space and no newline, the payload no newline. -/
def LogLine.wellFormed (l : LogLine) : Prop :=
  SP ∉ l.timestamp ∧ LF ∉ l.timestamp ∧ LF ∉ l.payload

instance (l : LogLine) : Decidable l.wellFormed := by
  unfold LogLine.wellFormed; infer_instance

/-- A payload without the carriage return at its end, if it has one. -/
def stripCR (p : List Byte) : List Byte :=
  if p.getLast? = some CR then p.dropLast else p

/-- The cursor after the lines `lines`, when it was `last` before them: the
timestamp of the last line with its space. -/
def lastCursor (last : List Byte) (lines : List LogLine) : List Byte :=
  match lines.getLast? with
  | none => last
  | some l => l.timestamp ++ [SP]

/-! ## getLogs -/

/-- The type `url.Values` as `getLogs` uses it: the parameters with their value,
in the order they were added (`Encode` sorts them by key). -/
abbrev Values := List (String × List Byte)

/-- The method `Add` of `url.Values`, for a key that is not there yet. -/
def Values.Add (v : Values) (key : String) (value : List Byte) : Values := v ++ [(key, value)]

/-- The method `Set` of `url.Values`: the key keeps this value alone. -/
def Values.Set (v : Values) (key : String) (value : List Byte) : Values :=
  v.filter (fun p => p.1 ≠ key) ++ [(key, value)]

/-- The function `strconv.Itoa` on a number that is not negative. -/
def Itoa (n : Int) : List Byte := ascii (toString n.toNat)

/-- A request `GET v1/runs/<runId>/logs?<query>` sent by `getLogs`. -/
structure LogsRequest where
  runId : String
  query : Values
deriving DecidableEq, Repr

/-- Errors `getLogs` returns. -/
inductive LogsErr where
  /-- The error of `tyger.InvokeRequest`. -/
  | invoke (msg : String)
  /-- The error of `io.Copy`. -/
  | copy (e : IOErr)
deriving DecidableEq, Repr

/-- How `getLogs` ends: it returns (`none` for nil), or it waits for a response
that is not scripted. -/
inductive LogsResult where
  | returned (err : Option LogsErr)
  | blocked
deriving DecidableEq, Repr

/-- What `getLogs` did: how it ended, the sink and the requests it sent. -/
structure LogsOutcome where
  result : LogsResult
  sink : List Byte
  requests : List LogsRequest
deriving DecidableEq, Repr

/-- The `for` loop of `getLogs`: the k-th request is answered by the k-th
element of the list, an error of `tyger.InvokeRequest` or a response body. -/
def getLogsLoop (runId : String) (timestamps follow : Bool) :
    List (Except String Source) → Values → List Byte → List LogsRequest → Option LogsOutcome
  | [], queryOptions, outputSink, sent =>
    some ⟨LogsResult.blocked, outputSink, sent ++ [⟨runId, queryOptions⟩]⟩
  | Except.error err :: _, queryOptions, outputSink, sent =>
    some ⟨LogsResult.returned (some (LogsErr.invoke err)), outputSink,
      sent ++ [⟨runId, queryOptions⟩]⟩
  | Except.ok body :: responses, queryOptions, outputSink, sent =>
    if ¬ follow then
      some ⟨LogsResult.returned (if body.final = IOErr.eof then none else some (LogsErr.copy body.final)),
        outputSink ++ body.data, sent ++ [⟨runId, queryOptions⟩]⟩
    else
      match followLogs body timestamps outputSink with
      | none => none
      | some r =>
        if r.err = IOErr.eof then
          some ⟨LogsResult.returned none, r.sink, sent ++ [⟨runId, queryOptions⟩]⟩
        else
          getLogsLoop runId timestamps follow responses
            (if r.lastTimestamp.length > 0 then queryOptions.Set "since" r.lastTimestamp
              else queryOptions)
            r.sink (sent ++ [⟨runId, queryOptions⟩])

/-- The query options `getLogs` builds before its loop; `since` is the value of
`since.UTC().Format(time.RFC3339Nano)` when a time was given. -/
def logsQueryOptions (timestamps : Bool) (tailLines : Int) (since : Option (List Byte))
    (follow : Bool) : Values :=
  let q0 : Values := []
  let q1 := if follow || timestamps then q0.Add "timestamps" (ascii "true") else q0
  let q2 := if tailLines ≥ 0 then q1.Add "tailLines" (Itoa tailLines) else q1
  let q3 :=
    match since with
    | some s => q2.Add "since" s
    | none => q2
  if follow then q3.Add "follow" (ascii "true") else q3

/-- The function `getLogs(runId, timestamps, tailLines, since, follow,
outputSink)`, with the answers to its successive requests. -/
def getLogs (runId : String) (timestamps : Bool) (tailLines : Int) (since : Option (List Byte))
    (follow : Bool) (outputSink : List Byte) (responses : List (Except String Source)) :
    Option LogsOutcome :=
  getLogsLoop runId timestamps follow responses
    (logsQueryOptions timestamps tailLines since follow) outputSink []

/-! ## GetUriFromAccessString -/

/-- An `os.FileInfo`: `IsDir()` and `Size()`, which `GetUriFromAccessString`
reads, and `Mode().IsRegular()`, which it never consults and which tells a
regular file from a pipe or a device. -/
structure FileInfo where
  IsDir : Bool
  Size : Nat
  IsRegular : Bool
deriving DecidableEq, Repr

/-- The file system: `Stat` is `none` when `os.Stat` returns an error;
`ReadFile` gives the contents or the error of `os.ReadFile`. -/
structure FileSystem where
  Stat : String → Option FileInfo
  ReadFile : String → Except String String

/-- The function `strings.TrimRight(s, cutset)`. -/
def TrimRight (s : String) (cutset : List Char) : String :=
  String.mk (s.toList.reverse.dropWhile (fun c => c ∈ cutset)).reverse

/-- The message of the error for an invalid access string. -/
def invalidAccessString : String :=
  "the buffer access string is invalid. It must be a URI or the path of a file whose contents is a URI"

/-- The function `GetUriFromAccessString`; `parsesAbs s` tells whether
`url.Parse(s)` succeeds with a URI for which `IsAbs()` holds. -/
def GetUriFromAccessString (fs : FileSystem) (parsesAbs : String → Bool) (accessString : String) :
    Except String String :=
  let resolved : Except String String :=
    match fs.Stat accessString with
    | some fi =>
      if ¬ fi.IsDir then
        if fi.Size < 2 * 1024 then
          match fs.ReadFile accessString with
          | Except.error err =>
            Except.error ("unable to read URI string from file " ++ accessString ++ ": " ++ err)
          | Except.ok accessStringBytes => Except.ok (TrimRight accessStringBytes [' ', '\r', '\n'])
        else Except.ok accessString
      else Except.ok accessString
    | none => Except.ok accessString
  match resolved with
  | Except.error err => Except.error err
  | Except.ok accessString =>
    if ¬ parsesAbs accessString then Except.error invalidAccessString
    else Except.ok accessString

/-! ## InvokeRequest -/

/-- The type `http.Header`: keys with their values. -/
abbrev Header := List (String × List String)

/-- The method `Set` of `http.Header`. -/
def Header.Set (h : Header) (key value : String) : Header :=
  h.filter (fun p => p.1 ≠ key) ++ [(key, [value])]

/-- The method `Add` of `http.Header`. -/
def Header.Add (h : Header) (key value : String) : Header :=
  if h.any (fun p => p.1 = key) then
    h.map (fun p => if p.1 = key then (p.1, p.2 ++ [value]) else p)
  else h ++ [(key, [value])]

/-- The method `Values` of `http.Header`. -/
def Header.Values (h : Header) (key : String) : List String :=
  match h.lookup key with
  | some vs => vs
  | none => []

/-- A request as `InvokeRequest` builds it. -/
structure HttpRequest where
  Method : String
  URL : String
  Header : Header
  Body : Option (List Byte)
deriving DecidableEq, Repr

/-- What `InvokeRequest` has done when it calls `Do(req)`: the lines printed on
stderr and the request it sends. -/
structure Invocation where
  stderr : List String
  req : HttpRequest
deriving DecidableEq, Repr

/-- The function `InvokeRequest` up to the call `Do(req)`, once the context has
given the server URI and `GetAccessToken` its result. `serverUriIsAbs` tells
whether the server URI parses as an absolute URI, `input` is nil or the result
of `json.Marshal(input)`, `newRequestErr` is the error of
`retryablehttp.NewRequest` and `DumpRequestOut` stands for
`httputil.DumpRequestOut(req.Request, true)`. -/
def InvokeRequest (serverUri : String) (serverUriIsAbs : Bool)
    (accessToken : Except String String) (input : Option (Except String (List Byte)))
    (newRequestErr : Option String) (DumpRequestOut : HttpRequest → Except String String)
    (method relativeUri : String) (verbose : Bool) : Except String Invocation :=
  if ¬ serverUriIsAbs then Except.error "run 'tyger login' to connect to a Tyger server"
  else
    match accessToken with
    | Except.error err =>
      Except.error ("run 'tyger login' to connect to a Tyger server: " ++ err)
    | Except.ok token =>
      let absoluteUri := serverUri ++ "/" ++ relativeUri
      let body : Except String (Option (List Byte)) :=
        match input with
        | none => Except.ok none
        | some (Except.error err) => Except.error ("unable to serialize payload: " ++ err)
        | some (Except.ok serializedBody) => Except.ok (some serializedBody)
      match body with
      | Except.error err => Except.error err
      | Except.ok body =>
        match newRequestErr with
        | some err => Except.error err
        | none =>
          let req0 : HttpRequest := ⟨method, absoluteUri, [], body⟩
          let req1 := { req0 with Header := req0.Header.Set "Content-Type" "application/json" }
          let dumped : List String × HttpRequest :=
            if verbose then
              let req2 :=
                if token ≠ "" then
                  { req1 with Header := req1.Header.Add "Authorization" "Bearer --REDACTED--" }
                else req1
              match DumpRequestOut req2 with
              | Except.ok debugOutput =>
                (["====REQUEST=====", debugOutput, "==END REQUEST===", ""], req2)
              | Except.error _ => ([], req2)
            else ([], req1)
          let req3 :=
            if token ≠ "" then
              { dumped.2 with Header := dumped.2.Header.Set "Authorization" ("Bearer " ++ token) }
            else dumped.2
          Except.ok ⟨dumped.1, req3⟩

/-! ## Helpers for the statements about exec and access strings -/

/-- The name of a list that declares exactly one, the empty string (no
parameter chosen) otherwise. -/
def onlyName : List String → String
  | [name] => name
  | _ => ""

/-- Whether a task writes stdin to the input buffer. -/
def Task.isWrite : Task → Bool
  | Task.write _ => true
  | _ => false

/-- Whether a task reads the output buffer to stdout. -/
def Task.isRead : Task → Bool
  | Task.read _ => true
  | _ => false

/-- A stand-in for `url.Parse` and `IsAbs` in the examples: the strings that
start with the scheme `https://` and hold no space. -/
def exampleParsesAbs (s : String) : Bool :=
  "https://".toList.isPrefixOf s.toList && !(s.toList.contains ' ')

/-- A file system with one file, `uri.txt`, whose contents is a URI with a
space before it and a newline after it. -/
def exampleFs : FileSystem :=
  ⟨fun path => if path = "uri.txt" then some ⟨false, 17, true⟩ else none,
   fun path => if path = "uri.txt" then Except.ok " https://store/b\n"
     else Except.error "no such file or directory"⟩

/-! ## Buffer transfer: package `bufferproxy` -/

/-- Modelled from the spec: package `bufferproxy` is not among the sources,
run.go only calls `bufferproxy.Write` and `bufferproxy.Read`. The blocks
persisted under a buffer's access URI, each with its zero-based index, in the
order in which their uploads completed. -/
abbrev BlockStore := List (Nat × List Byte)

/-- Modelled from the spec: the partition of the source into sequential blocks
of `blockSize` bytes, the last of which may be shorter; an empty source has no
block. The first argument bounds the number of blocks. -/
def partitionBlocks (blockSize : Nat) : Nat → List Byte → List (List Byte)
  | 0, _ => []
  | n + 1, source =>
    if source = [] then []
    else source.take blockSize :: partitionBlocks blockSize n (source.drop blockSize)

/-- Modelled from the spec: the blocks `Write` uploads, by index: those of the
source, then the terminal zero-length block at the following index. -/
def blocksToUpload (blockSize : Nat) (source : List Byte) : List (List Byte) :=
  partitionBlocks blockSize source.length source ++ [[]]

/-- Modelled from the spec: the transfer that completes next among those in
flight. The spec leaves the order of completion open; `pick` settles it. -/
def completes (pick : Nat) (inflight : List Nat) : Option Nat :=
  inflight[pick % inflight.length]?

/-- Modelled from the spec: the pool of `dop` workers of `write`. Every idle
worker takes the next unsent index; then one upload in flight completes, the
one `picks` names, and its block is persisted. The loop ends when nothing is in
flight and nothing is left to send. -/
def writeLoop (dop : Nat) (blocks : List (List Byte)) :
    Nat → List Nat → Nat → List Nat → BlockStore → BlockStore
  | 0, _, _, _, store => store
  | fuel + 1, picks, next, inflight, store =>
    let started := min (dop - inflight.length) (blocks.length - next)
    match completes (picks.headD 0) (inflight ++ List.range' next started) with
    | none => store
    | some i =>
      writeLoop dop blocks fuel picks.tail (next + started)
        ((inflight ++ List.range' next started).erase i) (store ++ [(i, blocks.getD i [])])

/-- Modelled from the spec: `bufferproxy.Write(uri, dop, blockSize, source)`,
with the transport taken as reliable: the blocks persisted under `uri` when the
call returns. `picks` is the order in which the uploads complete. -/
def Write (dop blockSize : Nat) (source : List Byte) (picks : List Nat) : BlockStore :=
  writeLoop dop (blocksToUpload blockSize source) (blocksToUpload blockSize source).length
    picks 0 [] []

/-- Modelled from the spec: the loop of `read`. If the block of the next index
to write is in the holding area, it is written to the sink and leaves the
holding area, or, when it is the zero-length block, the loop stops without
writing it. Otherwise the workers fetch the next unfetched indices, as long as
fewer than `dop` blocks are fetched or in flight and not yet written; a fetch
of a block that is not in the store does not complete; one of the others
completes, the one `picks` names, and its block goes to the holding area.
The result is `none` when the fuel runs out or no fetch can complete. -/
def readLoop (dop : Nat) (store : BlockStore) :
    Nat → List Nat → Nat → List Nat → BlockStore → Nat → List Byte → Option (List Byte)
  | 0, _, _, _, _, _, _ => none
  | fuel + 1, picks, nextFetch, inflight, holding, nextWrite, sink =>
    match holding.lookup nextWrite with
    | some block =>
      if block = [] then some sink
      else
        readLoop dop store fuel picks nextFetch inflight
          (holding.filter (fun p => p.1 != nextWrite)) (nextWrite + 1) (sink ++ block)
    | none =>
      let started := nextWrite + dop - nextFetch
      match completes (picks.headD 0)
          ((inflight ++ List.range' nextFetch started).filter
            (fun i => (store.lookup i).isSome)) with
      | none => none
      | some i =>
        readLoop dop store fuel picks.tail (nextFetch + started)
          ((inflight ++ List.range' nextFetch started).erase i)
          ((i, (store.lookup i).getD []) :: holding) nextWrite sink

/-- Modelled from the spec: `bufferproxy.Read(uri, dop, sink)` on the blocks
persisted under `uri`, with the transport taken as reliable: the content of the
sink when the call returns. `picks` is the order in which the fetches
complete. Every block is fetched once and written or recognised as terminal
once, hence the fuel. -/
def Read (store : BlockStore) (dop : Nat) (picks : List Nat) (sink : List Byte) :
    Option (List Byte) :=
  readLoop dop store (2 * store.length) picks 0 [] [] 0 sink

/-! ## The run specification: file and flags -/

/-- Modelled from the spec: package `model` is not among the sources. The
struct `model.Codespec` as the run specification holds it inline: `Kind` is
the field RunE assigns, next to the buffer parameters. -/
structure InlineCodespec where
  Kind : String
  Buffers : Option BufferParameters
deriving DecidableEq, Repr

/-- Modelled from the spec: package `model` is not among the sources. The
struct `model.CodespecRef` of a run specification. -/
structure SpecCodespecRef where
  Inline : Option InlineCodespec
  Named : Option String
deriving DecidableEq, Repr

/-- Modelled from the spec: package `model` is not among the sources. The
struct `model.RunCodeTarget` with the fields RunE assigns from the flags;
`Buffers` is `none` for a nil map. -/
structure SpecCodeTarget where
  Codespec : SpecCodespecRef
  Buffers : Option (List (String × String))
  NodePool : String
  Replicas : Int
deriving DecidableEq, Repr

/-- Modelled from the spec: package `model` is not among the sources. The
struct `model.Run` as RunE assembles it before it is posted: the job, the
optional worker, the cluster and the timeout. -/
structure RunSpec where
  Job : SpecCodeTarget
  Worker : Option SpecCodeTarget
  Cluster : String
  TimeoutSeconds : Option Int
deriving DecidableEq, Repr

/-- The zero value `model.RunCodeTarget{}`. -/
def SpecCodeTarget.zero : SpecCodeTarget := ⟨⟨none, none⟩, none, "", 0⟩

/-- The zero value `model.Run{}`. -/
def RunSpec.zero : RunSpec := ⟨SpecCodeTarget.zero, none, "", none⟩

/-- The struct `codeTargetFlags` of `newRunCreateCommandCore`. -/
structure codeTargetFlags where
  codespec : String
  codespecVersion : String
  buffers : List (String × String)
  nodePool : String
  replicas : Int
deriving DecidableEq, Repr

/-- The variable `flags` of `newRunCreateCommandCore`. -/
structure CreateFlags where
  specFile : String
  job : codeTargetFlags
  worker : codeTargetFlags
  cluster : String
  timeout : String
deriving DecidableEq, Repr

/-- The flags of the command as the command line gives them: `none` for a flag
that was not passed. -/
structure CommandLine where
  file : Option String
  codespec : Option String
  version : Option String
  replicas : Option Int
  nodePool : Option String
  buffer : Option (List (String × String))
  workerCodespec : Option String
  workerVersion : Option String
  workerReplicas : Option Int
  workerNodePool : Option String
  cluster : Option String
  timeout : Option String
deriving DecidableEq, Repr

/-- The command line without any flag. -/
def CommandLine.empty : CommandLine :=
  ⟨none, none, none, none, none, none, none, none, none, none, none, none⟩

/-- The flag definitions of `newRunCreateCommandCore`: a flag that was not
passed leaves its variable at the default, which is 1 for `--replicas` and
`--worker-replicas`, the empty string for the string flags and nil for
`--buffer`. -/
def parseFlags (args : CommandLine) : CreateFlags :=
  ⟨args.file.getD "",
   ⟨args.codespec.getD "", args.version.getD "", args.buffer.getD [], args.nodePool.getD "",
    args.replicas.getD 1⟩,
   ⟨args.workerCodespec.getD "", args.workerVersion.getD "", [], args.workerNodePool.getD "",
    args.workerReplicas.getD 1⟩,
   args.cluster.getD "", args.timeout.getD ""⟩

/-- Whether `VisitAll` meets a flag that is `Changed` and whose name starts
with `worker`. -/
def workerFlagChanged (args : CommandLine) : Bool :=
  args.workerCodespec.isSome || args.workerVersion.isSome || args.workerReplicas.isSome
    || args.workerNodePool.isSome

/-- The closure `getCodespecRef` of `newRunCreateCommandCore`. -/
def getCodespecRef (ctf : codeTargetFlags) : SpecCodespecRef :=
  ⟨none, some (if ctf.codespecVersion ≠ "" then ctf.codespec ++ "/versions/" ++ ctf.codespecVersion
    else ctf.codespec)⟩

/-- The assignment `m[k] = v` in a Go map. -/
def mapAssign (m : List (String × String)) (k v : String) : List (String × String) :=
  m.filter (fun p => p.1 != k) ++ [(k, v)]

/-- The first part of RunE: the run specification read from the file,
strictly decoded by `UnmarshalStrict`. -/
def readSpecFile (ReadFile : String → Except String (List Byte))
    (UnmarshalStrict : List Byte → Except String RunSpec) (specFile : String) :
    Except String RunSpec :=
  if specFile ≠ "" then
    match ReadFile specFile with
    | Except.error err => Except.error ("failed to read file " ++ specFile ++ ": " ++ err)
    | Except.ok bytes =>
      match UnmarshalStrict bytes with
      | Except.error err => Except.error ("failed to parse file " ++ specFile ++ ": " ++ err)
      | Except.ok newRun =>
        let job : SpecCodeTarget :=
          match newRun.Job.Codespec.Inline with
          | some inline =>
            ⟨⟨some ⟨"job", inline.Buffers⟩, newRun.Job.Codespec.Named⟩, newRun.Job.Buffers,
              newRun.Job.NodePool, newRun.Job.Replicas⟩
          | none => newRun.Job
        let worker : Option SpecCodeTarget :=
          match newRun.Worker with
          | some w =>
            match w.Codespec.Inline with
            | some inline =>
              some ⟨⟨some ⟨"worker", inline.Buffers⟩, w.Codespec.Named⟩, w.Buffers, w.NodePool,
                w.Replicas⟩
            | none => some w
          | none => none
        Except.ok ⟨job, worker, newRun.Cluster, newRun.TimeoutSeconds⟩
  else Except.ok RunSpec.zero

/-- The part of RunE that applies the flags of one code target, for the job:
codespec, buffers, node pool and replicas. -/
def applyJobFlags (job : codeTargetFlags) (target : SpecCodeTarget) : SpecCodeTarget :=
  let codespec := if job.codespec ≠ "" then getCodespecRef job else target.Codespec
  let buffers :=
    if job.buffers.length > 0 then
      some (job.buffers.foldl (fun m p => mapAssign m p.1 p.2) (target.Buffers.getD []))
    else target.Buffers
  let nodePool := if job.nodePool ≠ "" then job.nodePool else target.NodePool
  let replicas := if job.replicas ≠ 0 then job.replicas else target.Replicas
  ⟨codespec, buffers, nodePool, replicas⟩

/-- The part of RunE that applies the flags of the worker: codespec, node pool
and replicas. -/
def applyWorkerFlags (worker : codeTargetFlags) (target : SpecCodeTarget) : SpecCodeTarget :=
  let codespec := if worker.codespec ≠ "" then getCodespecRef worker else target.Codespec
  let nodePool := if worker.nodePool ≠ "" then worker.nodePool else target.NodePool
  let replicas := if worker.replicas ≠ 0 then worker.replicas else target.Replicas
  ⟨codespec, target.Buffers, nodePool, replicas⟩

/-- The run RunE assembles from the spec file and the flags, before
`preValidate` and the POST of the run: the value of `newRun`, or the error RunE
returns. `timeoutSeconds` stands for `time.ParseDuration` followed by
`int(duration.Seconds())`. -/
def RunE.newRun (ReadFile : String → Except String (List Byte))
    (UnmarshalStrict : List Byte → Except String RunSpec)
    (timeoutSeconds : String → Except String Int) (args : CommandLine) : Except String RunSpec :=
  let flags := parseFlags args
  match readSpecFile ReadFile UnmarshalStrict flags.specFile with
  | Except.error err => Except.error err
  | Except.ok newRun =>
    let job := applyJobFlags flags.job newRun.Job
    let worker : Option SpecCodeTarget :=
      match newRun.Worker with
      | some w => some w
      | none => if workerFlagChanged args then some SpecCodeTarget.zero else none
    let worker := worker.map (applyWorkerFlags flags.worker)
    let cluster := if flags.cluster ≠ "" then flags.cluster else newRun.Cluster
    if flags.timeout ≠ "" then
      match timeoutSeconds flags.timeout with
      | Except.error err => Except.error err
      | Except.ok seconds => Except.ok ⟨job, worker, cluster, some seconds⟩
    else Except.ok ⟨job, worker, cluster, newRun.TimeoutSeconds⟩

/-! ## Paged listings: InvokePageRequests -/

/-- Modelled from the spec: package `model` is not among the sources. What
`InvokePageRequests` reads of a `model.Page`: `GetItems()` and
`GetNextLink()`; an item stands for its JSON value. -/
structure Page where
  Items : List String
  NextLink : String
deriving DecidableEq, Repr

/-- The variables `InvokePageRequests` shares with its caller through
pointers, `uri`, `firstPage` and `totalPrinted`, with the standard output and,
for the proofs, the items whose JSON went to it. -/
structure PageState where
  uri : String
  firstPage : Bool
  totalPrinted : Int
  stdout : String
  printed : List String
deriving DecidableEq, Repr

/-- The function `strings.TrimLeft(s, "/")`. -/
def TrimLeftSlash (s : String) : String := String.mk (s.toList.dropWhile (fun c => c == '/'))

/-- The loop `for i, r := range page.GetItems()` of `InvokePageRequests`, from
index `i` on. The second component is `none` when the loop ends, and what the
function returns when it returns inside the loop. -/
def printItems (MarshalIndent : String → Except String String) (limit : Int) :
    Nat → List String → PageState → PageState × Option (Option String)
  | _, [], st => (st, none)
  | i, r :: rest, st =>
    let out := if !st.firstPage || i != 0 then st.stdout ++ ",\n  " else st.stdout
    match MarshalIndent r with
    | Except.error err => (⟨st.uri, st.firstPage, st.totalPrinted, out, st.printed⟩, some (some err))
    | Except.ok formattedRun =>
      if st.totalPrinted + 1 = limit then
        (⟨"", st.firstPage, st.totalPrinted + 1, out ++ formattedRun ++ "\n]\n",
          st.printed ++ [r]⟩, some none)
      else
        printItems MarshalIndent limit (i + 1) rest
          ⟨st.uri, st.firstPage, st.totalPrinted + 1, out ++ formattedRun, st.printed ++ [r]⟩

/-- The function `InvokePageRequests` of common.go: `response` is what
`InvokeRequest` gives for the GET of `uri`, `MarshalIndentAll` and
`MarshalIndent` are `json.MarshalIndent` on the items and on one item. The
result is the error returned and the shared variables after the call. -/
def InvokePageRequests (MarshalIndentAll : List String → Except String String)
    (MarshalIndent : String → Except String String) (response : Except String Page)
    (limit : Int) (st : PageState) : Option String × PageState :=
  match response with
  | Except.error err => (some err, st)
  | Except.ok page =>
    if st.firstPage && page.NextLink == "" then
      match MarshalIndentAll page.Items with
      | Except.error err => (some err, st)
      | Except.ok formattedRuns =>
        (none, ⟨"", st.firstPage, st.totalPrinted, st.stdout ++ formattedRuns ++ "\n",
          st.printed ++ page.Items⟩)
    else
      let out := if st.firstPage then st.stdout ++ "[\n  " else st.stdout
      match printItems MarshalIndent limit 0 page.Items
          ⟨st.uri, st.firstPage, st.totalPrinted, out, st.printed⟩ with
      | (st1, some result) => (result, st1)
      | (st1, none) =>
        let uri := TrimLeftSlash page.NextLink
        (none, ⟨uri, false, st1.totalPrinted,
          if uri = "" then st1.stdout ++ "\n]\n" else st1.stdout, st1.printed⟩)

/-- Modelled from the spec: the callers of `InvokePageRequests` are not among
the sources. The calls a caller makes on the shared variables until `uri` is
empty or an error is returned, the server answering the calls with `responses`
in turn. The result is `none` when the responses run out before that. -/
def invokePages (MarshalIndentAll : List String → Except String String)
    (MarshalIndent : String → Except String String) (limit : Int) :
    List (Except String Page) → PageState → Option (Option String × PageState)
  | [], _ => none
  | response :: responses, st =>
    match InvokePageRequests MarshalIndentAll MarshalIndent response limit st with
    | (some err, st1) => some (some err, st1)
    | (none, st1) =>
      if st1.uri = "" then some (none, st1)
      else invokePages MarshalIndentAll MarshalIndent limit responses st1

/-! ## Examples of inputs -/

/-- A stand-in for `json.Unmarshal` in the examples: it decodes the two lines
`"Running"` and `"Succeeded"` below as runs with that status and rejects every
other line, as `json.Unmarshal` rejects a line that is not JSON. -/
def exampleUnmarshal (line : List Byte) : Except String Run :=
  if line = ascii "\x7b\"status\":\"Running\"\x7d\n" then
    Except.ok ⟨⟨7, "Running", "", none⟩, ⟨⟨none, some "c"⟩, []⟩⟩
  else if line = ascii "\x7b\"status\":\"Succeeded\"\x7d\n" then
    Except.ok ⟨⟨7, "Succeeded", "", none⟩, ⟨⟨none, some "c"⟩, []⟩⟩
  else Except.error "invalid character"

/-- A run whose job names a codespec and maps no buffer. -/
def exampleRun : Run := ⟨⟨7, "Pending", "", none⟩, ⟨⟨none, some "c"⟩, []⟩⟩

/-- A stand-in for `getBufferAccessUri` in the examples. -/
def exampleAccess (bufferId : String) (_writeable : Bool) : Except String String :=
  Except.ok ("https://store/" ++ bufferId)

/-! ## The statuses that keep the exec loop watching -/

/-- The event statuses whose `case` in the `switch` of `postCreate` is empty. -/
def keepsWatching (ev : RunMetadata) : Prop := ev.Status = "Pending" ∨ ev.Status = "Running"

instance (ev : RunMetadata) : Decidable (keepsWatching ev) := by
  unfold keepsWatching; infer_instance

/-- The event statuses that reach the `default` arm of the `switch`. -/
def isFailure (ev : RunMetadata) : Prop :=
  ev.Status ≠ "Succeeded" ∧ ev.Status ≠ "Pending" ∧ ev.Status ≠ "Running"

instance (ev : RunMetadata) : Decidable (isFailure ev) := by
  unfold isFailure; infer_instance

lemma execSelect_keepsWatching (c : Nat) (ev : RunMetadata) (h : keepsWatching ev) :
    execSelect c (Received.event ev) = ExecStep.watching 0 := by
  rcases h with h | h <;> simp [execSelect, h]

lemma execSelect_succeeded (c : Nat) (ev : RunMetadata) (h : ev.Status = "Succeeded") :
    execSelect c (Received.event ev) = ExecStep.toEnd := by
  simp [execSelect, h]

lemma execSelect_failure (c : Nat) (ev : RunMetadata) (h : isFailure ev) :
    execSelect c (Received.event ev)
      = ExecStep.fatal (ExecResult.fatalRunFailed ev.Status ev.StatusReason) := by
  obtain ⟨h1, h2, h3⟩ := h
  simp [execSelect, h1, h2, h3]

/-- Events that keep the loop watching are all consumed; the counter is 0 after
the first of them. -/
lemma execFor_keepsWatching (evs : List RunMetadata) :
    ∀ (c n : Nat) (tail : List RunMetadata) (stop : WatchStop),
      (∀ ev ∈ evs, keepsWatching ev) →
      execFor c n (evs ++ tail) stop
        = execFor (if evs = [] then c else 0) (n + evs.length) tail stop := by
  induction evs with
  | nil => intro c n tail stop _; simp
  | cons ev evs ih =>
    intro c n tail stop h
    have hev : keepsWatching ev := h ev (List.mem_cons_self _ _)
    have hrest : ∀ e ∈ evs, keepsWatching e := fun e he => h e (List.mem_cons_of_mem _ he)
    have hlen : n + 1 + evs.length = n + (evs.length + 1) := by omega
    have hstep := ih 0 (n + 1) tail stop hrest
    rw [hlen] at hstep
    simp only [List.cons_append, execFor, execSelect_keepsWatching c ev hev, List.length_cons,
      List.append_eq]
    rw [hstep]
    simp

/-! ## The exec watch loop: statuses -/

/-- C1 (code at the failing input): in the `select` of `postCreate` an event
with status "Pending" or "Running" keeps the loop watching with the error
counter at 0, but an event with status "ContainerCreating" reaches the
`default` arm: the process exits through `log.Fatal` with "Run failed.". -/
theorem exec_containerCreating_is_fatal (c : Nat) (id : Int) (reason : String)
    (count : Option Int) :
    execSelect c (Received.event ⟨id, "Pending", reason, count⟩) = ExecStep.watching 0
    ∧ execSelect c (Received.event ⟨id, "Running", reason, count⟩) = ExecStep.watching 0
    ∧ execSelect c (Received.event ⟨id, "ContainerCreating", reason, count⟩)
        = ExecStep.fatal (ExecResult.fatalRunFailed "ContainerCreating" reason)
    ∧ (postCreate exampleAccess ⟨false, "", ""⟩
        [⟨[⟨id, "ContainerCreating", reason, count⟩, ⟨id, "Succeeded", "", count⟩],
          WatchStop.closed⟩] exampleRun).result
        = ExecResult.fatalRunFailed "ContainerCreating" reason := by
  refine ⟨?_, ?_, ?_, ?_⟩
  · simp [execSelect]
  · simp [execSelect]
  · simp [execSelect]
  · simp [postCreate, accessUris, execWatch, execFor, execSelect]

/-- C2: watch retry bound of the exec loop. From a state where the last thing
received was not an error (`c = 0`, or at least one event `evs` precedes the
error), a watch error makes the loop call `watchRun` once more; if the new
subscription delivers an error first, the process exits as fatal after these
two calls, whatever further subscriptions would deliver; if it delivers at
least one event before its error, that error is not fatal and `watchRun` is
called again. -/
theorem exec_watch_retry_bound (c calls n : Nat) (evs evs' : List RunMetadata)
    (e1 e2 : WatchError) (rest : List Subscription)
    (hq : ∀ ev ∈ evs, keepsWatching ev) (hq' : ∀ ev ∈ evs', keepsWatching ev)
    (hc : c = 0 ∨ evs ≠ []) :
    execWatch c calls n (⟨evs, WatchStop.error e1⟩ :: rest)
        = execWatch 1 (calls + 1) (n + evs.length) rest
    ∧ execWatch c calls n (⟨evs, WatchStop.error e1⟩ :: ⟨[], WatchStop.error e2⟩ :: rest)
        = ⟨ExecResult.fatalWatch e2, calls + 2, n + evs.length⟩
    ∧ (evs' ≠ [] →
        execWatch c calls n (⟨evs, WatchStop.error e1⟩ :: ⟨evs', WatchStop.error e2⟩ :: rest)
          = execWatch 1 (calls + 2) (n + evs.length + evs'.length) rest) := by
  have hfirst : ∀ (tl : List Subscription),
      execWatch c calls n (⟨evs, WatchStop.error e1⟩ :: tl)
        = execWatch 1 (calls + 1) (n + evs.length) tl := by
    intro tl
    have h := execFor_keepsWatching evs c n [] (WatchStop.error e1) hq
    rw [List.append_nil] at h
    have hzero : (if evs = [] then c else 0) = 0 := by
      rcases hc with hc | hc
      · simp [hc]
      · simp [hc]
    rw [hzero] at h
    simp [execWatch, h, execFor, execSelect]
  refine ⟨hfirst rest, ?_, ?_⟩
  · rw [hfirst]
    simp [execWatch, execFor, execSelect]
  · intro hne
    rw [hfirst]
    have h := execFor_keepsWatching evs' 1 (n + evs.length) [] (WatchStop.error e2) hq'
    rw [List.append_nil] at h
    simp only [hne, if_false] at h
    simp [execWatch, h, execFor, execSelect]

/-- Witness of C2: a "Running" event, an error, then an immediate second error. -/
theorem exec_watch_retry_bound_witness :
    execWatch 0 0 0 [⟨[⟨7, "Running", "", none⟩], WatchStop.error (WatchError.invoke "reset")⟩,
      ⟨[], WatchStop.error (WatchError.invoke "reset")⟩, ⟨[], WatchStop.closed⟩]
      = ⟨ExecResult.fatalWatch (WatchError.invoke "reset"), 2, 1⟩ :=
  (exec_watch_retry_bound 0 0 0 [⟨7, "Running", "", none⟩] [] (WatchError.invoke "reset")
    (WatchError.invoke "reset") [⟨[], WatchStop.closed⟩] (by decide) (by decide) (by decide)).2.1

/-! ## The cardinality check of preValidate -/

/-- C3: when the codespec the job resolves to (the inline one, or the answer to
the request for the named one) declares two or more input buffer parameters,
`preValidate` returns "exec cannot be called if the job has multiple input
buffers" and the command returns that error with no `POST v1/runs` among the
requests sent; with at most one input and two or more output buffer parameters
the same holds with the "multiple output buffers" error. -/
theorem preValidate_rejects_multiple_buffers
    (getCodespec : String → Except String Codespec) (vars : ExecVars) (run : Run)
    (codespec : Codespec) (bufferParameters : BufferParameters)
    (postRun : Run → Except String Run) (postCreate : Option (ExecVars → Run → Option String))
    (hres : run.Job.Codespec.Inline = some codespec
      ∨ (run.Job.Codespec.Inline = none ∧ ∃ name, run.Job.Codespec.Named = some name
          ∧ getCodespec ("v1/codespecs/" ++ name) = Except.ok codespec))
    (hbuf : codespec.Buffers = some bufferParameters) :
    (2 ≤ bufferParameters.Inputs.length →
      (preValidate getCodespec vars run).1
          = some "exec cannot be called if the job has multiple input buffers"
      ∧ (RunE (some (preValidate getCodespec vars)) postRun postCreate vars run).1
          = some "exec cannot be called if the job has multiple input buffers"
      ∧ HttpCall.post "v1/runs"
          ∉ (RunE (some (preValidate getCodespec vars)) postRun postCreate vars run).2)
    ∧ (bufferParameters.Inputs.length ≤ 1 → 2 ≤ bufferParameters.Outputs.length →
      (preValidate getCodespec vars run).1
          = some "exec cannot be called if the job has multiple output buffers"
      ∧ (RunE (some (preValidate getCodespec vars)) postRun postCreate vars run).1
          = some "exec cannot be called if the job has multiple output buffers"
      ∧ HttpCall.post "v1/runs"
          ∉ (RunE (some (preValidate getCodespec vars)) postRun postCreate vars run).2) := by
  obtain ⟨inputs, outputs⟩ := bufferParameters
  constructor
  · intro hin
    match inputs, hin with
    | a :: b :: l, _ =>
      rcases hres with h | ⟨h, name, hn, hg⟩
      · simp [RunE, preValidate, h, hbuf]
      · simp [RunE, preValidate, h, hn, hg, hbuf]
  · intro hin hout
    match outputs, hout with
    | a :: b :: l, _ =>
      match inputs, hin with
      | [], _ =>
        rcases hres with h | ⟨h, name, hn, hg⟩
        · simp [RunE, preValidate, h, hbuf]
        · simp [RunE, preValidate, h, hn, hg, hbuf]
      | [i], _ =>
        rcases hres with h | ⟨h, name, hn, hg⟩
        · simp [RunE, preValidate, h, hbuf]
        · simp [RunE, preValidate, h, hn, hg, hbuf]

/-- Witness of C3: an inline codespec with two input buffer parameters. -/
theorem preValidate_rejects_multiple_buffers_witness :
    (preValidate (fun _ => Except.error "unreachable") ⟨false, "", ""⟩
        ⟨⟨0, "", "", none⟩, ⟨⟨some ⟨some ⟨["a", "b"], []⟩⟩, none⟩, []⟩⟩).1
      = some "exec cannot be called if the job has multiple input buffers" :=
  ((preValidate_rejects_multiple_buffers (fun _ => Except.error "unreachable") ⟨false, "", ""⟩
    ⟨⟨0, "", "", none⟩, ⟨⟨some ⟨some ⟨["a", "b"], []⟩⟩, none⟩, []⟩⟩
    ⟨some ⟨["a", "b"], []⟩⟩ ⟨["a", "b"], []⟩ (fun r => Except.ok r) none
    (Or.inl rfl) rfl).1 (by decide)).1

/-! ## The exec watch loop: the terminal states -/

/-- C4: when the events of the current subscription are "Pending"/"Running"
events followed by a "Succeeded" event, the watch loop ends at that event:
the events after it are not consumed and `watchRun` is not called again,
whatever the subscription and the later ones hold; `postCreate` returns nil
having waited for every task it started. -/
theorem exec_succeeded_returns_nil
    (getBufferAccessUri : String → Bool → Except String String) (vars : ExecVars) (run : Run)
    (inputSasUri outputSasUri : String) (c calls n : Nat)
    (pre post : List RunMetadata) (ev : RunMetadata) (stop : WatchStop)
    (rest : List Subscription)
    (huris : accessUris getBufferAccessUri vars run = Except.ok (inputSasUri, outputSasUri))
    (hpre : ∀ e ∈ pre, keepsWatching e) (hev : ev.Status = "Succeeded") :
    execWatch c calls n (⟨pre ++ ev :: post, stop⟩ :: rest)
        = ⟨ExecResult.returnedNil, calls + 1, n + pre.length + 1⟩
    ∧ postCreate getBufferAccessUri vars (⟨pre ++ ev :: post, stop⟩ :: rest) run
        = ⟨ExecResult.returnedNil, startedTasks inputSasUri outputSasUri vars.logs,
            startedTasks inputSasUri outputSasUri vars.logs, 1, pre.length + 1⟩ := by
  have hw : ∀ c calls n, execWatch c calls n (⟨pre ++ ev :: post, stop⟩ :: rest)
      = ⟨ExecResult.returnedNil, calls + 1, n + pre.length + 1⟩ := by
    intro c calls n
    have h := execFor_keepsWatching pre c n (ev :: post) stop hpre
    simp [execWatch, h, execFor, execSelect_succeeded _ ev hev]
  refine ⟨hw c calls n, ?_⟩
  simp [postCreate, huris, hw]

/-- Witness of C4: "Pending", "Running", "Succeeded", then an event that is not
consumed; the log task was started and is waited for. -/
theorem exec_succeeded_returns_nil_witness :
    postCreate exampleAccess ⟨true, "", ""⟩
        [⟨[⟨7, "Pending", "", none⟩, ⟨7, "Running", "", some 1⟩, ⟨7, "Succeeded", "", none⟩,
           ⟨7, "Failed", "", none⟩], WatchStop.error WatchError.errNotFound⟩] exampleRun
      = ⟨ExecResult.returnedNil, [Task.logs], [Task.logs], 1, 3⟩ :=
  (exec_succeeded_returns_nil exampleAccess ⟨true, "", ""⟩ exampleRun "" "" 0 0 0
    [⟨7, "Pending", "", none⟩, ⟨7, "Running", "", some 1⟩] [⟨7, "Failed", "", none⟩]
    ⟨7, "Succeeded", "", none⟩ (WatchStop.error WatchError.errNotFound) [] rfl
    (by decide) rfl).2

/-- C5 (counterexample): a "Failed" event while an input transfer and the log
task are running: the process exits through `log.Fatal` and none of the two
started tasks has been waited for. -/
theorem exec_failed_run_exits_without_waiting :
    postCreate exampleAccess ⟨true, "in", ""⟩
        [⟨[⟨7, "Running", "", none⟩, ⟨7, "Failed", "OOMKilled", none⟩], WatchStop.closed⟩]
        ⟨⟨7, "Pending", "", none⟩, ⟨⟨none, some "c"⟩, [("in", "b1")]⟩⟩
      = ⟨ExecResult.fatalRunFailed "Failed" "OOMKilled",
          [Task.write "https://store/b1", Task.logs], [], 1, 2⟩ := by
  decide

/-- C5 (amended): whenever `postCreate` returns nil it has waited for every task
it started; when the current subscription delivers "Pending"/"Running" events
and then an event with a failure status, the process exits through `log.Fatal`
reporting the status and its reason, and no started task has been waited for. -/
theorem exec_waits_only_before_returning_nil
    (getBufferAccessUri : String → Bool → Except String String) (vars : ExecVars) (run : Run)
    (inputSasUri outputSasUri : String)
    (pre post : List RunMetadata) (ev : RunMetadata) (stop : WatchStop)
    (rest : List Subscription)
    (huris : accessUris getBufferAccessUri vars run = Except.ok (inputSasUri, outputSasUri))
    (hpre : ∀ e ∈ pre, keepsWatching e) (hev : isFailure ev) :
    (∀ subs : List Subscription,
      (postCreate getBufferAccessUri vars subs run).result = ExecResult.returnedNil →
      (postCreate getBufferAccessUri vars subs run).joined
        = (postCreate getBufferAccessUri vars subs run).started)
    ∧ postCreate getBufferAccessUri vars (⟨pre ++ ev :: post, stop⟩ :: rest) run
        = ⟨ExecResult.fatalRunFailed ev.Status ev.StatusReason,
            startedTasks inputSasUri outputSasUri vars.logs, [], 1, pre.length + 1⟩ := by
  constructor
  · intro subs
    simp only [postCreate, huris]
    cases hres : (execWatch 0 0 0 subs).result <;> simp
  · have h := execFor_keepsWatching pre 0 0 (ev :: post) stop hpre
    simp [postCreate, huris, execWatch, h, execFor, execSelect_failure _ ev hev]

/-- Witness of C5 (amended): the run of the counterexample. -/
theorem exec_waits_only_before_returning_nil_witness :
    postCreate exampleAccess ⟨true, "", ""⟩
        [⟨[⟨7, "Running", "", none⟩, ⟨7, "Failed", "OOMKilled", none⟩], WatchStop.closed⟩]
        exampleRun
      = ⟨ExecResult.fatalRunFailed "Failed" "OOMKilled", [Task.logs], [], 1, 2⟩ :=
  (exec_waits_only_before_returning_nil exampleAccess ⟨true, "", ""⟩ exampleRun "" ""
    [⟨7, "Running", "", none⟩] [] ⟨7, "Failed", "OOMKilled", none⟩ WatchStop.closed [] rfl
    (by decide) (by decide)).2

/-! ## The consumers of watchRun and the kinds of watch error -/

/-- Every event keeps the loop of `run watch` watching: all the events of a
subscription are printed before its end is seen. -/
lemma watchFor_events (evs : List RunMetadata) :
    ∀ (c : Nat) (printed : List RunMetadata) (stop : WatchStop),
      watchFor c printed evs stop
        = watchFor (if evs = [] then c else 0) (printed ++ evs) [] stop := by
  induction evs with
  | nil => intro c printed stop; simp
  | cons ev evs ih =>
    intro c printed stop
    have hstep := ih 0 (printed ++ [ev]) stop
    simp only [watchFor, watchSelect]
    rw [hstep]
    simp

/-- C6 (code at the failing input): a 404 response makes `watchRun` send
`errNotFound`; `run watch` then returns "run not found" without another call of
`watchRun`, but the exec loop, at its first error, jumps to `beginWatch` and
calls `watchRun` again. -/
theorem exec_retries_after_not_found (unmarshal : List Byte → Except String Run)
    (body : Source) (err : Option String) (calls n : Nat) (c : Nat)
    (printed : List RunMetadata) (rest : List Subscription) :
    watchRun unmarshal ⟨some ⟨404, body⟩, err⟩
        = some ⟨[], WatchStop.error WatchError.errNotFound⟩
    ∧ runWatch c calls printed (⟨[], WatchStop.error WatchError.errNotFound⟩ :: rest)
        = ⟨WatchCmdResult.runNotFound, calls + 1, printed⟩
    ∧ execWatch 0 calls n (⟨[], WatchStop.error WatchError.errNotFound⟩ :: rest)
        = execWatch 1 (calls + 1) n rest
    ∧ (postCreate exampleAccess ⟨false, "", ""⟩
        [⟨[], WatchStop.error WatchError.errNotFound⟩,
         ⟨[⟨7, "Succeeded", "", none⟩], WatchStop.closed⟩] exampleRun).watchRunCalls = 2 := by
  refine ⟨?_, ?_, ?_, ?_⟩
  · simp [watchRun]
  · simp [runWatch, watchFor, watchSelect]
  · simp [execWatch, execFor, execSelect]
  · decide

/-- C7 (counterexample): the body of the first watch response is the line
`not json`; `watchRun` sends the decode error, and both consumers call
`watchRun` a second time instead of terminating with that error: here the
second stream ends cleanly and both return nil. -/
theorem invalid_json_is_retried :
    watchRun exampleUnmarshal ⟨some ⟨200, ⟨[ascii "not json\n"], IOErr.eof, false⟩⟩, none⟩
        = some ⟨[], WatchStop.error (WatchError.unmarshal "invalid character")⟩
    ∧ runWatch 0 0 [] [⟨[], WatchStop.error (WatchError.unmarshal "invalid character")⟩,
          ⟨[], WatchStop.closed⟩]
        = ⟨WatchCmdResult.returnedNil, 2, []⟩
    ∧ execWatch 0 0 0 [⟨[], WatchStop.error (WatchError.unmarshal "invalid character")⟩,
          ⟨[], WatchStop.closed⟩]
        = ⟨ExecResult.returnedNil, 2, 0⟩ := by
  refine ⟨?_, ?_, ?_⟩ <;> decide

/-! ## The buffered reader against the unsplit stream -/

lemma cutAfter_some_append {d : Byte} {xs l r : List Byte} (h : cutAfter d xs = some (l, r)) :
    xs = l ++ r ∧ 1 ≤ l.length := by
  induction xs generalizing l r with
  | nil => simp [cutAfter] at h
  | cons x xs ih =>
    unfold cutAfter at h
    by_cases hx : x = d
    · simp [hx] at h
      obtain ⟨h1, h2⟩ := h
      subst h1 h2
      simp [hx]
    · simp only [hx, if_false] at h
      cases hc : cutAfter d xs with
      | none => simp [hc] at h
      | some p =>
        obtain ⟨l', r'⟩ := p
        simp [hc] at h
        obtain ⟨h1, h2⟩ := h
        subst h1 h2
        have := ih hc
        simp [this.1.symm]

lemma cutAfter_append_of_some {d : Byte} {xs l r : List Byte} (ys : List Byte)
    (h : cutAfter d xs = some (l, r)) : cutAfter d (xs ++ ys) = some (l, r ++ ys) := by
  induction xs generalizing l r with
  | nil => simp [cutAfter] at h
  | cons x xs ih =>
    unfold cutAfter at h
    rw [List.cons_append]
    unfold cutAfter
    by_cases hx : x = d
    · simp [hx] at h ⊢
      obtain ⟨h1, h2⟩ := h
      subst h1 h2
      simp
    · simp only [hx, if_false] at h ⊢
      cases hc : cutAfter d xs with
      | none => simp [hc] at h
      | some p =>
        obtain ⟨l', r'⟩ := p
        simp [hc] at h
        obtain ⟨h1, h2⟩ := h
        subst h1 h2
        simp [ih hc]

lemma cutAfter_cons_ne {d x : Byte} (xs : List Byte) (hx : ¬ x = d) :
    cutAfter d (x :: xs) = (cutAfter d xs).map (fun p => (x :: p.1, p.2)) := by
  conv_lhs => unfold cutAfter
  simp only [hx, if_false]
  cases cutAfter d xs <;> simp

lemma cutAfter_cons_eq {d x : Byte} (xs : List Byte) (hx : x = d) :
    cutAfter d (x :: xs) = some ([x], xs) := by
  conv_lhs => unfold cutAfter
  simp [hx]

lemma cutAfter_append_of_none {d : Byte} {xs : List Byte} (ys : List Byte)
    (h : cutAfter d xs = none) :
    cutAfter d (xs ++ ys) = (cutAfter d ys).map (fun p => (xs ++ p.1, p.2)) := by
  induction xs with
  | nil =>
    rw [List.nil_append]
    cases cutAfter d ys <;> simp
  | cons x xs ih =>
    have hx : ¬ x = d := by
      intro hx
      simp [cutAfter_cons_eq xs hx] at h
    have hc : cutAfter d xs = none := by
      rw [cutAfter_cons_ne xs hx] at h
      cases hc : cutAfter d xs with
      | none => rfl
      | some p => simp [hc] at h
    rw [List.cons_append, cutAfter_cons_ne _ hx, ih hc]
    cases cutAfter d ys <;> simp

lemma cutAfter_eq_none_iff {d : Byte} {xs : List Byte} : cutAfter d xs = none ↔ d ∉ xs := by
  induction xs with
  | nil => simp [cutAfter]
  | cons x xs ih =>
    unfold cutAfter
    by_cases hx : x = d
    · simp [hx]
    · have hx' : ¬ d = x := fun h => hx h.symm
      cases hc : cutAfter d xs with
      | none => simp [hx, hx', ih.mp hc]
      | some p =>
        have : d ∈ xs := by
          by_contra hn
          rw [ih.mpr hn] at hc
          exact absurd hc (by simp)
        simp [hx, this]

lemma cutAfter_at_delim {d : Byte} {pre : List Byte} (tail : List Byte) (h : d ∉ pre) :
    cutAfter d (pre ++ d :: tail) = some (pre ++ [d], tail) := by
  rw [cutAfter_append_of_none _ (cutAfter_eq_none_iff.mpr h)]
  simp [cutAfter]

lemma flatten_eq_nil_of_ne {frags : List (List Byte)} (hne : ∀ f ∈ frags, f ≠ [])
    (h : frags.flatten = []) : frags = [] := by
  cases frags with
  | nil => rfl
  | cons f fs =>
    simp at h
    exact absurd h.1 (hne f (List.mem_cons_self _ _))
lemma Reader.fill_of_err (b : Reader) (data : List Byte) (e : IOErr) (rd' : Source)
    (h : b.rd.read (b.size - b.buf.length) = (data, some e, rd')) :
    b.fill = { b with buf := b.buf ++ data, rd := rd', err := some e } := by
  show b.fillLoop (99 + 1) = _
  simp only [Reader.fillLoop, h]

lemma Reader.fill_of_data (b : Reader) (data : List Byte) (rd' : Source)
    (h : b.rd.read (b.size - b.buf.length) = (data, none, rd')) (hd : 0 < data.length) :
    b.fill = { b with buf := b.buf ++ data, rd := rd' } := by
  show b.fillLoop (99 + 1) = _
  rw [Reader.fillLoop]
  simp only [h]
  simp [hd]

lemma Reader.fill_spec (b : Reader) (hb : b.Inv) (herr : b.err = none)
    (hroom : b.buf.length < b.size) :
    b.fill.Inv ∧ b.fill.wire = b.wire ∧ b.fill.rest = b.rest
      ∧ (b.fill.err ≠ none ∨ b.buf.length < b.fill.buf.length) := by
  obtain ⟨size, buf, err, ⟨frags, final, eager⟩⟩ := b
  obtain ⟨hsize, hne, hle, _, heager, _⟩ := hb
  simp only at herr hroom hsize hne hle heager
  subst herr
  cases frags with
  | nil =>
    rw [Reader.fill_of_err _ [] final ⟨[], final, eager⟩ (by simp [Source.read])]
    refine ⟨⟨hsize, ?_, ?_, ?_, ?_, ?_⟩, rfl, ?_, ?_⟩
    · simp
    · simpa using hle
    · simp
    · simp
    · intro _ _; simpa using hroom
    · simp [Reader.rest]
    · simp
  | cons f fs =>
    have hf : f ≠ [] := hne f (List.mem_cons_self _ _)
    have hfs : ∀ g ∈ fs, g ≠ [] := fun g hg => hne g (List.mem_cons_of_mem _ hg)
    have hflen : 0 < f.length := List.length_pos.mpr hf
    by_cases hfit : f.length ≤ size - buf.length
    · by_cases hlast : (fs.isEmpty && eager) = true
      · have hfs' : fs = [] := by
          simp at hlast
          exact hlast.1
        have heag : eager = true := by
          simp at hlast
          exact hlast.2
        subst hfs'
        rw [Reader.fill_of_err _ f final ⟨[], final, eager⟩ (by simp [Source.read, hfit, heag])]
        refine ⟨⟨hsize, ?_, ?_, ?_, ?_, ?_⟩, rfl, ?_, ?_⟩
        · simp
        · simp only [List.length_append]; omega
        · simp
        · simp
        · intro he
          simp at he
          simp [he] at heag
        · simp [Reader.rest, Source.data]
        · simp
      · rw [Reader.fill_of_data _ f ⟨fs, final, eager⟩ (by simp [Source.read, hfit, hlast]) hflen]
        refine ⟨⟨hsize, ?_, ?_, ?_, ?_, ?_⟩, rfl, ?_, ?_⟩
        · simpa using hfs
        · simp only [List.length_append]; omega
        · simp
        · intro he hnil
          simp only at he hnil
          subst hnil
          simp [he] at hlast
        · simp
        · simp [Reader.rest, Source.data]
        · right; simp only [List.length_append]; omega
    · have hdrop : f.drop (size - buf.length) ≠ [] := by
        intro h
        have := List.drop_eq_nil_iff.mp h
        omega
      have htake : 0 < (f.take (size - buf.length)).length := by
        simp only [List.length_take]
        omega
      rw [Reader.fill_of_data _ (f.take (size - buf.length))
        ⟨f.drop (size - buf.length) :: fs, final, eager⟩ (by simp [Source.read, hfit]) htake]
      refine ⟨⟨hsize, ?_, ?_, ?_, ?_, ?_⟩, rfl, ?_, ?_⟩
      · intro g hg
        simp only [List.mem_cons] at hg
        rcases hg with hg | hg
        · subst hg; exact hdrop
        · exact hfs g hg
      · simp only [List.length_append, List.length_take]; omega
      · simp
      · simp
      · simp
      · simp only [Reader.rest, Source.data, List.flatten_cons, List.append_assoc]
        rw [← List.append_assoc (f.take _), List.take_append_drop]
      · right; simp only [List.length_append]; omega

lemma Reader.wire_size (b : Reader) : b.wire.size = b.size := rfl

lemma Reader.wire_final (b : Reader) : b.wire.final = b.rd.final := rfl

lemma Reader.wire_errWithLast (b : Reader) : b.wire.errWithLast = b.rd.errWithLast := rfl

lemma Reader.readSliceLoop_spec (delim : Byte) :
    ∀ (n : Nat) (b : Reader), b.Inv → 0 < n → (b.err = none → b.size - b.buf.length < n) →
      ∃ b', b.readSliceLoop delim n
          = some ((b.wire.slice delim b.rest).1, (b.wire.slice delim b.rest).2.1, b')
        ∧ b'.Inv ∧ b'.wire = b.wire ∧ b'.rest = (b.wire.slice delim b.rest).2.2
        ∧ ((b.wire.slice delim b.rest).2.1 = some SliceErr.bufferFull →
            b'.buf = [] ∧ b'.err = none ∧ (b'.rd.errWithLast = true → b'.rd.frags ≠ [])) := by
  intro n
  induction n with
  | zero => intro b _ h; exact absurd h (by simp)
  | succ n ih =>
    intro b hb _ hfuel
    rw [Reader.readSliceLoop]
    cases hcut : cutAfter delim b.buf with
    | some p =>
      obtain ⟨line, r⟩ := p
      obtain ⟨hsplit, hpos⟩ := cutAfter_some_append hcut
      have hlen : line.length ≤ b.size := by
        have := hb.buf_le
        rw [hsplit, List.length_append] at this
        omega
      have habs : b.wire.slice delim b.rest = (line, none, r ++ b.rd.data) := by
        simp [Wire.slice, Reader.rest, cutAfter_append_of_some _ hcut, Reader.wire_size, hlen]
      have hbuflen : b.buf.length = line.length + r.length := by
        rw [hsplit, List.length_append]
      have hbufne : b.buf ≠ [] := by
        intro h
        rw [h] at hbuflen
        simp at hbuflen
        omega
      refine ⟨{ b with buf := r }, ?_, ⟨hb.size_pos, hb.frags_ne, ?_, hb.err_final, ?_, ?_⟩, rfl,
        ?_, ?_⟩
      · simp [habs]
      · have := hb.buf_le
        simp only
        omega
      · intro he hf _
        exact hb.eager_err he hf hbufne
      · intro he hn
        have := hb.buf_le
        simp only
        omega
      · rw [habs]; simp [Reader.rest]
      · simp [habs]
    | none =>
      cases herr : b.err with
      | some e =>
        obtain ⟨he, hfr⟩ := hb.err_final e herr
        have hdata : b.rd.data = [] := by simp [Source.data, hfr]
        have hrest : b.rest = b.buf := by simp [Reader.rest, hdata]
        have hcond : b.buf.length < b.size ∨ (b.buf.length = b.size ∧ b.rd.errWithLast = true) := by
          cases hflag : b.rd.errWithLast with
          | true =>
            have := hb.buf_le
            simp
            omega
          | false =>
            left
            exact hb.lazy_err hflag (by simp [herr])
        have habs : b.wire.slice delim b.rest = (b.buf, some (SliceErr.io e), []) := by
          simp only [Wire.slice, hrest, hcut, Reader.wire_size, Reader.wire_errWithLast,
            Reader.wire_final, if_pos hcond, he]
        refine ⟨{ b with buf := [], err := none }, ?_,
          ⟨hb.size_pos, hb.frags_ne, ?_, ?_, ?_, ?_⟩, rfl, ?_, ?_⟩
        · simp [habs]
        · simp
        · simp
        · simp
        · simp
        · rw [habs]; simp [Reader.rest, hdata]
        · simp [habs]
      | none =>
        by_cases hfull : b.buf.length ≥ b.size
        · have hbufne : b.buf ≠ [] := by
            intro h
            have := hb.size_pos
            rw [h] at hfull
            simp at hfull
            omega
          have hlenb : b.buf.length = b.size := le_antisymm hb.buf_le hfull
          have hflag : b.rd.errWithLast = true → b.rd.frags ≠ [] := by
            intro he hf
            have := hb.eager_err he hf hbufne
            rw [herr] at this
            exact absurd this (by simp)
          have htake : b.rest.take b.size = b.buf := by
            simp [Reader.rest, ← hlenb]
          have hdrop : b.rest.drop b.size = b.rd.data := by
            simp [Reader.rest, ← hlenb]
          have habs : b.wire.slice delim b.rest
              = (b.buf, some SliceErr.bufferFull, b.rd.data) := by
            have hc := cutAfter_append_of_none b.rd.data hcut
            cases hd : cutAfter delim b.rd.data with
            | some q =>
              have hq := (cutAfter_some_append hd).2
              rw [hd] at hc
              have hnot : ¬ (b.buf ++ q.1).length ≤ b.size := by
                rw [List.length_append]
                omega
              simp only [Wire.slice, Reader.wire_size]
              rw [show cutAfter delim b.rest = some (b.buf ++ q.1, q.2) from hc]
              simp only [if_neg hnot, htake, hdrop]
            | none =>
              rw [hd] at hc
              have hnot : ¬ (b.rest.length < b.size
                  ∨ (b.rest.length = b.size ∧ b.rd.errWithLast = true)) := by
                have hl : b.rest.length = b.buf.length + b.rd.data.length := by
                  simp [Reader.rest]
                intro h
                rcases h with h | ⟨h1, h2⟩
                · omega
                · have hdnil : b.rd.data = [] := by
                    apply List.eq_nil_of_length_eq_zero
                    omega
                  exact hflag h2 (flatten_eq_nil_of_ne hb.frags_ne hdnil)
              simp only [Wire.slice, Reader.wire_size, Reader.wire_errWithLast]
              rw [show cutAfter delim b.rest = none from hc]
              simp only [if_neg hnot, htake, hdrop]
          refine ⟨{ b with buf := [] }, ?_, ⟨hb.size_pos, hb.frags_ne, ?_, ?_, ?_, ?_⟩, rfl,
            ?_, ?_⟩
          · simp [habs, hfull, herr]
          · simp
          · exact hb.err_final
          · simp
          · intro _ hn
            exact absurd herr hn
          · rw [habs]; simp [Reader.rest]
          · intro _
            exact ⟨rfl, herr, hflag⟩
        · have hroom : b.buf.length < b.size := by omega
          obtain ⟨hinv, hwire, hrest, hprog⟩ := b.fill_spec hb herr hroom
          have hsz : b.fill.size = b.size := by
            have := congrArg Wire.size hwire
            exact this
          have hn : 0 < n := by
            have := hfuel herr
            omega
          have hfuel' : b.fill.err = none → b.fill.size - b.fill.buf.length < n := by
            intro hnone
            rcases hprog with hp | hp
            · exact absurd hnone hp
            · have := hfuel herr
              rw [hsz]
              omega
          obtain ⟨b', h1, h2, h3, h4, h5⟩ := ih b.fill hinv hn hfuel'
          rw [hwire, hrest] at h1 h4 h5
          refine ⟨b', ?_, h2, h3.trans hwire, h4, h5⟩
          simp [hfull, h1]

lemma Reader.ReadSlice_spec (delim : Byte) (b : Reader) (hb : b.Inv) :
    ∃ b', b.ReadSlice delim
        = some ((b.wire.slice delim b.rest).1, (b.wire.slice delim b.rest).2.1, b')
      ∧ b'.Inv ∧ b'.wire = b.wire ∧ b'.rest = (b.wire.slice delim b.rest).2.2
      ∧ ((b.wire.slice delim b.rest).2.1 = some SliceErr.bufferFull →
          b'.buf = [] ∧ b'.err = none ∧ (b'.rd.errWithLast = true → b'.rd.frags ≠ [])) :=
  Reader.readSliceLoop_spec delim (b.size + 1) b hb (Nat.succ_pos _) (fun _ => by omega)

lemma cutAfter_drop {d : Byte} :
    ∀ (k : Nat) (rest l r : List Byte), cutAfter d rest = some (l, r) → k < l.length →
      cutAfter d (rest.drop k) = some (l.drop k, r) ∧ rest.take k = l.take k := by
  intro k
  induction k with
  | zero => intro rest l r h _; simpa using h
  | succ k ih =>
    intro rest l r h hk
    cases rest with
    | nil => simp [cutAfter] at h
    | cons x xs =>
      by_cases hx : x = d
      · rw [cutAfter_cons_eq xs hx] at h
        simp at h
        obtain ⟨h1, _⟩ := h
        subst h1
        simp at hk
      · rw [cutAfter_cons_ne xs hx] at h
        cases hc : cutAfter d xs with
        | none => simp [hc] at h
        | some p =>
          obtain ⟨l', r'⟩ := p
          simp [hc] at h
          obtain ⟨h1, h2⟩ := h
          subst h1 h2
          simp only [List.length_cons] at hk
          have := ih xs l' r' hc (by omega)
          simp [this.1, this.2]

/-- The three ways `ReadSlice` returns, on the unsplit stream. -/
lemma Wire.slice_cases (w : Wire) (delim : Byte) (rest : List Byte) :
    (∃ l r, cutAfter delim rest = some (l, r) ∧ l.length ≤ w.size
        ∧ w.slice delim rest = (l, none, r))
    ∨ (cutAfter delim rest = none ∧ rest.length ≤ w.size
        ∧ w.slice delim rest = (rest, some (SliceErr.io w.final), []))
    ∨ (w.size ≤ rest.length ∧ cutAfter delim (rest.take w.size) = none
        ∧ w.slice delim rest
          = (rest.take w.size, some SliceErr.bufferFull, rest.drop w.size)) := by
  cases hc : cutAfter delim rest with
  | some p =>
    obtain ⟨l, r⟩ := p
    by_cases hl : l.length ≤ w.size
    · left
      exact ⟨l, r, rfl, hl, by simp [Wire.slice, hc, hl]⟩
    · right; right
      obtain ⟨hsplit, _⟩ := cutAfter_some_append hc
      refine ⟨?_, ?_, by simp [Wire.slice, hc, hl]⟩
      · rw [hsplit, List.length_append]; omega
      · cases ht : cutAfter delim (rest.take w.size) with
        | none => rfl
        | some q =>
          obtain ⟨l', r'⟩ := q
          have h1 := cutAfter_append_of_some (rest.drop w.size) ht
          rw [List.take_append_drop, hc] at h1
          have h2 := (cutAfter_some_append ht).1
          have h3 : (rest.take w.size).length ≤ w.size := by simp
          simp at h1
          rw [h2, List.length_append, ← h1.1] at h3
          omega
  | none =>
    by_cases hcond : rest.length < w.size ∨ (rest.length = w.size ∧ w.errWithLast = true)
    · right; left
      refine ⟨rfl, ?_, by simp only [Wire.slice, hc, if_pos hcond]⟩
      rcases hcond with h | h
      · omega
      · omega
    · right; right
      refine ⟨?_, ?_, by simp only [Wire.slice, hc, if_neg hcond]⟩
      · by_contra h
        exact hcond (Or.inl (by omega))
      · rw [cutAfter_eq_none_iff] at hc ⊢
        intro hmem
        exact hc (List.mem_of_mem_take hmem)

lemma Reader.collectFragments_spec (delim : Byte) :
    ∀ (n : Nat) (acc : List Byte) (b : Reader), b.Inv → b.rest.length < n →
      ∃ b', b.collectFragments delim n acc
          = some (acc ++ (b.wire.readString delim b.rest).1,
              (b.wire.readString delim b.rest).2.1, b')
        ∧ b'.Inv ∧ b'.wire = b.wire ∧ b'.rest = (b.wire.readString delim b.rest).2.2 := by
  intro n
  induction n with
  | zero => intro _ _ _ h; exact absurd h (by simp)
  | succ n ih =>
    intro acc b hb hfuel
    obtain ⟨b1, h1, hinv, hwire, hrest, _⟩ := b.ReadSlice_spec delim hb
    have hsz : 1 ≤ b.wire.size := hb.size_pos
    rw [Reader.collectFragments, h1]
    rcases b.wire.slice_cases delim b.rest with ⟨l, r, hc, _, hs⟩ | ⟨hc, _, hs⟩ | ⟨hlen, hc, hs⟩
    · rw [hs] at hrest
      simp only [hs, Wire.readString, hc]
      exact ⟨b1, rfl, hinv, hwire, hrest⟩
    · rw [hs] at hrest
      simp only [hs, Wire.readString, hc]
      exact ⟨b1, rfl, hinv, hwire, hrest⟩
    · rw [hs] at hrest
      simp only [hs]
      have hfuel1 : b1.rest.length < n := by
        rw [hrest]
        simp only [List.length_drop]
        omega
      obtain ⟨b2, h2, hinv2, hwire2, hrest2⟩ := ih (acc ++ b.rest.take b.wire.size) b1 hinv hfuel1
      rw [hwire, hrest] at h2 hrest2
      have hkey : b.wire.readString delim b.rest
          = (b.rest.take b.wire.size ++ (b.wire.readString delim (b.rest.drop b.wire.size)).1,
              (b.wire.readString delim (b.rest.drop b.wire.size)).2.1,
              (b.wire.readString delim (b.rest.drop b.wire.size)).2.2) := by
        have hsplit : b.rest = b.rest.take b.wire.size ++ b.rest.drop b.wire.size :=
          (List.take_append_drop _ _).symm
        have := cutAfter_append_of_none (b.rest.drop b.wire.size) hc
        rw [← hsplit] at this
        simp only [Wire.readString, this]
        cases hd : cutAfter delim (b.rest.drop b.wire.size) with
        | none => simp
        | some q => simp
      refine ⟨b2, ?_, hinv2, hwire2.trans hwire, ?_⟩
      · rw [h2, hkey]
        simp
      · rw [hrest2, hkey]

lemma Reader.ReadString_spec (delim : Byte) (b : Reader) (hb : b.Inv) :
    ∃ b', b.ReadString delim
        = some ((b.wire.readString delim b.rest).1, (b.wire.readString delim b.rest).2.1, b')
      ∧ b'.Inv ∧ b'.wire = b.wire ∧ b'.rest = (b.wire.readString delim b.rest).2.2 := by
  have := Reader.collectFragments_spec delim (b.rest.length + 1) [] b hb (Nat.lt_succ_self _)
  simpa [Reader.ReadString] using this

lemma Reader.ReadLine_spec (b : Reader) (hb : b.Inv) :
    ∃ b', b.ReadLine
        = some ((b.wire.readLine b.rest).1, (b.wire.readLine b.rest).2.1,
            (b.wire.readLine b.rest).2.2.1, b')
      ∧ b'.Inv ∧ b'.wire = b.wire ∧ b'.rest = (b.wire.readLine b.rest).2.2.2 := by
  obtain ⟨b1, h1, hinv, hwire, hrest, hfull⟩ := b.ReadSlice_spec LF hb
  rw [Reader.ReadLine, h1]
  rcases b.wire.slice_cases LF b.rest with ⟨l, r, _, _, hs⟩ | ⟨_, _, hs⟩ | ⟨_, _, hs⟩
  · rw [hs] at hrest
    simp only [hs, Wire.readLine]
    by_cases hl : l.length = 0
    · simp only [hl, if_true]
      exact ⟨b1, rfl, hinv, hwire, hrest⟩
    · simp only [hl, if_false]
      exact ⟨b1, rfl, hinv, hwire, hrest⟩
  · rw [hs] at hrest
    simp only [hs, Wire.readLine]
    by_cases hl : b.rest.length = 0
    · simp only [hl, if_true]
      exact ⟨b1, rfl, hinv, hwire, hrest⟩
    · simp only [hl, if_false]
      exact ⟨b1, rfl, hinv, hwire, hrest⟩
  · rw [hs] at hrest hfull
    obtain ⟨hbuf, herr, hflag⟩ := hfull rfl
    simp only [hs, Wire.readLine]
    by_cases hcr : (b.rest.take b.wire.size).getLast? = some CR
    · simp only [hcr, if_true]
      refine ⟨{ b1 with buf := CR :: b1.buf }, rfl,
        ⟨hinv.size_pos, hinv.frags_ne, ?_, ?_, ?_, ?_⟩, hwire, ?_⟩
      · have := hinv.size_pos
        simp [hbuf]
        omega
      · intro e he
        simp only at he
        rw [herr] at he
        exact absurd he (by simp)
      · intro he hf
        exact absurd hf (hflag he)
      · intro _ hn
        exact absurd herr hn
      · simp [Reader.rest, hbuf] at hrest ⊢
        exact hrest
    · simp only [hcr, if_false]
      exact ⟨b1, rfl, hinv, hwire, hrest⟩

/-- The loop of `followLogs` runs in step with the loop on the unsplit stream. -/
lemma followLogsLoop_eq_wire (includeTimestamps : Bool) :
    ∀ (n : Nat) (b : Reader) (atStart : Bool) (last sink : List Byte), b.Inv →
      followLogsLoop includeTimestamps n b atStart last sink
        = b.wire.followLoop includeTimestamps n b.rest atStart last sink := by
  intro n
  induction n with
  | zero => intro b atStart last sink _; rfl
  | succ n ih =>
    intro b atStart last sink hb
    rw [followLogsLoop, Wire.followLoop]
    cases atStart with
    | true =>
      obtain ⟨b1, h1, hinv1, hwire1, hrest1⟩ := b.ReadString_spec SP hb
      simp only [if_true, h1]
      rcases hrs : b.wire.readString SP b.rest with ⟨tok, e, rest1⟩
      rw [hrs] at hrest1
      simp only at hrest1
      cases e with
      | some err => simp
      | none =>
        obtain ⟨b2, h2, hinv2, hwire2, hrest2⟩ := b1.ReadLine_spec hinv1
        rw [hwire1, hrest1] at h2 hrest2
        simp only [h2]
        rcases hrl : b.wire.readLine rest1 with ⟨line, isPrefix, e2, rest2⟩
        rw [hrl] at hrest2
        simp only at hrest2
        cases e2 with
        | some err => simp
        | none =>
          simp only
          rw [ih b2 _ _ _ hinv2, hwire2, hwire1, hrest2]
    | false =>
      obtain ⟨b2, h2, hinv2, hwire2, hrest2⟩ := b.ReadLine_spec hb
      simp only [Bool.false_eq_true, if_false, h2]
      rcases hrl : b.wire.readLine b.rest with ⟨line, isPrefix, e2, rest2⟩
      rw [hrl] at hrest2
      simp only at hrest2
      cases e2 with
      | some err => simp
      | none =>
        simp only
        rw [ih b2 _ _ _ hinv2, hwire2, hrest2]

/-! ## followLogs returns -/

lemma Wire.readString_len (w : Wire) (delim : Byte) (rest : List Byte)
    (h : (w.readString delim rest).2.1 = none) :
    (w.readString delim rest).2.2.length < rest.length := by
  unfold Wire.readString at h ⊢
  cases hc : cutAfter delim rest with
  | none => simp [hc] at h
  | some p =>
    obtain ⟨l, r⟩ := p
    obtain ⟨hsplit, hpos⟩ := cutAfter_some_append hc
    simp only
    rw [hsplit, List.length_append]
    omega

lemma Wire.readLine_len (w : Wire) (hsize : 2 ≤ w.size) (rest : List Byte)
    (h : (w.readLine rest).2.2.1 = none) :
    (w.readLine rest).2.2.2.length < rest.length := by
  unfold Wire.readLine at h ⊢
  rcases w.slice_cases LF rest with ⟨l, r, hc, _, hs⟩ | ⟨_, _, hs⟩ | ⟨hlen, _, hs⟩
  · obtain ⟨hsplit, hpos⟩ := cutAfter_some_append hc
    have hl : ¬ l.length = 0 := by omega
    simp only [hs, hl, if_false]
    rw [hsplit, List.length_append]
    omega
  · by_cases hl : rest.length = 0
    · simp [hs, hl] at h
    · simp only [hs, hl, if_false, List.length_nil]
      omega
  · by_cases hcr : (rest.take w.size).getLast? = some CR
    · simp only [hs, hcr, if_true, List.length_cons, List.length_drop]
      omega
    · simp only [hs, hcr, if_false, List.length_drop]
      omega

lemma Wire.followLoop_isSome (w : Wire) (hsize : 2 ≤ w.size) (includeTimestamps : Bool) :
    ∀ (n : Nat) (rest : List Byte) (atStart : Bool) (last sink : List Byte),
      rest.length < n → (w.followLoop includeTimestamps n rest atStart last sink).isSome := by
  intro n
  induction n with
  | zero => intro _ _ _ _ h; exact absurd h (by simp)
  | succ n ih =>
    intro rest atStart last sink hfuel
    have hline : ∀ (rest1 last1 sink1 : List Byte), rest1.length ≤ rest.length →
        (match w.readLine rest1 with
          | (_, _, some err, _) => some (⟨sink1, last1, err⟩ : FollowResult)
          | (line, isPrefix, none, rest') =>
            w.followLoop includeTimestamps n rest' (!isPrefix) last1
              (if isPrefix then sink1 ++ line else sink1 ++ line ++ [LF])).isSome := by
      intro rest1 last1 sink1 hle
      have hlen := w.readLine_len hsize rest1
      rcases hrl : w.readLine rest1 with ⟨line, isPrefix, e, rest2⟩
      rw [hrl] at hlen
      cases e with
      | some err => simp
      | none =>
        simp only
        apply ih
        have := hlen rfl
        simp only at this
        omega
    rw [Wire.followLoop]
    cases atStart with
    | true =>
      have hlen := w.readString_len SP rest
      rcases hrs : w.readString SP rest with ⟨tok, e, rest1⟩
      rw [hrs] at hlen
      cases e with
      | some err => simp
      | none =>
        have := hlen rfl
        simp only at this
        simp only [if_true]
        exact hline rest1 _ _ (by omega)
    | false =>
      simp only [Bool.false_eq_true, if_false]
      exact hline rest last sink (le_refl _)

lemma NewReaderSize_inv (body : Source) (size : Nat) (hsize : 1 ≤ size)
    (hne : ∀ f ∈ body.frags, f ≠ []) : (NewReaderSize body size).Inv := by
  refine ⟨hsize, hne, ?_, ?_, ?_, ?_⟩ <;> simp [NewReaderSize]

/-- The function `followLogs` on a body with non-empty fragments computes the
loop on the unsplit stream, and that loop returns. -/
lemma followLogsSize_eq_wire (size : Nat) (hsize : 2 ≤ size) (body : Source)
    (hne : ∀ f ∈ body.frags, f ≠ []) (includeTimestamps : Bool) (sink : List Byte) :
    followLogsSize size body includeTimestamps sink
        = (⟨size, body.final, body.errWithLast⟩ : Wire).followLoop includeTimestamps
            (body.data.length + 1) body.data true [] sink
    ∧ (followLogsSize size body includeTimestamps sink).isSome := by
  have hinv := NewReaderSize_inv body size (by omega) hne
  have heq := followLogsLoop_eq_wire includeTimestamps (body.data.length + 1)
    (NewReaderSize body size) true [] sink hinv
  have hrest : (NewReaderSize body size).rest = body.data := by
    simp [NewReaderSize, Reader.rest]
  have hwire : (NewReaderSize body size).wire = ⟨size, body.final, body.errWithLast⟩ := rfl
  rw [hrest, hwire] at heq
  refine ⟨heq, ?_⟩
  unfold followLogsSize
  rw [heq]
  exact Wire.followLoop_isSome _ hsize includeTimestamps _ _ _ _ _ (Nat.lt_succ_self _)

/-- C10: log line integrity under fragmentation. Two deliveries of the same
byte stream `data`, cut into non-empty read fragments in any two ways (the
unsplit delivery is the single fragment `data`, the finest one has a fragment
for every byte) and ending with the same error, make `followLogs` return, with
the same sink contents, the same cursor and the same error. -/
theorem followLogs_fragmentation_independent (data : List Byte)
    (frags frags' : List (List Byte)) (final : IOErr) (errWithLast includeTimestamps : Bool)
    (sink : List Byte)
    (hne : ∀ f ∈ frags, f ≠ []) (hne' : ∀ f ∈ frags', f ≠ [])
    (hdata : frags.flatten = data) (hdata' : frags'.flatten = data) :
    followLogs ⟨frags, final, errWithLast⟩ includeTimestamps sink
        = followLogs ⟨frags', final, errWithLast⟩ includeTimestamps sink
    ∧ ∃ result, followLogs ⟨frags, final, errWithLast⟩ includeTimestamps sink = some result := by
  have h1 := followLogsSize_eq_wire defaultBufSize (by decide) ⟨frags, final, errWithLast⟩ hne
    includeTimestamps sink
  have h2 := followLogsSize_eq_wire defaultBufSize (by decide) ⟨frags', final, errWithLast⟩ hne'
    includeTimestamps sink
  simp only [Source.data, hdata, hdata'] at h1 h2
  refine ⟨?_, Option.isSome_iff_exists.mp h1.2⟩
  unfold followLogs
  rw [h1.1, h2.1]

/-- Witness of C10: two lines, the second one without its newline, delivered
unsplit and delivered byte by byte. -/
theorem followLogs_fragmentation_independent_witness :
    followLogs ⟨(ascii "t1 a b\nt2 c").map (fun x => [x]), IOErr.failed "reset", false⟩ false []
        = followLogs ⟨[ascii "t1 a b\nt2 c"], IOErr.failed "reset", false⟩ false []
    ∧ ∃ result, followLogs ⟨(ascii "t1 a b\nt2 c").map (fun x => [x]), IOErr.failed "reset",
        false⟩ false [] = some result :=
  followLogs_fragmentation_independent (ascii "t1 a b\nt2 c")
    ((ascii "t1 a b\nt2 c").map (fun x => [x])) [ascii "t1 a b\nt2 c"] (IOErr.failed "reset")
    false false [] (by decide) (by decide) (by decide) (by decide)

/-! ## followLogs on a stream of complete lines -/

lemma stripCR_append (a b : List Byte) (hb : b ≠ []) : stripCR (a ++ b) = a ++ stripCR b := by
  unfold stripCR
  rw [List.getLast?_append_of_ne_nil _ hb]
  by_cases h : b.getLast? = some CR
  · simp only [h, if_true]
    rw [List.dropLast_append_of_ne_nil _ hb]
  · simp only [h, if_false]

lemma dropLineEnd_append_LF (p : List Byte) : dropLineEnd (p ++ [LF]) = stripCR p := by
  unfold dropLineEnd stripCR
  have h1 : (p ++ [LF]).getLast? = some LF := by simp
  have h2 : (p ++ [LF]).dropLast = p := by simp
  simp only [h1, if_true, h2, List.length_append, List.length_singleton]
  by_cases hcr : p.getLast? = some CR
  · have hpos : p.length + 1 > 1 := by
      cases p with
      | nil => simp at hcr
      | cons x xs => simp
    have hlen : p.length + 1 - 2 = p.length - 1 := by omega
    simp only [hcr, hpos, and_self, if_true, hlen]
    rw [List.take_append_of_le_length (by omega), List.dropLast_eq_take]
  · simp only [hcr, and_false, if_false]
    simp

lemma lastCursor_cons (last : List Byte) (l : LogLine) (ls : List LogLine) :
    lastCursor last (l :: ls) = lastCursor (l.timestamp ++ [SP]) ls := by
  cases ls with
  | nil => simp [lastCursor]
  | cons l' ls' =>
    have h : (l' :: ls').getLast? = some ((l' :: ls').getLast (by simp)) :=
      List.getLast?_eq_getLast _ _
    simp only [lastCursor, List.getLast?_cons_cons, h]

lemma Wire.followLoop_after_timestamp (w : Wire) (includeTimestamps : Bool) (n : Nat)
    (rest tok rest1 last sink : List Byte) (h : w.readString SP rest = (tok, none, rest1)) :
    w.followLoop includeTimestamps (n + 1) rest true last sink
      = w.followLoop includeTimestamps (n + 1) rest1 false tok
          (if includeTimestamps then sink ++ tok else sink) := by
  rw [Wire.followLoop, Wire.followLoop]
  simp only [if_true, h, Bool.false_eq_true, if_false]

lemma Wire.readLine_short (w : Wire) (p tail : List Byte) (hp : LF ∉ p)
    (hlen : p.length + 1 ≤ w.size) :
    w.readLine (p ++ LF :: tail) = (stripCR p, false, none, tail) := by
  have hc := cutAfter_at_delim tail hp
  have hl : (p ++ [LF]).length ≤ w.size := by simpa using hlen
  have hne : ¬ (p ++ [LF]).length = 0 := by simp
  simp only [Wire.readLine, Wire.slice, hc, hl, if_true, hne, if_false, dropLineEnd_append_LF]

lemma Wire.readLine_long (w : Wire) (p tail : List Byte) (hp : LF ∉ p)
    (hlen : w.size < p.length + 1) :
    w.readLine (p ++ LF :: tail)
      = if (p.take w.size).getLast? = some CR then
          ((p.take w.size).dropLast, true, none, CR :: (p.drop w.size ++ LF :: tail))
        else (p.take w.size, true, none, p.drop w.size ++ LF :: tail) := by
  have hc := cutAfter_at_delim tail hp
  have hl : ¬ (p ++ [LF]).length ≤ w.size := by
    simp only [List.length_append, List.length_singleton]
    omega
  have ht : (p ++ LF :: tail).take w.size = p.take w.size := by
    rw [List.take_append_of_le_length (by omega)]
  have hd : (p ++ LF :: tail).drop w.size = p.drop w.size ++ LF :: tail := by
    rw [List.drop_append_of_le_length (by omega)]
  simp only [Wire.readLine, Wire.slice, hc, hl, if_false, ht, hd]

/-- The rest of a line, however long: its payload is written without the
carriage return at its end, then a newline, and the loop is at the start of the
next line. -/
lemma Wire.followLoop_payload (w : Wire) (hsize : 2 ≤ w.size) (includeTimestamps : Bool) :
    ∀ (k : Nat) (p : List Byte), p.length ≤ k → LF ∉ p →
      ∀ (tail last sink : List Byte) (n : Nat), (p ++ LF :: tail).length < n →
        ∃ n', tail.length < n'
          ∧ w.followLoop includeTimestamps n (p ++ LF :: tail) false last sink
            = w.followLoop includeTimestamps n' tail true last (sink ++ stripCR p ++ [LF]) := by
  intro k
  induction k with
  | zero =>
    intro p hk hp tail last sink n hn
    have hp0 : p = [] := List.eq_nil_of_length_eq_zero (by omega)
    subst hp0
    cases n with
    | zero => exact absurd hn (by simp)
    | succ m =>
      refine ⟨m, ?_, ?_⟩
      · simp at hn; omega
      · rw [Wire.followLoop]
        have := w.readLine_short [] tail (by simp) (by simp; omega)
        simp only [List.nil_append] at this
        simp only [Bool.false_eq_true, if_false, this, List.nil_append, Bool.not_false]
  | succ k ih =>
    intro p hk hp tail last sink n hn
    cases n with
    | zero => exact absurd hn (by simp)
    | succ m =>
      have hn' : p.length + tail.length < m := by
        simp only [List.length_append, List.length_cons] at hn
        omega
      by_cases hshort : p.length + 1 ≤ w.size
      · refine ⟨m, by omega, ?_⟩
        rw [Wire.followLoop]
        simp only [Bool.false_eq_true, if_false, w.readLine_short p tail hp hshort,
          Bool.not_false]
      · have hlong : w.size < p.length + 1 := by omega
        have hsplit : p = p.take w.size ++ p.drop w.size := (List.take_append_drop _ _).symm
        have htl : (p.take w.size).length = w.size := by
          rw [List.length_take]; omega
        have hdl : (p.drop w.size).length = p.length - w.size := List.length_drop _ _
        rw [Wire.followLoop]
        simp only [Bool.false_eq_true, if_false, w.readLine_long p tail hp hlong]
        by_cases hcr : (p.take w.size).getLast? = some CR
        · simp only [hcr, if_true, Bool.not_true]
          have htake : p.take w.size = (p.take w.size).dropLast ++ [CR] := by
            have hne : p.take w.size ≠ [] := by
              intro h
              rw [h] at htl
              simp at htl
              omega
            have := List.dropLast_append_getLast hne
            rw [List.getLast?_eq_getLast _ hne] at hcr
            simp only [Option.some.injEq] at hcr
            rw [hcr] at this
            exact this.symm
          have hp' : LF ∉ CR :: p.drop w.size := by
            intro hmem
            simp only [List.mem_cons] at hmem
            rcases hmem with h | h
            · exact absurd h (by decide)
            · exact hp (List.mem_of_mem_drop h)
          have hk' : (CR :: p.drop w.size).length ≤ k := by
            simp only [List.length_cons, hdl]
            omega
          have hfuel : ((CR :: p.drop w.size) ++ LF :: tail).length < m := by
            simp only [List.length_append, List.length_cons, hdl]
            omega
          obtain ⟨n', hn1, hn2⟩ := ih (CR :: p.drop w.size) hk' hp' tail last
            (sink ++ (p.take w.size).dropLast) m hfuel
          refine ⟨n', hn1, ?_⟩
          have hstrip : stripCR p = (p.take w.size).dropLast ++ stripCR (CR :: p.drop w.size) := by
            conv_lhs => rw [hsplit, htake]
            rw [List.append_assoc, List.singleton_append]
            exact stripCR_append _ _ (by simp)
          rw [List.cons_append] at hn2
          rw [hn2, hstrip]
          simp only [List.append_assoc]
        · simp only [hcr, if_false, Bool.not_true, if_true]
          have hp' : LF ∉ p.drop w.size := fun h => hp (List.mem_of_mem_drop h)
          have hk' : (p.drop w.size).length ≤ k := by
            rw [hdl]; omega
          have hfuel : (p.drop w.size ++ LF :: tail).length < m := by
            simp only [List.length_append, List.length_cons, hdl]
            omega
          obtain ⟨n', hn1, hn2⟩ := ih (p.drop w.size) hk' hp' tail last
            (sink ++ p.take w.size) m hfuel
          refine ⟨n', hn1, ?_⟩
          have hstrip : stripCR p = p.take w.size ++ stripCR (p.drop w.size) := by
            by_cases hd : p.drop w.size = []
            · have hpe : p = p.take w.size := by
                conv_lhs => rw [hsplit, hd, List.append_nil]
              rw [hd]
              have hs0 : stripCR ([] : List Byte) = [] := by simp [stripCR]
              rw [hs0, List.append_nil, ← hpe]
              unfold stripCR
              rw [hpe]
              simp only [hcr, if_false]
            · conv_lhs => rw [hsplit]
              exact stripCR_append _ _ hd
          rw [hn2, hstrip]
          simp only [List.append_assoc]

/-- On a stream of complete lines the loop on the unsplit stream writes every
line (timestamp only when asked, payload without the carriage return at its
end, newline) and returns at the end of the stream with the last timestamp. -/
lemma Wire.followLoop_lines (w : Wire) (hsize : 2 ≤ w.size) (includeTimestamps : Bool) :
    ∀ (lines : List LogLine), (∀ l ∈ lines, l.wellFormed) →
      ∀ (last sink : List Byte) (n : Nat), (lines.flatMap LogLine.bytes).length < n →
        w.followLoop includeTimestamps n (lines.flatMap LogLine.bytes) true last sink
          = some ⟨sink ++ lines.flatMap (fun l =>
                (if includeTimestamps then l.timestamp ++ [SP] else []) ++ stripCR l.payload ++ [LF]),
              lastCursor last lines, w.final⟩ := by
  intro lines
  induction lines with
  | nil =>
    intro _ last sink n hn
    cases n with
    | zero => exact absurd hn (by simp)
    | succ m =>
      rw [Wire.followLoop]
      simp [Wire.readString, cutAfter, lastCursor]
  | cons l ls ih =>
    intro hwf last sink n hn
    obtain ⟨hsp, _, hlf⟩ := hwf l (List.mem_cons_self _ _)
    have hwf' : ∀ l' ∈ ls, l'.wellFormed := fun l' h => hwf l' (List.mem_cons_of_mem _ h)
    cases n with
    | zero => exact absurd hn (by simp)
    | succ m =>
      have hbytes : (l :: ls).flatMap LogLine.bytes
          = l.timestamp ++ SP :: (l.payload ++ LF :: ls.flatMap LogLine.bytes) := by
        simp [List.flatMap_cons, LogLine.bytes]
      rw [hbytes] at hn ⊢
      have hrs : w.readString SP
          (l.timestamp ++ SP :: (l.payload ++ LF :: ls.flatMap LogLine.bytes))
          = (l.timestamp ++ [SP], none, l.payload ++ LF :: ls.flatMap LogLine.bytes) := by
        simp only [Wire.readString, cutAfter_at_delim _ hsp]
      rw [w.followLoop_after_timestamp includeTimestamps m _ _ _ last sink hrs]
      have hfuel : (l.payload ++ LF :: ls.flatMap LogLine.bytes).length < m + 1 := by
        simp only [List.length_append, List.length_cons] at hn ⊢
        omega
      obtain ⟨n', hn1, hn2⟩ := w.followLoop_payload hsize includeTimestamps l.payload.length
        l.payload (le_refl _) hlf (ls.flatMap LogLine.bytes) (l.timestamp ++ [SP])
        (if includeTimestamps then sink ++ (l.timestamp ++ [SP]) else sink) (m + 1) hfuel
      rw [hn2, ih hwf' _ _ n' hn1, lastCursor_cons]
      cases includeTimestamps <;> simp [List.flatMap_cons]

lemma stripCR_of_ne (p : List Byte) (h : p.getLast? ≠ some CR) : stripCR p = p := by
  simp [stripCR, h]

/-- C8 (counterexample): the payload of the line is `a` followed by a carriage
return; without timestamps `followLogs` writes `a` and a newline, which is not
the payload followed by a newline: the carriage return is removed as well. -/
theorem followLogs_drops_carriage_return :
    followLogs ⟨[ascii "t1 a\r\n"], IOErr.eof, false⟩ false []
        = some ⟨ascii "a\n", ascii "t1 ", IOErr.eof⟩
    ∧ ascii "a\n" ≠ ascii "a\r" ++ [LF] := by
  constructor <;> decide

/-- C8 (amended): for a stream of complete lines, timestamp, space, payload and
newline, delivered in any non-empty fragments, `followLogs` returns at the end
of the stream. Without timestamps it has written each payload, without the
carriage return at its end if it has one, followed by a newline, in order;
with timestamps it has written the timestamp and its space before each. This
holds for payloads of any length, with or without spaces. -/
theorem followLogs_writes_payloads (lines : List LogLine) (frags : List (List Byte))
    (final : IOErr) (errWithLast : Bool) (sink : List Byte)
    (hwf : ∀ l ∈ lines, l.wellFormed) (hne : ∀ f ∈ frags, f ≠ [])
    (hdata : frags.flatten = lines.flatMap LogLine.bytes) :
    followLogs ⟨frags, final, errWithLast⟩ false sink
        = some ⟨sink ++ lines.flatMap (fun l => stripCR l.payload ++ [LF]),
            lastCursor [] lines, final⟩
    ∧ followLogs ⟨frags, final, errWithLast⟩ true sink
        = some ⟨sink ++ lines.flatMap (fun l => l.timestamp ++ [SP] ++ stripCR l.payload ++ [LF]),
            lastCursor [] lines, final⟩ := by
  have h := fun ts => (followLogsSize_eq_wire defaultBufSize (by decide)
    ⟨frags, final, errWithLast⟩ hne ts sink).1
  simp only [Source.data, hdata] at h
  have hl := fun ts => Wire.followLoop_lines ⟨defaultBufSize, final, errWithLast⟩
    (show 2 ≤ defaultBufSize by decide) ts
    lines hwf [] sink ((lines.flatMap LogLine.bytes).length + 1) (Nat.lt_succ_self _)
  constructor
  · unfold followLogs
    rw [h false, hl false]
    simp
  · unfold followLogs
    rw [h true, hl true]
    simp

/-- Witness of C8 (amended): two lines, one with spaces in its payload and one
ending in a carriage return, delivered in three fragments. -/
theorem followLogs_writes_payloads_witness :
    followLogs ⟨[ascii "t1 a", ascii " b\nt", ascii "2 c\r\n"], IOErr.eof, false⟩ false []
      = some ⟨ascii "a b\nc\n", ascii "t2 ", IOErr.eof⟩ :=
  (followLogs_writes_payloads [⟨ascii "t1", ascii "a b"⟩, ⟨ascii "t2", ascii "c\r"⟩]
    [ascii "t1 a", ascii " b\nt", ascii "2 c\r\n"] IOErr.eof false [] (by decide) (by decide)
    (by decide)).1

/-- C9 (counterexample): with timestamps, a line whose payload ends in a
carriage return is written without that byte, and a last line that lacks its
newline is written with a newline added: in both cases the sink differs from
the bytes read. -/
theorem followLogs_not_byte_for_byte :
    followLogs ⟨[ascii "t1 a\r\n"], IOErr.eof, false⟩ true []
        = some ⟨ascii "t1 a\n", ascii "t1 ", IOErr.eof⟩
    ∧ ascii "t1 a\n" ≠ ascii "t1 a\r\n"
    ∧ followLogs ⟨[ascii "t1 a"], IOErr.eof, false⟩ true []
        = some ⟨ascii "t1 a\n", ascii "t1 ", IOErr.eof⟩
    ∧ ascii "t1 a\n" ≠ ascii "t1 a" := by
  refine ⟨?_, ?_, ?_, ?_⟩ <;> decide

/-- C9 (amended): for a stream of complete lines, each a timestamp token ended
by a space, a payload that does not end in a carriage return, and a newline,
delivered in any non-empty fragments, `followLogs` with timestamps writes to
the sink exactly the bytes of the body, in order. -/
theorem followLogs_byte_for_byte (lines : List LogLine) (frags : List (List Byte))
    (final : IOErr) (errWithLast : Bool) (sink : List Byte)
    (hwf : ∀ l ∈ lines, l.wellFormed) (hcr : ∀ l ∈ lines, l.payload.getLast? ≠ some CR)
    (hne : ∀ f ∈ frags, f ≠ []) (hdata : frags.flatten = lines.flatMap LogLine.bytes) :
    followLogs ⟨frags, final, errWithLast⟩ true sink
      = some ⟨sink ++ frags.flatten, lastCursor [] lines, final⟩ := by
  have h := (followLogsSize_eq_wire defaultBufSize (by decide)
    ⟨frags, final, errWithLast⟩ hne true sink).1
  simp only [Source.data, hdata] at h
  have hl := Wire.followLoop_lines ⟨defaultBufSize, final, errWithLast⟩
    (show 2 ≤ defaultBufSize by decide) true
    lines hwf [] sink ((lines.flatMap LogLine.bytes).length + 1) (Nat.lt_succ_self _)
  have hsame : lines.flatMap (fun l =>
      (if true = true then l.timestamp ++ [SP] else []) ++ stripCR l.payload ++ [LF])
      = lines.flatMap LogLine.bytes := by
    have hfun : ∀ l ∈ lines,
        (if true = true then l.timestamp ++ [SP] else []) ++ stripCR l.payload ++ [LF]
          = LogLine.bytes l := by
      intro l hmem
      simp [stripCR_of_ne _ (hcr l hmem), LogLine.bytes]
    clear hl h hdata hwf hcr
    induction lines with
    | nil => rfl
    | cons l ls ih =>
      rw [List.flatMap_cons, List.flatMap_cons, hfun l (List.mem_cons_self _ _),
        ih (fun l' h' => hfun l' (List.mem_cons_of_mem _ h'))]
  unfold followLogs
  rw [h, hl, hsame, hdata]

/-- Witness of C9 (amended): two lines delivered in three fragments. -/
theorem followLogs_byte_for_byte_witness :
    followLogs ⟨[ascii "t1 a", ascii " b\nt", ascii "2 c\n"], IOErr.eof, false⟩ true []
      = some ⟨[] ++ [ascii "t1 a", ascii " b\nt", ascii "2 c\n"].flatten, ascii "t2 ",
          IOErr.eof⟩ :=
  followLogs_byte_for_byte [⟨ascii "t1", ascii "a b"⟩, ⟨ascii "t2", ascii "c"⟩]
    [ascii "t1 a", ascii " b\nt", ascii "2 c\n"] IOErr.eof false [] (by decide) (by decide)
    (by decide) (by decide)

/-! ## watchRun on a line that does not decode -/

/-- After the lines `good`, which decode, a line that does not decode makes the
loop of `watchRun` send the error of `json.Unmarshal` and stop; the events of
the lines before it have been sent. -/
lemma watchRunLoop_decode_error (unmarshal : List Byte → Except String Run)
    (bad tail : List Byte) (msg : String) (hbad : LF ∉ bad)
    (hmsg : unmarshal (bad ++ [LF]) = Except.error msg) :
    ∀ (good : List (List Byte × Run)) (b : Reader) (sent : List RunMetadata) (n : Nat),
      b.Inv →
      b.rest = good.flatMap (fun g => g.1 ++ [LF]) ++ (bad ++ LF :: tail) →
      b.rest.length < n →
      (∀ g ∈ good, LF ∉ g.1 ∧ unmarshal (g.1 ++ [LF]) = Except.ok g.2) →
      watchRunLoop unmarshal n b sent
        = some ⟨sent ++ good.map (fun g => g.2.RunMetadata),
            WatchStop.error (WatchError.unmarshal msg)⟩ := by
  intro good
  induction good with
  | nil =>
    intro b sent n hb hrest hn _
    cases n with
    | zero => exact absurd hn (by simp)
    | succ m =>
      obtain ⟨b1, h1, _, _, _⟩ := b.ReadString_spec LF hb
      simp only [List.flatMap_nil, List.nil_append] at hrest
      have hrs : b.wire.readString LF b.rest = (bad ++ [LF], none, tail) := by
        simp only [Wire.readString, hrest, cutAfter_at_delim _ hbad]
      rw [hrs] at h1
      rw [watchRunLoop, h1]
      simp [hmsg]
  | cons g gs ih =>
    intro b sent n hb hrest hn hgood
    obtain ⟨hg1, hg2⟩ := hgood g (List.mem_cons_self _ _)
    cases n with
    | zero => exact absurd hn (by simp)
    | succ m =>
      obtain ⟨b1, h1, hinv1, _, hrest1⟩ := b.ReadString_spec LF hb
      have hrest' : b.rest
          = g.1 ++ LF :: (gs.flatMap (fun g => g.1 ++ [LF]) ++ (bad ++ LF :: tail)) := by
        rw [hrest]
        simp [List.flatMap_cons]
      have hrs : b.wire.readString LF b.rest
          = (g.1 ++ [LF], none, gs.flatMap (fun g => g.1 ++ [LF]) ++ (bad ++ LF :: tail)) := by
        simp only [Wire.readString, hrest', cutAfter_at_delim _ hg1]
      rw [hrs] at h1 hrest1
      simp only at hrest1
      have hfuel : b1.rest.length < m := by
        rw [hrest1]
        rw [hrest'] at hn
        simp only [List.length_append, List.length_cons] at hn ⊢
        omega
      rw [watchRunLoop, h1]
      simp only [hg2]
      rw [ih b1 _ m hinv1 hrest1 hfuel (fun g' h' => hgood g' (List.mem_cons_of_mem _ h'))]
      simp

/-- C7 (amended): a 200 response whose body holds lines that decode to
"Pending"/"Running" runs, then a line that does not decode, makes `watchRun`
send the events of the first lines and then the decode error. Both consumers
treat that error like any other watch error: when it is not the second
consecutive error (`c = 0`, or events precede it) the consumer calls `watchRun`
again; when it comes first on a subscription opened after an error (`1 ≤ c`,
no line before it) the consumer terminates with it, the exec loop through
`log.Fatal` and `run watch` by returning it, and `watchRun` is not called
again. -/
theorem invalid_json_retried_once (unmarshal : List Byte → Except String Run)
    (good : List (List Byte × Run)) (bad tail : List Byte) (msg : String)
    (frags : List (List Byte)) (final : IOErr) (errWithLast : Bool)
    (c calls n : Nat) (printed : List RunMetadata) (rest : List Subscription)
    (hgood : ∀ g ∈ good, LF ∉ g.1 ∧ unmarshal (g.1 ++ [LF]) = Except.ok g.2)
    (hbad : LF ∉ bad) (hmsg : unmarshal (bad ++ [LF]) = Except.error msg)
    (hne : ∀ f ∈ frags, f ≠ [])
    (hdata : frags.flatten = good.flatMap (fun g => g.1 ++ [LF]) ++ (bad ++ LF :: tail))
    (hq : ∀ g ∈ good, keepsWatching g.2.RunMetadata) :
    ∃ sub, watchRun unmarshal ⟨some ⟨200, ⟨frags, final, errWithLast⟩⟩, none⟩ = some sub
      ∧ sub = ⟨good.map (fun g => g.2.RunMetadata), WatchStop.error (WatchError.unmarshal msg)⟩
      ∧ (c = 0 ∨ good ≠ [] →
          execWatch c calls n (sub :: rest) = execWatch 1 (calls + 1) (n + good.length) rest
          ∧ runWatch c calls printed (sub :: rest)
              = runWatch 1 (calls + 1) (printed ++ sub.events) rest)
      ∧ (1 ≤ c → good = [] →
          execWatch c calls n (sub :: rest)
              = ⟨ExecResult.fatalWatch (WatchError.unmarshal msg), calls + 1, n⟩
          ∧ runWatch c calls printed (sub :: rest)
              = ⟨WatchCmdResult.returnedErr (WatchError.unmarshal msg), calls + 1, printed⟩) := by
  have hinv := NewReaderSize_inv ⟨frags, final, errWithLast⟩ defaultBufSize (by decide) hne
  have hrest : (NewReaderSize ⟨frags, final, errWithLast⟩ defaultBufSize).rest
      = good.flatMap (fun g => g.1 ++ [LF]) ++ (bad ++ LF :: tail) := by
    simp [NewReaderSize, Reader.rest, Source.data, hdata]
  have hlen : (NewReaderSize ⟨frags, final, errWithLast⟩ defaultBufSize).rest.length
      < (Source.data ⟨frags, final, errWithLast⟩).length + 1 := by
    simp [NewReaderSize, Reader.rest]
  have hloop := watchRunLoop_decode_error unmarshal bad tail msg hbad hmsg good _ []
    _ hinv hrest hlen hgood
  refine ⟨_, ?_, rfl, ?_, ?_⟩
  · simp only [watchRun, NewReader]
    simpa using hloop
  · intro hc
    have hevs : ∀ ev ∈ good.map (fun g => g.2.RunMetadata), keepsWatching ev := by
      intro ev hev
      obtain ⟨g, hg, rfl⟩ := List.mem_map.mp hev
      exact hq g hg
    have hzero : (if good.map (fun g => g.2.RunMetadata) = [] then c else 0) = 0 := by
      rcases hc with hc | hc
      · simp [hc]
      · simp [hc]
    constructor
    · have h := execFor_keepsWatching (good.map (fun g => g.2.RunMetadata)) c n []
        (WatchStop.error (WatchError.unmarshal msg)) hevs
      rw [List.append_nil, hzero] at h
      simp [execWatch, h, execFor, execSelect]
    · have h := watchFor_events (good.map (fun g => g.2.RunMetadata)) c printed
        (WatchStop.error (WatchError.unmarshal msg))
      rw [hzero] at h
      simp [runWatch, h, watchFor, watchSelect]
  · intro hc hnil
    subst hnil
    have hc' : 0 < c := by omega
    constructor
    · simp [execWatch, execFor, execSelect, hc']
    · simp [runWatch, watchFor, watchSelect, hc']

/-- Witness of C7 (amended): a "Running" line, then the line `not json`: the
exec loop, having consumed the event, calls `watchRun` again. -/
theorem invalid_json_retried_once_witness :
    ∃ sub, watchRun exampleUnmarshal ⟨some ⟨200,
        ⟨[ascii "\x7b\"status\":\"Running\"\x7d\nnot json\n"], IOErr.eof, false⟩⟩, none⟩ = some sub
      ∧ sub = ⟨[⟨7, "Running", "", none⟩], WatchStop.error (WatchError.unmarshal "invalid character")⟩
      ∧ execWatch 1 1 0 [sub, ⟨[], WatchStop.closed⟩] = execWatch 1 2 1 [⟨[], WatchStop.closed⟩] := by
  obtain ⟨sub, h1, h2, h3, _⟩ := invalid_json_retried_once exampleUnmarshal
    [(ascii "\x7b\"status\":\"Running\"\x7d", ⟨⟨7, "Running", "", none⟩, ⟨⟨none, some "c"⟩, []⟩⟩)]
    (ascii "not json") [] "invalid character"
    [ascii "\x7b\"status\":\"Running\"\x7d\nnot json\n"] IOErr.eof false 1 1 0 []
    [⟨[], WatchStop.closed⟩]
    (fun g hg => by
      rw [List.mem_singleton] at hg
      subst hg
      exact ⟨by decide, rfl⟩)
    (by decide) rfl (by decide) (by decide) (by decide)
  exact ⟨sub, h1, h2, (h3 (Or.inr (by decide))).1⟩

/-! ## followLogs on lines followed by more of the stream -/

/-- Complete lines at the head of the stream are written, and the loop goes on
with what follows them, at the start of a line. -/
lemma Wire.followLoop_lines_then (w : Wire) (hsize : 2 ≤ w.size) (includeTimestamps : Bool) :
    ∀ (lines : List LogLine), (∀ l ∈ lines, l.wellFormed) →
      ∀ (tail last sink : List Byte) (n : Nat),
        (lines.flatMap LogLine.bytes ++ tail).length < n →
        ∃ n', tail.length < n'
          ∧ w.followLoop includeTimestamps n (lines.flatMap LogLine.bytes ++ tail) true last sink
            = w.followLoop includeTimestamps n' tail true (lastCursor last lines)
                (sink ++ lines.flatMap (fun l =>
                  (if includeTimestamps then l.timestamp ++ [SP] else [])
                    ++ stripCR l.payload ++ [LF])) := by
  intro lines
  induction lines with
  | nil =>
    intro _ tail last sink n hn
    exact ⟨n, by simpa using hn, by simp [lastCursor]⟩
  | cons l ls ih =>
    intro hwf tail last sink n hn
    obtain ⟨hsp, _, hlf⟩ := hwf l (List.mem_cons_self _ _)
    have hwf' : ∀ l' ∈ ls, l'.wellFormed := fun l' h => hwf l' (List.mem_cons_of_mem _ h)
    cases n with
    | zero => exact absurd hn (by simp)
    | succ m =>
      have hbytes : (l :: ls).flatMap LogLine.bytes ++ tail
          = l.timestamp ++ SP :: (l.payload ++ LF :: (ls.flatMap LogLine.bytes ++ tail)) := by
        simp [List.flatMap_cons, LogLine.bytes]
      rw [hbytes] at hn ⊢
      have hrs : w.readString SP
          (l.timestamp ++ SP :: (l.payload ++ LF :: (ls.flatMap LogLine.bytes ++ tail)))
          = (l.timestamp ++ [SP], none,
              l.payload ++ LF :: (ls.flatMap LogLine.bytes ++ tail)) := by
        simp only [Wire.readString, cutAfter_at_delim _ hsp]
      rw [w.followLoop_after_timestamp includeTimestamps m _ _ _ last sink hrs]
      have hfuel : (l.payload ++ LF :: (ls.flatMap LogLine.bytes ++ tail)).length < m + 1 := by
        simp only [List.length_append, List.length_cons] at hn ⊢
        omega
      obtain ⟨n1, hn1, hn2⟩ := w.followLoop_payload hsize includeTimestamps l.payload.length
        l.payload (le_refl _) hlf (ls.flatMap LogLine.bytes ++ tail) (l.timestamp ++ [SP])
        (if includeTimestamps then sink ++ (l.timestamp ++ [SP]) else sink) (m + 1) hfuel
      obtain ⟨n2, hn3, hn4⟩ := ih hwf' tail (l.timestamp ++ [SP])
        ((if includeTimestamps then sink ++ (l.timestamp ++ [SP]) else sink)
          ++ stripCR l.payload ++ [LF]) n1 hn1
      refine ⟨n2, hn3, ?_⟩
      rw [hn2, hn4, lastCursor_cons]
      cases includeTimestamps <;> simp [List.flatMap_cons]

lemma dropLineEnd_of_no_LF (p : List Byte) (h : LF ∉ p) : dropLineEnd p = p := by
  unfold dropLineEnd
  have : ¬ p.getLast? = some LF := by
    intro hl
    exact h (List.mem_of_getLast?_eq_some hl)
  simp only [this, if_false]

/-- The part of a payload that arrived before the stream failed is written
whole, with or without a newline after it, and the stream's error is returned;
the cursor does not change. -/
lemma Wire.followLoop_partial (w : Wire) (hsize : 2 ≤ w.size) (includeTimestamps : Bool) :
    ∀ (k : Nat) (part : List Byte), part.length ≤ k → LF ∉ part →
      ∀ (last sink : List Byte) (n : Nat), part.length + 1 < n →
        ∃ nl, (nl = [] ∨ nl = [LF])
          ∧ w.followLoop includeTimestamps n part false last sink
            = some ⟨sink ++ part ++ nl, last, w.final⟩ := by
  intro k
  induction k with
  | zero =>
    intro part hk _ last sink n hn
    have hp0 : part = [] := List.eq_nil_of_length_eq_zero (by omega)
    subst hp0
    cases n with
    | zero => exact absurd hn (by simp)
    | succ m =>
      refine ⟨[], Or.inl rfl, ?_⟩
      rw [Wire.followLoop]
      have hs : w.slice LF [] = ([], some (SliceErr.io w.final), []) := by
        have : (0 : Nat) < w.size := by omega
        simp [Wire.slice, cutAfter, this]
      simp [Wire.readLine, hs]
  | succ k ih =>
    intro part hk hp last sink n hn
    cases n with
    | zero => exact absurd hn (by simp)
    | succ m =>
      rw [Wire.followLoop]
      simp only [Bool.false_eq_true, if_false]
      rcases w.slice_cases LF part with ⟨l, r, hc, _, _⟩ | ⟨_, _, hs⟩ | ⟨hlen, _, hs⟩
      · rw [cutAfter_eq_none_iff.mpr hp] at hc
        exact absurd hc (by simp)
      · by_cases hl : part.length = 0
        · have hp0 : part = [] := List.eq_nil_of_length_eq_zero hl
          subst hp0
          refine ⟨[], Or.inl rfl, ?_⟩
          simp [Wire.readLine, hs]
        · refine ⟨[LF], Or.inr rfl, ?_⟩
          simp only [Wire.readLine, hs, hl, if_false, dropLineEnd_of_no_LF part hp,
            Bool.not_false]
          cases m with
          | zero => simp at hn
          | succ m' =>
            rw [Wire.followLoop]
            simp [Wire.readString, cutAfter]
      · have hsplit : part = part.take w.size ++ part.drop w.size :=
          (List.take_append_drop _ _).symm
        have htl : (part.take w.size).length = w.size := by
          rw [List.length_take]; omega
        have hdl : (part.drop w.size).length = part.length - w.size := List.length_drop _ _
        simp only [Wire.readLine, hs]
        by_cases hcr : (part.take w.size).getLast? = some CR
        · simp only [hcr, if_true, Bool.not_true]
          have htake : part.take w.size = (part.take w.size).dropLast ++ [CR] := by
            have hne : part.take w.size ≠ [] := by
              intro h
              rw [h] at htl
              simp at htl
              omega
            have := List.dropLast_append_getLast hne
            rw [List.getLast?_eq_getLast _ hne] at hcr
            simp only [Option.some.injEq] at hcr
            rw [hcr] at this
            exact this.symm
          have hp' : LF ∉ CR :: part.drop w.size := by
            intro hmem
            simp only [List.mem_cons] at hmem
            rcases hmem with h | h
            · exact absurd h (by decide)
            · exact hp (List.mem_of_mem_drop h)
          have hk' : (CR :: part.drop w.size).length ≤ k := by
            simp only [List.length_cons, hdl]
            omega
          have hfuel : (CR :: part.drop w.size).length + 1 < m := by
            simp only [List.length_cons, hdl]
            omega
          obtain ⟨nl, hnl, hres⟩ := ih (CR :: part.drop w.size) hk' hp' last
            (sink ++ (part.take w.size).dropLast) m hfuel
          refine ⟨nl, hnl, ?_⟩
          rw [hres]
          have hjoin : (part.take w.size).dropLast ++ CR :: part.drop w.size = part := by
            conv_rhs => rw [hsplit, htake]
            simp
          simp only [List.append_assoc, hjoin]
        · simp only [hcr, if_false, Bool.not_true, if_true]
          have hp' : LF ∉ part.drop w.size := fun h => hp (List.mem_of_mem_drop h)
          have hk' : (part.drop w.size).length ≤ k := by
            rw [hdl]; omega
          have hfuel : (part.drop w.size).length + 1 < m := by
            rw [hdl]; omega
          obtain ⟨nl, hnl, hres⟩ := ih (part.drop w.size) hk' hp' last
            (sink ++ part.take w.size) m hfuel
          refine ⟨nl, hnl, ?_⟩
          rw [hres]
          simp only [List.append_assoc]
          rw [← List.append_assoc (part.take w.size), List.take_append_drop]

/-- The bytes `followLogs` writes for complete lines. -/
lemma followLogs_of_lines (lines : List LogLine) (frags : List (List Byte))
    (final : IOErr) (errWithLast includeTimestamps : Bool) (sink : List Byte)
    (hwf : ∀ l ∈ lines, l.wellFormed) (hne : ∀ f ∈ frags, f ≠ [])
    (hdata : frags.flatten = lines.flatMap LogLine.bytes) :
    followLogs ⟨frags, final, errWithLast⟩ includeTimestamps sink
      = some ⟨sink ++ lines.flatMap (fun l =>
            (if includeTimestamps then l.timestamp ++ [SP] else []) ++ stripCR l.payload ++ [LF]),
          lastCursor [] lines, final⟩ := by
  have h := (followLogsSize_eq_wire defaultBufSize (by decide)
    ⟨frags, final, errWithLast⟩ hne includeTimestamps sink).1
  simp only [Source.data, hdata] at h
  have hl := Wire.followLoop_lines ⟨defaultBufSize, final, errWithLast⟩
    (show 2 ≤ defaultBufSize by decide) includeTimestamps
    lines hwf [] sink ((lines.flatMap LogLine.bytes).length + 1) (Nat.lt_succ_self _)
  unfold followLogs
  rw [h, hl]

/-- The result of `followLogs` when the stream fails in the payload of a line:
the lines before it are written, then the timestamp if asked and the part of
the payload that arrived, with or without a newline; the cursor is the
timestamp of the line that was being delivered, with its space. -/
lemma followLogs_of_lines_partial (lines : List LogLine) (cur : LogLine) (part : List Byte)
    (frags : List (List Byte)) (final : IOErr) (errWithLast includeTimestamps : Bool)
    (sink : List Byte)
    (hwf : ∀ l ∈ lines, l.wellFormed) (hcur : SP ∉ cur.timestamp) (hpart : LF ∉ part)
    (hne : ∀ f ∈ frags, f ≠ [])
    (hdata : frags.flatten = lines.flatMap LogLine.bytes ++ (cur.timestamp ++ SP :: part)) :
    ∃ nl, (nl = [] ∨ nl = [LF])
      ∧ followLogs ⟨frags, final, errWithLast⟩ includeTimestamps sink
        = some ⟨sink ++ lines.flatMap (fun l =>
              (if includeTimestamps then l.timestamp ++ [SP] else [])
                ++ stripCR l.payload ++ [LF])
            ++ (if includeTimestamps then cur.timestamp ++ [SP] else []) ++ part ++ nl,
            cur.timestamp ++ [SP], final⟩ := by
  have h := (followLogsSize_eq_wire defaultBufSize (by decide)
    ⟨frags, final, errWithLast⟩ hne includeTimestamps sink).1
  simp only [Source.data, hdata] at h
  have hsize : 2 ≤ (⟨defaultBufSize, final, errWithLast⟩ : Wire).size :=
    show 2 ≤ defaultBufSize by decide
  obtain ⟨n1, hn1, hstep⟩ := Wire.followLoop_lines_then ⟨defaultBufSize, final, errWithLast⟩
    hsize includeTimestamps lines hwf (cur.timestamp ++ SP :: part) [] sink
    ((lines.flatMap LogLine.bytes ++ (cur.timestamp ++ SP :: part)).length + 1)
    (Nat.lt_succ_self _)
  cases n1 with
  | zero => exact absurd hn1 (by simp)
  | succ m =>
    have hrs : (⟨defaultBufSize, final, errWithLast⟩ : Wire).readString SP
        (cur.timestamp ++ SP :: part) = (cur.timestamp ++ [SP], none, part) := by
      simp only [Wire.readString, cutAfter_at_delim _ hcur]
    have hfuel : part.length + 1 < m + 1 := by
      simp only [List.length_append, List.length_cons] at hn1
      omega
    obtain ⟨nl, hnl, hres⟩ := Wire.followLoop_partial ⟨defaultBufSize, final, errWithLast⟩
      hsize includeTimestamps part.length part (le_refl _) hpart (cur.timestamp ++ [SP])
      (if includeTimestamps then
        (sink ++ lines.flatMap (fun l =>
          (if includeTimestamps then l.timestamp ++ [SP] else []) ++ stripCR l.payload ++ [LF]))
          ++ (cur.timestamp ++ [SP])
       else sink ++ lines.flatMap (fun l =>
          (if includeTimestamps then l.timestamp ++ [SP] else []) ++ stripCR l.payload ++ [LF]))
      (m + 1) hfuel
    refine ⟨nl, hnl, ?_⟩
    unfold followLogs
    rw [h, hstep, Wire.followLoop_after_timestamp _ includeTimestamps m _ _ _ _ _ hrs, hres]
    cases includeTimestamps <;> simp

/-- The requests `getLogs` has sent so far stay at the head of the list of its
requests, followed by the request of the current iteration. -/
lemma getLogsLoop_requests (runId : String) (timestamps follow : Bool) :
    ∀ (responses : List (Except String Source)) (q : Values) (sink : List Byte)
      (sent : List LogsRequest) (o : LogsOutcome),
      getLogsLoop runId timestamps follow responses q sink sent = some o →
      ∃ more, o.requests = sent ++ ⟨runId, q⟩ :: more := by
  intro responses
  induction responses with
  | nil =>
    intro q sink sent o h
    simp only [getLogsLoop, Option.some.injEq] at h
    exact ⟨[], by rw [← h]⟩
  | cons resp rest ih =>
    intro q sink sent o h
    cases resp with
    | error err =>
      simp only [getLogsLoop, Option.some.injEq] at h
      exact ⟨[], by rw [← h]⟩
    | ok body =>
      rw [getLogsLoop] at h
      cases follow with
      | true =>
        simp only [not_true_eq_false, if_false] at h
        cases hfl : followLogs body timestamps sink with
        | none => simp [hfl] at h
        | some r =>
          simp only [hfl] at h
          by_cases he : r.err = IOErr.eof
          · simp only [he, if_true, Option.some.injEq] at h
            exact ⟨[], by rw [← h]⟩
          · simp only [he, if_false] at h
            obtain ⟨more, hmore⟩ := ih _ _ _ o h
            exact ⟨⟨runId, if r.lastTimestamp.length > 0 then q.Set "since" r.lastTimestamp
              else q⟩ :: more, by rw [hmore, List.append_assoc]; rfl⟩
      | false =>
        simp only [Bool.false_eq_true, not_false_eq_true, if_true, Option.some.injEq] at h
        exact ⟨[], by rw [← h]⟩

/-! ## getLogs: the cursor and the reconnection -/

/-- C11 (code at the failing input and around it): when the followed body fails
with an error other than the end of the stream while the line `cur` is being
delivered (its timestamp has been read, its payload has arrived in part), the
next request of `getLogs` carries the `since` parameter set to the timestamp
of that line followed by the space that ended it, not to the timestamp
alone. -/
theorem getLogs_resumes_since_with_space (runId : String) (timestamps : Bool) (tailLines : Int)
    (since : Option (List Byte)) (sink : List Byte) (lines : List LogLine) (cur : LogLine)
    (part : List Byte) (frags : List (List Byte)) (final : IOErr) (errWithLast : Bool)
    (responses : List (Except String Source))
    (hwf : ∀ l ∈ lines, l.wellFormed) (hcur : SP ∉ cur.timestamp) (hpart : LF ∉ part)
    (hne : ∀ f ∈ frags, f ≠ [])
    (hdata : frags.flatten = lines.flatMap LogLine.bytes ++ (cur.timestamp ++ SP :: part))
    (hfinal : final ≠ IOErr.eof) :
    (∃ sink1, getLogs runId timestamps tailLines since true sink
        (Except.ok ⟨frags, final, errWithLast⟩ :: responses)
      = getLogsLoop runId timestamps true responses
          ((logsQueryOptions timestamps tailLines since true).Set "since"
            (cur.timestamp ++ [SP]))
          sink1 [⟨runId, logsQueryOptions timestamps tailLines since true⟩])
    ∧ cur.timestamp ++ [SP] ≠ cur.timestamp := by
  obtain ⟨nl, _, hres⟩ := followLogs_of_lines_partial lines cur part frags final errWithLast
    timestamps sink hwf hcur hpart hne hdata
  refine ⟨⟨sink ++ lines.flatMap (fun l =>
      (if timestamps then l.timestamp ++ [SP] else []) ++ stripCR l.payload ++ [LF])
      ++ (if timestamps then cur.timestamp ++ [SP] else []) ++ part ++ nl, ?_⟩, by simp⟩
  rw [getLogs, getLogsLoop]
  simp only [not_true_eq_false, if_false, hres, hfinal, List.length_append,
    List.length_singleton, gt_iff_lt, Nat.lt_add_left_iff_pos, Nat.lt_one_iff, List.nil_append]
  simp

/-- Witness of C11: the line `T1 hello` is cut after `hel` by a connection
reset; the second request asks for `since` equal to `T1` and a space. -/
theorem getLogs_resumes_since_with_space_witness :
    (getLogs "7" false (-1) none true []
        [Except.ok ⟨[ascii "T1 hel"], IOErr.failed "reset", false⟩]).map
        (fun o => o.requests.map (fun r => r.query))
      = some [[("timestamps", ascii "true"), ("follow", ascii "true")],
          [("timestamps", ascii "true"), ("follow", ascii "true"), ("since", ascii "T1 ")]]
    ∧ ascii "T1" ++ [SP] ≠ ascii "T1" :=
  ⟨by decide,
   (getLogs_resumes_since_with_space "7" false (-1) none [] [] ⟨ascii "T1", []⟩ (ascii "hel")
    [ascii "T1 hel"] (IOErr.failed "reset") false [] (by decide) (by decide) (by decide)
    (by decide) (by decide) (by decide)).2⟩

/-- C12 (counterexample): the stream fails after `t2 b`, in the middle of the
line `t2 bcd`. The cursor returned is that of line `t2`, whose payload has not
been written completely: the sink holds `b` as if it were a line. Resuming
from that cursor with the line delivered again gives `a`, `b`, `bcd`. -/
theorem followLogs_cursor_of_unfinished_line :
    followLogs ⟨[ascii "t1 a\nt2 b"], IOErr.failed "reset", false⟩ false []
        = some ⟨ascii "a\nb\n", ascii "t2 ", IOErr.failed "reset"⟩
    ∧ (getLogs "7" false (-1) none true []
        [Except.ok ⟨[ascii "t1 a\nt2 b"], IOErr.failed "reset", false⟩,
         Except.ok ⟨[ascii "t2 bcd\n"], IOErr.eof, false⟩]).map (fun o => o.sink)
        = some (ascii "a\nb\nbcd\n")
    ∧ ascii "a\nb\nbcd\n" ≠ ascii "a\nbcd\n" := by
  refine ⟨?_, ?_, ?_⟩ <;> decide

/-- The part of a payload that arrived before the stream failed, when it is
shorter than the buffer: it is written whole, with a newline after it unless it
is empty, and the stream's error is returned; the cursor does not change. -/
lemma Wire.followLoop_partial_short (w : Wire) (includeTimestamps : Bool) (part : List Byte)
    (hlen : part.length < w.size) (hp : LF ∉ part) (last sink : List Byte) (n : Nat)
    (hn : 2 ≤ n) :
    w.followLoop includeTimestamps n part false last sink
      = some ⟨sink ++ part ++ (if part = [] then [] else [LF]), last, w.final⟩ := by
  obtain ⟨m, rfl⟩ : ∃ m, n = m + 2 := ⟨n - 2, by omega⟩
  have hs : w.slice LF part = (part, some (SliceErr.io w.final), []) := by
    simp [Wire.slice, cutAfter_eq_none_iff.mpr hp, hlen]
  rw [Wire.followLoop]
  simp only [Bool.false_eq_true, if_false]
  by_cases hl : part = []
  · subst hl
    simp [Wire.readLine, hs]
  · have hl' : ¬ part.length = 0 := fun h => hl (List.eq_nil_of_length_eq_zero h)
    simp only [Wire.readLine, hs, hl', if_false, dropLineEnd_of_no_LF part hp, Bool.not_false]
    rw [Wire.followLoop]
    simp [Wire.readString, cutAfter, hl]

/-- The result of `followLogs` when the stream fails in the payload of a line,
after a part of it shorter than the buffer: the lines before it are written,
then the timestamp if asked and the part of the payload that arrived, with a
newline unless the part is empty; the cursor is the token read for the line
that was being delivered. -/
lemma followLogs_of_lines_partial_short (lines : List LogLine) (cur : LogLine)
    (part : List Byte) (frags : List (List Byte)) (final : IOErr)
    (errWithLast includeTimestamps : Bool) (sink : List Byte)
    (hwf : ∀ l ∈ lines, l.wellFormed) (hcur : SP ∉ cur.timestamp) (hpart : LF ∉ part)
    (hshort : part.length < defaultBufSize) (hne : ∀ f ∈ frags, f ≠ [])
    (hdata : frags.flatten = lines.flatMap LogLine.bytes ++ (cur.timestamp ++ SP :: part)) :
    followLogs ⟨frags, final, errWithLast⟩ includeTimestamps sink
      = some ⟨sink ++ lines.flatMap (fun l =>
            (if includeTimestamps then l.timestamp ++ [SP] else [])
              ++ stripCR l.payload ++ [LF])
          ++ (if includeTimestamps then cur.timestamp ++ [SP] else []) ++ part
          ++ (if part = [] then [] else [LF]),
          cur.timestamp ++ [SP], final⟩ := by
  have h := (followLogsSize_eq_wire defaultBufSize (by decide)
    ⟨frags, final, errWithLast⟩ hne includeTimestamps sink).1
  simp only [Source.data, hdata] at h
  have hsize : 2 ≤ (⟨defaultBufSize, final, errWithLast⟩ : Wire).size :=
    show 2 ≤ defaultBufSize by decide
  obtain ⟨n1, hn1, hstep⟩ := Wire.followLoop_lines_then ⟨defaultBufSize, final, errWithLast⟩
    hsize includeTimestamps lines hwf (cur.timestamp ++ SP :: part) [] sink
    ((lines.flatMap LogLine.bytes ++ (cur.timestamp ++ SP :: part)).length + 1)
    (Nat.lt_succ_self _)
  cases n1 with
  | zero => exact absurd hn1 (by simp)
  | succ m =>
    have hrs : (⟨defaultBufSize, final, errWithLast⟩ : Wire).readString SP
        (cur.timestamp ++ SP :: part) = (cur.timestamp ++ [SP], none, part) := by
      simp only [Wire.readString, cutAfter_at_delim _ hcur]
    have hfuel : 2 ≤ m + 1 := by
      simp only [List.length_append, List.length_cons] at hn1
      omega
    have hres := Wire.followLoop_partial_short ⟨defaultBufSize, final, errWithLast⟩
      includeTimestamps part hshort hpart (cur.timestamp ++ [SP])
      (if includeTimestamps then
        (sink ++ lines.flatMap (fun l =>
          (if includeTimestamps then l.timestamp ++ [SP] else []) ++ stripCR l.payload ++ [LF]))
          ++ (cur.timestamp ++ [SP])
       else sink ++ lines.flatMap (fun l =>
          (if includeTimestamps then l.timestamp ++ [SP] else []) ++ stripCR l.payload ++ [LF]))
      (m + 1) hfuel
    unfold followLogs
    rw [h, hstep, Wire.followLoop_after_timestamp _ includeTimestamps m _ _ _ _ _ hrs, hres]
    cases includeTimestamps <;> simp

/-- The bytes of a token before its space are the timestamp. -/
lemma takeWhile_timestamp (ts tail : List Byte) (h : SP ∉ ts) :
    (ts ++ SP :: tail).takeWhile (fun b => b != SP) = ts := by
  induction ts with
  | nil => simp
  | cons x xs ih =>
    have hx : x ≠ SP := fun hx => h (hx ▸ List.mem_cons_self _ _)
    have hxs : SP ∉ xs := fun hm => h (List.mem_cons_of_mem _ hm)
    have hb : (x != SP) = true := by simpa using hx
    rw [List.cons_append, List.takeWhile_cons, hb]
    simp only [if_true, ih hxs]

/-- C12 (amended): when the stream fails while the line `cur` is being
delivered, after the complete lines `lines` and a part of the payload of `cur`
shorter than the reader's buffer, the cursor `followLogs` returns denotes
`cur`: its bytes before the space are the timestamp of `cur`. Every line
before `cur` has been written in full, followed by the part of `cur` that
arrived, ended by a newline unless the part is empty. `getLogs` then asks
again with `since` set to that cursor and appends what the server delivers,
here the complete lines `resumed`, before it returns nil. -/
theorem followLogs_cursor_is_line_in_delivery (runId : String) (timestamps : Bool)
    (tailLines : Int) (since : Option (List Byte)) (sink : List Byte)
    (lines resumed : List LogLine) (cur : LogLine) (part : List Byte)
    (frags frags' : List (List Byte)) (final : IOErr) (errWithLast errWithLast' : Bool)
    (hwf : ∀ l ∈ lines, l.wellFormed) (hcur : SP ∉ cur.timestamp) (hpart : LF ∉ part)
    (hshort : part.length < defaultBufSize)
    (hne : ∀ f ∈ frags, f ≠ [])
    (hdata : frags.flatten = lines.flatMap LogLine.bytes ++ (cur.timestamp ++ SP :: part))
    (hfinal : final ≠ IOErr.eof)
    (hwf' : ∀ l ∈ resumed, l.wellFormed) (hne' : ∀ f ∈ frags', f ≠ [])
    (hdata' : frags'.flatten = resumed.flatMap LogLine.bytes) :
    ∃ cursor, cursor.takeWhile (fun b => b != SP) = cur.timestamp
      ∧ followLogs ⟨frags, final, errWithLast⟩ timestamps sink
        = some ⟨sink ++ lines.flatMap (fun l =>
              (if timestamps then l.timestamp ++ [SP] else []) ++ stripCR l.payload ++ [LF])
            ++ (if timestamps then cur.timestamp ++ [SP] else []) ++ part
            ++ (if part = [] then [] else [LF]),
            cursor, final⟩
      ∧ getLogs runId timestamps tailLines since true sink
          [Except.ok ⟨frags, final, errWithLast⟩, Except.ok ⟨frags', IOErr.eof, errWithLast'⟩]
        = some ⟨LogsResult.returned none,
            sink ++ lines.flatMap (fun l =>
              (if timestamps then l.timestamp ++ [SP] else []) ++ stripCR l.payload ++ [LF])
            ++ (if timestamps then cur.timestamp ++ [SP] else []) ++ part
            ++ (if part = [] then [] else [LF])
            ++ resumed.flatMap (fun l =>
              (if timestamps then l.timestamp ++ [SP] else []) ++ stripCR l.payload ++ [LF]),
            [⟨runId, logsQueryOptions timestamps tailLines since true⟩,
             ⟨runId, (logsQueryOptions timestamps tailLines since true).Set "since" cursor⟩]⟩ := by
  have hres := followLogs_of_lines_partial_short lines cur part frags final errWithLast
    timestamps sink hwf hcur hpart hshort hne hdata
  refine ⟨cur.timestamp ++ [SP], takeWhile_timestamp cur.timestamp [] hcur, hres, ?_⟩
  have hres' := followLogs_of_lines resumed frags' IOErr.eof errWithLast' timestamps
    (sink ++ lines.flatMap (fun l =>
      (if timestamps then l.timestamp ++ [SP] else []) ++ stripCR l.payload ++ [LF])
      ++ (if timestamps then cur.timestamp ++ [SP] else []) ++ part
      ++ (if part = [] then [] else [LF])) hwf' hne' hdata'
  rw [getLogs, getLogsLoop]
  simp only [not_true_eq_false, if_false, hres, hfinal]
  rw [getLogsLoop]
  simp only [not_true_eq_false, if_false, hres', if_true]
  simp

/-- Witness of C12 (amended): the streams of the counterexample; the part `b`
of the line `t2 bcd` is in the sink as a line of its own before the line
delivered again. -/
theorem followLogs_cursor_is_line_in_delivery_witness :
    ∃ cursor, cursor.takeWhile (fun b => b != SP) = ascii "t2"
      ∧ followLogs ⟨[ascii "t1 a\nt2 b"], IOErr.failed "reset", false⟩ false []
        = some ⟨[] ++ ascii "a\n" ++ [] ++ ascii "b" ++ [LF], cursor, IOErr.failed "reset"⟩
      ∧ (getLogs "7" false (-1) none true []
          [Except.ok ⟨[ascii "t1 a\nt2 b"], IOErr.failed "reset", false⟩,
           Except.ok ⟨[ascii "t2 bcd\n"], IOErr.eof, false⟩]).map (fun o => o.sink)
        = some (ascii "a\nb\nbcd\n") := by
  obtain ⟨cursor, h1, h2, h3⟩ := followLogs_cursor_is_line_in_delivery "7" false (-1) none []
    [⟨ascii "t1", ascii "a"⟩] [⟨ascii "t2", ascii "bcd"⟩] ⟨ascii "t2", []⟩ (ascii "b")
    [ascii "t1 a\nt2 b"] [ascii "t2 bcd\n"] (IOErr.failed "reset") false false
    (by decide) (by decide) (by decide) (by decide) (by decide) (by decide) (by decide)
    (by decide) (by decide) (by decide)
  exact ⟨cursor, h1, h2, by rw [h3]; rfl⟩

/-- C13: a followed body made of complete lines that then ends is a success:
`getLogs` writes the lines and returns nil after that one request, whatever
further responses would be. -/
theorem getLogs_clean_end_returns_nil (runId : String) (timestamps : Bool) (tailLines : Int)
    (since : Option (List Byte)) (sink : List Byte) (lines : List LogLine)
    (frags : List (List Byte)) (errWithLast : Bool) (responses : List (Except String Source))
    (hwf : ∀ l ∈ lines, l.wellFormed) (hne : ∀ f ∈ frags, f ≠ [])
    (hdata : frags.flatten = lines.flatMap LogLine.bytes) :
    getLogs runId timestamps tailLines since true sink
        (Except.ok ⟨frags, IOErr.eof, errWithLast⟩ :: responses)
      = some ⟨LogsResult.returned none,
          sink ++ lines.flatMap (fun l =>
            (if timestamps then l.timestamp ++ [SP] else []) ++ stripCR l.payload ++ [LF]),
          [⟨runId, logsQueryOptions timestamps tailLines since true⟩]⟩ := by
  have hres := followLogs_of_lines lines frags IOErr.eof errWithLast timestamps sink hwf hne hdata
  rw [getLogs, getLogsLoop]
  simp only [not_true_eq_false, if_false, hres, if_true]
  simp

/-- Witness of C13: two lines, then the end of the stream; the second response
is never asked for. -/
theorem getLogs_clean_end_returns_nil_witness :
    getLogs "7" false (-1) none true [] [Except.ok ⟨[ascii "t1 a\nt2 b\n"], IOErr.eof, false⟩,
        Except.error "unreachable"]
      = some ⟨LogsResult.returned none,
          [] ++ [(⟨ascii "t1", ascii "a"⟩ : LogLine), ⟨ascii "t2", ascii "b"⟩].flatMap (fun l =>
            (if false = true then l.timestamp ++ [SP] else []) ++ stripCR l.payload ++ [LF]),
          [⟨"7", logsQueryOptions false (-1) none true⟩]⟩ :=
  getLogs_clean_end_returns_nil "7" false (-1) none [] [⟨ascii "t1", ascii "a"⟩,
    ⟨ascii "t2", ascii "b"⟩] [ascii "t1 a\nt2 b\n"] false [Except.error "unreachable"]
    (by decide) (by decide) (by decide)

/-! ## The query of the first request -/

/-- C14: the first request of `getLogs` carries `timestamps=true` exactly when
`follow` or `timestamps` is set, `tailLines=<n>` exactly when `n ≥ 0`,
`since=<the formatted time>` exactly when a time was given, `follow=true`
exactly when `follow` is set, each at most once, and no other parameter. -/
theorem getLogs_first_query (runId : String) (timestamps : Bool) (tailLines : Int)
    (since : Option (List Byte)) (follow : Bool) (sink : List Byte)
    (responses : List (Except String Source)) (o : LogsOutcome)
    (h : getLogs runId timestamps tailLines since follow sink responses = some o) :
    ∃ q more, o.requests = ⟨runId, q⟩ :: more
      ∧ (∀ key value, (key, value) ∈ q ↔
          (key = "timestamps" ∧ value = ascii "true" ∧ (follow = true ∨ timestamps = true))
          ∨ (key = "tailLines" ∧ value = Itoa tailLines ∧ 0 ≤ tailLines)
          ∨ (key = "since" ∧ since = some value)
          ∨ (key = "follow" ∧ value = ascii "true" ∧ follow = true))
      ∧ (q.map Prod.fst).Nodup := by
  obtain ⟨more, hmore⟩ := getLogsLoop_requests runId timestamps follow responses _ _ _ o h
  refine ⟨logsQueryOptions timestamps tailLines since follow, more, by simpa using hmore, ?_, ?_⟩
  · intro key value
    by_cases ht : 0 ≤ tailLines <;> cases follow <;> cases timestamps <;> cases since <;>
      simp [logsQueryOptions, Values.Add, ht] <;> tauto
  · by_cases ht : 0 ≤ tailLines <;> cases follow <;> cases timestamps <;> cases since <;>
      simp [logsQueryOptions, Values.Add, ht]

/-- Witness of C14: following, three last lines, no `since`: the query is
`timestamps=true`, `tailLines=3`, `follow=true`. -/
theorem getLogs_first_query_witness :
    getLogs "7" false 3 none true [] []
        = some ⟨LogsResult.blocked, [],
            [⟨"7", [("timestamps", ascii "true"), ("tailLines", ascii "3"),
              ("follow", ascii "true")]⟩]⟩
    ∧ ∃ q more, (⟨LogsResult.blocked, [],
            [⟨"7", [("timestamps", ascii "true"), ("tailLines", ascii "3"),
              ("follow", ascii "true")]⟩]⟩ : LogsOutcome).requests = ⟨"7", q⟩ :: more
        ∧ (q.map Prod.fst).Nodup :=
  ⟨by decide,
   (getLogs_first_query "7" false 3 none true [] [] _ (by decide)).imp
    (fun _ hq => hq.imp (fun _ hm => ⟨hm.1, hm.2.2⟩))⟩

/-! ## The buffers exec attaches -/

/-- The tasks `postCreate` starts: none when an access URI cannot be obtained,
otherwise those of `startedTasks`, whatever the watch loop does afterwards. -/
lemma postCreate_started (g : String → Bool → Except String String) (vars : ExecVars)
    (subs : List Subscription) (run : Run) :
    (postCreate g vars subs run).started
      = match accessUris g vars run with
        | Except.error _ => []
        | Except.ok (i, o) => startedTasks i o vars.logs := by
  unfold postCreate
  cases hu : accessUris g vars run with
  | error err => rfl
  | ok p =>
    obtain ⟨i, o⟩ := p
    simp only
    cases (execWatch 0 0 0 subs).result <;> rfl

/-- The tasks `postCreate` starts, spelled out: a write of stdin to the input
buffer exactly when an input parameter was chosen and its access URI is not
empty, a read of the output buffer to stdout exactly when an output parameter
was chosen and its access URI is not empty, the log task when logs are asked
for; nothing at all when an access URI cannot be obtained. -/
lemma postCreate_started_exact (g : String → Bool → Except String String) (vars : ExecVars)
    (subs : List Subscription) (committedRun : Run) :
    (∀ (inputSasUri outputSasUri : String),
        (vars.inputBufferParameter ≠ "" →
          g (mapIndex committedRun.Job.Buffers vars.inputBufferParameter) true
            = Except.ok inputSasUri) →
        (vars.outputBufferParameter ≠ "" →
          g (mapIndex committedRun.Job.Buffers vars.outputBufferParameter) false
            = Except.ok outputSasUri) →
        (postCreate g vars subs committedRun).started
          = (if vars.inputBufferParameter ≠ "" ∧ inputSasUri ≠ "" then [Task.write inputSasUri]
              else [])
            ++ (if vars.outputBufferParameter ≠ "" ∧ outputSasUri ≠ ""
                then [Task.read outputSasUri] else [])
            ++ (if vars.logs then [Task.logs] else []))
    ∧ (∀ (err : String),
        (vars.inputBufferParameter ≠ ""
            ∧ g (mapIndex committedRun.Job.Buffers vars.inputBufferParameter) true
              = Except.error err)
          ∨ (vars.outputBufferParameter ≠ ""
            ∧ g (mapIndex committedRun.Job.Buffers vars.outputBufferParameter) false
              = Except.error err) →
        (postCreate g vars subs committedRun).started = []) := by
  constructor
  · intro i o hin hout
    rw [postCreate_started]
    unfold accessUris
    by_cases h1 : vars.inputBufferParameter = "" <;>
      by_cases h2 : vars.outputBufferParameter = ""
    · simp [h1, h2, startedTasks]
    · simp [h1, h2, hout h2, startedTasks]
    · simp [h1, h2, hin h1, startedTasks]
    · simp [h1, h2, hin h1, hout h2, startedTasks]
  · intro err h
    rw [postCreate_started]
    unfold accessUris
    rcases h with ⟨h1, hg⟩ | ⟨h2, hg⟩
    · simp [h1, hg]
    · by_cases h1 : vars.inputBufferParameter = ""
      · simp [h1, h2, hg]
      · cases hi : g (mapIndex committedRun.Job.Buffers vars.inputBufferParameter) true with
        | error e => simp [h1, hi]
        | ok i => simp [h1, h2, hi, hg]

/-- C15: for the codespec the job resolves to, `preValidate` succeeds exactly
when there is no buffers section or at most one input and at most one output
buffer parameter are declared. On success the input parameter kept for
streaming stdin is the declared input name when there is exactly one, and none
(the empty string) otherwise; likewise for the output parameter and stdout. Then
`postCreate` starts at most one input transfer and at most one output transfer,
and none for a parameter that was not chosen; precisely, when the access URIs
of the chosen parameters are obtained, it starts one write of stdin to the
input URI if an input parameter was chosen (and its URI is not empty), one
read of the output URI to stdout if an output parameter was chosen (and its
URI is not empty), the log task if asked for, and nothing else; when an access
URI cannot be obtained it starts nothing. -/
theorem preValidate_chooses_single_buffers
    (getCodespec : String → Except String Codespec) (logs : Bool) (run : Run)
    (codespec : Codespec)
    (hres : run.Job.Codespec.Inline = some codespec
      ∨ (run.Job.Codespec.Inline = none ∧ ∃ name, run.Job.Codespec.Named = some name
          ∧ getCodespec ("v1/codespecs/" ++ name) = Except.ok codespec)) :
    ((preValidate getCodespec ⟨logs, "", ""⟩ run).1 = none ↔
        (codespec.Buffers = none
          ∨ ∃ bp, codespec.Buffers = some bp ∧ bp.Inputs.length ≤ 1 ∧ bp.Outputs.length ≤ 1))
    ∧ ((preValidate getCodespec ⟨logs, "", ""⟩ run).1 = none →
        (preValidate getCodespec ⟨logs, "", ""⟩ run).2.1
          = ⟨logs,
              (match codespec.Buffers with
                | some bp => onlyName bp.Inputs
                | none => ""),
              (match codespec.Buffers with
                | some bp => onlyName bp.Outputs
                | none => "")⟩)
    ∧ (∀ (getBufferAccessUri : String → Bool → Except String String) (vars : ExecVars)
        (subs : List Subscription) (committedRun : Run),
        ((postCreate getBufferAccessUri vars subs committedRun).started.filter Task.isWrite).length
            ≤ 1
        ∧ ((postCreate getBufferAccessUri vars subs committedRun).started.filter Task.isRead).length
            ≤ 1
        ∧ (vars.inputBufferParameter = "" →
            (postCreate getBufferAccessUri vars subs committedRun).started.filter Task.isWrite
              = [])
        ∧ (vars.outputBufferParameter = "" →
            (postCreate getBufferAccessUri vars subs committedRun).started.filter Task.isRead
              = []))
    ∧ (∀ (getBufferAccessUri : String → Bool → Except String String) (vars : ExecVars)
        (subs : List Subscription) (committedRun : Run),
        (∀ (inputSasUri outputSasUri : String),
          (vars.inputBufferParameter ≠ "" →
            getBufferAccessUri (mapIndex committedRun.Job.Buffers vars.inputBufferParameter) true
              = Except.ok inputSasUri) →
          (vars.outputBufferParameter ≠ "" →
            getBufferAccessUri (mapIndex committedRun.Job.Buffers vars.outputBufferParameter) false
              = Except.ok outputSasUri) →
          (postCreate getBufferAccessUri vars subs committedRun).started
            = (if vars.inputBufferParameter ≠ "" ∧ inputSasUri ≠ "" then [Task.write inputSasUri]
                else [])
              ++ (if vars.outputBufferParameter ≠ "" ∧ outputSasUri ≠ ""
                  then [Task.read outputSasUri] else [])
              ++ (if vars.logs then [Task.logs] else []))
        ∧ (∀ (err : String),
          (vars.inputBufferParameter ≠ ""
              ∧ getBufferAccessUri (mapIndex committedRun.Job.Buffers vars.inputBufferParameter)
                  true = Except.error err)
            ∨ (vars.outputBufferParameter ≠ ""
              ∧ getBufferAccessUri (mapIndex committedRun.Job.Buffers vars.outputBufferParameter)
                  false = Except.error err) →
          (postCreate getBufferAccessUri vars subs committedRun).started = [])) := by
  have hpv : preValidate getCodespec ⟨logs, "", ""⟩ run
      = match codespec.Buffers with
        | none => (none, ⟨logs, "", ""⟩, (preValidate getCodespec ⟨logs, "", ""⟩ run).2.2)
        | some bp =>
          if 2 ≤ bp.Inputs.length then
            (some "exec cannot be called if the job has multiple input buffers", ⟨logs, "", ""⟩,
              (preValidate getCodespec ⟨logs, "", ""⟩ run).2.2)
          else if 2 ≤ bp.Outputs.length then
            (some "exec cannot be called if the job has multiple output buffers",
              ⟨logs, onlyName bp.Inputs, ""⟩, (preValidate getCodespec ⟨logs, "", ""⟩ run).2.2)
          else (none, ⟨logs, onlyName bp.Inputs, onlyName bp.Outputs⟩,
              (preValidate getCodespec ⟨logs, "", ""⟩ run).2.2) := by
    cases hb : codespec.Buffers with
    | none =>
      rcases hres with h | ⟨h, name, hn, hg⟩
      · simp [preValidate, h, hb]
      · simp [preValidate, h, hn, hg, hb]
    | some bp =>
      obtain ⟨inputs, outputs⟩ := bp
      rcases hres with h | ⟨h, name, hn, hg⟩
      · rcases inputs with _ | ⟨i, _ | ⟨i', is⟩⟩ <;> rcases outputs with _ | ⟨o, _ | ⟨o', os⟩⟩ <;>
          simp [preValidate, h, hb, onlyName]
      · rcases inputs with _ | ⟨i, _ | ⟨i', is⟩⟩ <;> rcases outputs with _ | ⟨o, _ | ⟨o', os⟩⟩ <;>
          simp [preValidate, h, hn, hg, hb, onlyName]
  refine ⟨?_, ?_, ?_, ?_⟩
  · rw [hpv]
    cases hb : codespec.Buffers with
    | none => simp
    | some bp =>
      by_cases hi : 2 ≤ bp.Inputs.length
      · simp only [hi, if_true]
        constructor
        · intro h; exact absurd h (by simp)
        · rintro (h | ⟨bp', h1, h2, _⟩)
          · exact absurd h (by simp)
          · simp only [Option.some.injEq] at h1
            subst h1
            omega
      · by_cases ho : 2 ≤ bp.Outputs.length
        · simp only [hi, ho, if_true, if_false]
          constructor
          · intro h; exact absurd h (by simp)
          · rintro (h | ⟨bp', h1, _, h3⟩)
            · exact absurd h (by simp)
            · simp only [Option.some.injEq] at h1
              subst h1
              omega
        · simp only [hi, ho, if_false, true_iff]
          exact Or.inr ⟨bp, rfl, by omega, by omega⟩
  · rw [hpv]
    cases hb : codespec.Buffers with
    | none => simp
    | some bp =>
      by_cases hi : 2 ≤ bp.Inputs.length
      · simp [hi]
      · by_cases ho : 2 ≤ bp.Outputs.length
        · simp [hi, ho]
        · simp [hi, ho]
  · intro g vars subs committedRun
    have hstarted : (postCreate g vars subs committedRun).started = []
        ∨ ∃ i o, accessUris g vars committedRun = Except.ok (i, o)
          ∧ (postCreate g vars subs committedRun).started = startedTasks i o vars.logs := by
      unfold postCreate
      cases hu : accessUris g vars committedRun with
      | error err => left; rfl
      | ok p =>
        obtain ⟨i, o⟩ := p
        right
        refine ⟨i, o, rfl, ?_⟩
        simp only
        cases (execWatch 0 0 0 subs).result <;> rfl
    rcases hstarted with h | ⟨i, o, hu, h⟩
    · simp [h]
    · rw [h]
      have hw : ∀ i o l, ((startedTasks i o l).filter Task.isWrite).length ≤ 1
          ∧ ((startedTasks i o l).filter Task.isRead).length ≤ 1 := by
        intro i o l
        by_cases h1 : i = "" <;> by_cases h2 : o = "" <;> cases l <;>
          simp [startedTasks, h1, h2, Task.isWrite, Task.isRead]
      refine ⟨(hw i o vars.logs).1, (hw i o vars.logs).2, ?_, ?_⟩
      · intro hin
        have hi : i = "" := by
          unfold accessUris at hu
          simp only [hin, ne_eq, not_true_eq_false, if_false] at hu
          split at hu
          · exact absurd hu (by simp)
          · simp only [Except.ok.injEq, Prod.mk.injEq] at hu
            exact hu.1.symm
        subst hi
        by_cases h2 : o = "" <;> cases vars.logs <;>
          simp [startedTasks, h2, Task.isWrite]
      · intro hout
        have ho : o = "" := by
          unfold accessUris at hu
          simp only [hout, ne_eq, not_true_eq_false, if_false] at hu
          split at hu
          · exact absurd hu (by simp)
          · simp only [Except.ok.injEq, Prod.mk.injEq] at hu
            exact hu.2.symm
        subst ho
        by_cases h1 : i = "" <;> cases vars.logs <;>
          simp [startedTasks, h1, Task.isRead]
  · intro g vars subs committedRun
    exact postCreate_started_exact g vars subs committedRun

/-- Witness of C15: an inline codespec with one input and one output; the two
parameters are kept and `postCreate` starts the write to the input buffer and
the read of the output buffer. -/
theorem preValidate_chooses_single_buffers_witness :
    (preValidate (fun _ => Except.error "unreachable") ⟨false, "", ""⟩
        ⟨⟨0, "", "", none⟩, ⟨⟨some ⟨some ⟨["in"], ["out"]⟩⟩, none⟩, []⟩⟩).1 = none
    ∧ (preValidate (fun _ => Except.error "unreachable") ⟨false, "", ""⟩
        ⟨⟨0, "", "", none⟩, ⟨⟨some ⟨some ⟨["in"], ["out"]⟩⟩, none⟩, []⟩⟩).2.1
        = ⟨false, "in", "out"⟩
    ∧ (postCreate exampleAccess ⟨false, "in", "out"⟩ []
        ⟨⟨7, "Pending", "", none⟩,
          ⟨⟨some ⟨some ⟨["in"], ["out"]⟩⟩, none⟩, [("in", "b1"), ("out", "b2")]⟩⟩).started
        = [Task.write "https://store/b1", Task.read "https://store/b2"] :=
  ⟨by decide,
   (preValidate_chooses_single_buffers (fun _ => Except.error "unreachable") false
    ⟨⟨0, "", "", none⟩, ⟨⟨some ⟨some ⟨["in"], ["out"]⟩⟩, none⟩, []⟩⟩ ⟨some ⟨["in"], ["out"]⟩⟩
    (Or.inl rfl)).2.1 (by decide),
   ((preValidate_chooses_single_buffers (fun _ => Except.error "unreachable") false
    ⟨⟨0, "", "", none⟩, ⟨⟨some ⟨some ⟨["in"], ["out"]⟩⟩, none⟩, []⟩⟩ ⟨some ⟨["in"], ["out"]⟩⟩
    (Or.inl rfl)).2.2.2 exampleAccess ⟨false, "in", "out"⟩ []
      ⟨⟨7, "Pending", "", none⟩,
        ⟨⟨some ⟨some ⟨["in"], ["out"]⟩⟩, none⟩, [("in", "b1"), ("out", "b2")]⟩⟩).1
      "https://store/b1" "https://store/b2" (fun _ => rfl) (fun _ => rfl)⟩

/-! ## Access strings -/

lemma GetUri_of_direct (fs : FileSystem) (parsesAbs : String → Bool) (s : String)
    (hdirect : fs.Stat s = none ∨ ∃ fi, fs.Stat s = some fi ∧ fi.IsDir = true) :
    GetUriFromAccessString fs parsesAbs s
      = if parsesAbs s = true then Except.ok s else Except.error invalidAccessString := by
  unfold GetUriFromAccessString
  rcases hdirect with h | ⟨fi, h, hd⟩
  · cases hp : parsesAbs s <;> simp [h, hp]
  · cases hp : parsesAbs s <;> simp [h, hd, hp]

/-- An access string that is not read as a file is used as it is. -/
lemma GetUri_of_unread (fs : FileSystem) (parsesAbs : String → Bool) (s : String)
    (hdirect : fs.Stat s = none
      ∨ ∃ fi, fs.Stat s = some fi ∧ (fi.IsDir = true ∨ 2048 ≤ fi.Size)) :
    GetUriFromAccessString fs parsesAbs s
      = if parsesAbs s = true then Except.ok s else Except.error invalidAccessString := by
  rcases hdirect with h | ⟨fi, h, hd | hsz⟩
  · exact GetUri_of_direct fs parsesAbs s (Or.inl h)
  · exact GetUri_of_direct fs parsesAbs s (Or.inr ⟨fi, h, hd⟩)
  · have hs : ¬ fi.Size < 2 * 1024 := by omega
    unfold GetUriFromAccessString
    cases hdir : fi.IsDir <;> cases hp : parsesAbs s <;> simp [h, hdir, hs, hp]

/-- C16 (counterexample): the access string `/dev/fd/63` names a pipe: `os.Stat`
succeeds, what it names is neither a directory nor a regular file, its size is
0. The string does not parse as an absolute URI, so the claim asks for the
invalid-access-string error; but the code tests `IsDir()` alone, reads the pipe
like a file and returns its contents, trimmed. -/
theorem GetUri_reads_pipe :
    (⟨false, 0, false⟩ : FileInfo).IsRegular = false
    ∧ exampleParsesAbs "/dev/fd/63" = false
    ∧ GetUriFromAccessString
        ⟨fun _ => some ⟨false, 0, false⟩, fun _ => Except.ok "https://store/b\n"⟩
        exampleParsesAbs "/dev/fd/63"
      = Except.ok "https://store/b"
    ∧ (Except.ok "https://store/b" : Except String String)
      ≠ Except.error invalidAccessString := by
  refine ⟨rfl, by decide, ?_, by simp⟩
  have h : TrimRight "https://store/b\n" [' ', '\r', '\n'] = "https://store/b" := by decide
  have hp : exampleParsesAbs "https://store/b" = true := by decide
  simp [GetUriFromAccessString, h, hp]

/-- C16 (amended): for an access string that is not read as a file (`os.Stat`
fails, or it names a directory, or it names a file of 2048 bytes or more) the
result is the string itself, with no error, exactly when it parses as an
absolute URI; otherwise it is the invalid-access-string error. Whatever the
access string, a successful result parses as an absolute URI. Any other
existing path, a regular file or not, is read as a file: when the read
succeeds, the result is the contents trimmed at the end if that parses as an
absolute URI, and the invalid-access-string error otherwise. -/
theorem GetUri_direct_string (fs : FileSystem) (parsesAbs : String → Bool) (s : String)
    (hdirect : fs.Stat s = none
      ∨ ∃ fi, fs.Stat s = some fi ∧ (fi.IsDir = true ∨ 2048 ≤ fi.Size)) :
    (GetUriFromAccessString fs parsesAbs s = Except.ok s ↔ parsesAbs s = true)
    ∧ (parsesAbs s = false →
        GetUriFromAccessString fs parsesAbs s = Except.error invalidAccessString)
    ∧ (∀ (accessString result : String),
        GetUriFromAccessString fs parsesAbs accessString = Except.ok result →
        parsesAbs result = true)
    ∧ (∀ (path contents : String) (fi : FileInfo),
        fs.Stat path = some fi → fi.IsDir = false → fi.Size < 2048 →
        fs.ReadFile path = Except.ok contents →
        GetUriFromAccessString fs parsesAbs path
          = if parsesAbs (TrimRight contents [' ', '\r', '\n']) = true
              then Except.ok (TrimRight contents [' ', '\r', '\n'])
              else Except.error invalidAccessString) := by
  refine ⟨?_, ?_, ?_, ?_⟩
  · rw [GetUri_of_unread fs parsesAbs s hdirect]
    cases hp : parsesAbs s <;> simp
  · intro hp
    rw [GetUri_of_unread fs parsesAbs s hdirect]
    simp [hp]
  · intro accessString result h
    unfold GetUriFromAccessString at h
    simp only at h
    split at h
    · exact absurd h (by simp)
    · rename_i r hr
      by_cases hp : parsesAbs r = true
      · simp only [hp, not_true_eq_false, if_false, Except.ok.injEq] at h
        rw [← h]
        exact hp
      · simp [hp] at h
  · intro path contents fi hst hdir hsz hrd
    have hs : fi.Size < 2 * 1024 := by omega
    cases hp : parsesAbs (TrimRight contents [' ', '\r', '\n']) <;>
      simp [GetUriFromAccessString, hst, hdir, hs, hrd, hp]

/-- Witness of C16: a URI given directly, where no file has that name. -/
theorem GetUri_direct_string_witness :
    GetUriFromAccessString exampleFs exampleParsesAbs "https://store/b"
        = Except.ok "https://store/b"
      ↔ exampleParsesAbs "https://store/b" = true :=
  (GetUri_direct_string exampleFs exampleParsesAbs "https://store/b" (Or.inl (by decide))).1

/-- C17 (counterexample): the file `uri.txt` holds a URI with a space before
it and a newline after it. With the surrounding whitespace trimmed its contents
is the absolute URI `https://store/b`, but only the end is trimmed: the string
parsed starts with a space and the result is the invalid-access-string
error. -/
theorem GetUri_keeps_leading_space :
    TrimRight " https://store/b\n" [' ', '\r', '\n'] = " https://store/b"
    ∧ exampleParsesAbs "https://store/b" = true
    ∧ exampleParsesAbs " https://store/b" = false
    ∧ GetUriFromAccessString exampleFs exampleParsesAbs "uri.txt"
        = Except.error invalidAccessString := by
  refine ⟨by decide, by decide, by decide, ?_⟩
  have h : TrimRight " https://store/b\n" [' ', '\r', '\n'] = " https://store/b" := by decide
  have hp : exampleParsesAbs " https://store/b" = false := by decide
  simp [GetUriFromAccessString, exampleFs, h, hp]

/-- C17 (amended): for the path of an existing file that is not a directory,
smaller than 2048 bytes, whose contents, with the spaces, carriage returns and
newlines at its end trimmed, parses as an absolute URI `u`, the result is `u`
with no error. -/
theorem GetUri_from_file (fs : FileSystem) (parsesAbs : String → Bool) (path contents : String)
    (size : Nat) (regular : Bool) (hstat : fs.Stat path = some ⟨false, size, regular⟩)
    (hsize : size < 2048)
    (hread : fs.ReadFile path = Except.ok contents)
    (habs : parsesAbs (TrimRight contents [' ', '\r', '\n']) = true) :
    GetUriFromAccessString fs parsesAbs path
      = Except.ok (TrimRight contents [' ', '\r', '\n']) := by
  have hs : size < 2 * 1024 := by omega
  simp [GetUriFromAccessString, hstat, hs, hread, habs]

/-- Witness of C17 (amended): the file holds the URI followed by a space, a
carriage return and a newline. -/
theorem GetUri_from_file_witness :
    GetUriFromAccessString
        ⟨fun _ => some ⟨false, 18, true⟩, fun _ => Except.ok "https://store/b \r\n"⟩
        exampleParsesAbs "uri.txt"
      = Except.ok (TrimRight "https://store/b \r\n" [' ', '\r', '\n']) :=
  GetUri_from_file
    ⟨fun _ => some ⟨false, 18, true⟩, fun _ => Except.ok "https://store/b \r\n"⟩
    exampleParsesAbs "uri.txt" "https://store/b \r\n" 18 true rfl (by decide) rfl (by decide)

/-- C18: the errors of `GetUriFromAccessString` do not depend on the URI text.
Two file systems that agree on `os.Stat` and in which the file can be read,
with any two contents: when both resolutions fail, the errors are the same.
And for two access strings that name no file: when both fail, the errors are
the same fixed message, which is not built from the access string. When the
file cannot be read, the error is built from the path and the error of the
read alone. -/
theorem GetUri_errors_independent_of_uri (parsesAbs : String → Bool)
    (stat : String → Option FileInfo) (read read' : String → Except String String)
    (path contents contents' : String) (err err' : String)
    (hread : read path = Except.ok contents) (hread' : read' path = Except.ok contents')
    (herr : GetUriFromAccessString ⟨stat, read⟩ parsesAbs path = Except.error err)
    (herr' : GetUriFromAccessString ⟨stat, read'⟩ parsesAbs path = Except.error err') :
    err = err'
    ∧ err = invalidAccessString
    ∧ (∀ (fs : FileSystem) (s s' e e' : String),
        (fs.Stat s = none ∨ ∃ fi, fs.Stat s = some fi ∧ fi.IsDir = true) →
        (fs.Stat s' = none ∨ ∃ fi, fs.Stat s' = some fi ∧ fi.IsDir = true) →
        GetUriFromAccessString fs parsesAbs s = Except.error e →
        GetUriFromAccessString fs parsesAbs s' = Except.error e' →
        e = e' ∧ e = invalidAccessString)
    ∧ (∀ (rd rd' : String → Except String String) (readErr : String),
        rd path = Except.error readErr → rd' path = Except.error readErr →
        GetUriFromAccessString ⟨stat, rd⟩ parsesAbs path
          = GetUriFromAccessString ⟨stat, rd'⟩ parsesAbs path) := by
  have hfile : ∀ (rd : String → Except String String) (c e : String),
      rd path = Except.ok c →
      GetUriFromAccessString ⟨stat, rd⟩ parsesAbs path = Except.error e →
      e = invalidAccessString := by
    intro rd c e hrd he
    unfold GetUriFromAccessString at he
    simp only [hrd] at he
    split at he
    · rename_i e0 heq
      split at heq
      · split at heq
        · split at heq
          · exact absurd heq (by simp)
          · exact absurd heq (by simp)
        · exact absurd heq (by simp)
      · exact absurd heq (by simp)
    · rename_i r hr
      by_cases hp : parsesAbs r = true
      · simp [hp] at he
      · have hp' : parsesAbs r = false := by simpa using hp
        rw [hp'] at he
        simp only [Bool.false_eq_true, not_false_eq_true, if_true, Except.error.injEq] at he
        exact he.symm
  have h1 := hfile read contents err hread herr
  have h2 := hfile read' contents' err' hread' herr'
  refine ⟨h1.trans h2.symm, h1, ?_, ?_⟩
  swap
  · intro rd rd' readErr hrd hrd'
    simp only [GetUriFromAccessString, hrd, hrd']
  intro fs s s' e e' hd hd' he he'
  rw [GetUri_of_direct fs parsesAbs s hd] at he
  rw [GetUri_of_direct fs parsesAbs s' hd'] at he'
  have hinv : ∀ (t x : String),
      (if parsesAbs t = true then Except.ok t else Except.error invalidAccessString)
        = (Except.error x : Except String String) → x = invalidAccessString := by
    intro t x hx
    by_cases hp : parsesAbs t = true
    · simp [hp] at hx
    · have hp' : parsesAbs t = false := by simpa using hp
      rw [hp'] at hx
      simp only [Bool.false_eq_true, if_false, Except.error.injEq] at hx
      exact hx.symm
  exact ⟨(hinv s e he).trans (hinv s' e' he').symm, hinv s e he⟩

/-- Witness of C18: the file `uri.txt` with two contents that are not URIs:
both resolutions fail, with the same error. -/
theorem GetUri_errors_independent_of_uri_witness :
    GetUriFromAccessString ⟨fun _ => some ⟨false, 6, true⟩, fun _ => Except.ok "secret"⟩
        exampleParsesAbs "uri.txt" = Except.error invalidAccessString
    ∧ GetUriFromAccessString ⟨fun _ => some ⟨false, 6, true⟩, fun _ => Except.ok "hidden"⟩
        exampleParsesAbs "uri.txt" = Except.error invalidAccessString
    ∧ invalidAccessString = invalidAccessString :=
  have h1 : GetUriFromAccessString ⟨fun _ => some ⟨false, 6, true⟩, fun _ => Except.ok "secret"⟩
      exampleParsesAbs "uri.txt" = Except.error invalidAccessString := by
    simp [GetUriFromAccessString, TrimRight, exampleParsesAbs]
  have h2 : GetUriFromAccessString ⟨fun _ => some ⟨false, 6, true⟩, fun _ => Except.ok "hidden"⟩
      exampleParsesAbs "uri.txt" = Except.error invalidAccessString := by
    simp [GetUriFromAccessString, TrimRight, exampleParsesAbs]
  ⟨h1, h2, (GetUri_errors_independent_of_uri exampleParsesAbs (fun _ => some ⟨false, 6, true⟩)
      (fun _ => Except.ok "secret") (fun _ => Except.ok "hidden") "uri.txt" "secret" "hidden"
      invalidAccessString invalidAccessString rfl rfl h1 h2).1⟩

/-! ## watchRun on a stream of snapshots -/

/-- Lines that decode are read one by one and their events sent; the loop of
`watchRun` goes on with what follows them. -/
lemma watchRunLoop_lines_then (unmarshal : List Byte → Except String Run) :
    ∀ (good : List (List Byte × Run)) (tail : List Byte) (b : Reader)
      (sent : List RunMetadata) (n : Nat),
      b.Inv →
      b.rest = good.flatMap (fun g => g.1 ++ [LF]) ++ tail →
      b.rest.length < n →
      (∀ g ∈ good, LF ∉ g.1 ∧ unmarshal (g.1 ++ [LF]) = Except.ok g.2) →
      ∃ b' n', b'.Inv ∧ b'.wire = b.wire ∧ b'.rest = tail ∧ tail.length < n'
        ∧ watchRunLoop unmarshal n b sent
          = watchRunLoop unmarshal n' b' (sent ++ good.map (fun g => g.2.RunMetadata)) := by
  intro good
  induction good with
  | nil =>
    intro tail b sent n hb hrest hn _
    simp only [List.flatMap_nil, List.nil_append] at hrest
    exact ⟨b, n, hb, rfl, hrest, by rw [← hrest]; exact hn, by simp⟩
  | cons g gs ih =>
    intro tail b sent n hb hrest hn hgood
    obtain ⟨hg1, hg2⟩ := hgood g (List.mem_cons_self _ _)
    cases n with
    | zero => exact absurd hn (by simp)
    | succ m =>
      obtain ⟨b1, h1, hinv1, hwire1, hrest1⟩ := b.ReadString_spec LF hb
      have hrest' : b.rest = g.1 ++ LF :: (gs.flatMap (fun g => g.1 ++ [LF]) ++ tail) := by
        rw [hrest]
        simp [List.flatMap_cons]
      have hrs : b.wire.readString LF b.rest
          = (g.1 ++ [LF], none, gs.flatMap (fun g => g.1 ++ [LF]) ++ tail) := by
        simp only [Wire.readString, hrest', cutAfter_at_delim _ hg1]
      rw [hrs] at h1 hrest1
      simp only at hrest1
      have hfuel : b1.rest.length < m := by
        rw [hrest1]
        rw [hrest'] at hn
        simp only [List.length_append, List.length_cons] at hn ⊢
        omega
      obtain ⟨b2, n2, hinv2, hwire2, hrest2, hn2, heq⟩ := ih tail b1
        (sent ++ [g.2.RunMetadata]) m hinv1 hrest1 hfuel
        (fun g' h' => hgood g' (List.mem_cons_of_mem _ h'))
      refine ⟨b2, n2, hinv2, hwire2.trans hwire1, hrest2, hn2, ?_⟩
      rw [watchRunLoop, h1]
      simp only [hg2]
      rw [heq]
      simp

/-- C19: for a 200 response whose body is made of newline-terminated lines,
each of which decodes to a run, followed by the end of the stream, `watchRun`
sends one event per line, the metadata decoded from it, in the order of the
lines, and then closes the event channel: no error is sent and the goroutine
does not panic. -/
theorem watchRun_one_event_per_line (unmarshal : List Byte → Except String Run)
    (good : List (List Byte × Run)) (frags : List (List Byte)) (errWithLast : Bool)
    (hgood : ∀ g ∈ good, LF ∉ g.1 ∧ unmarshal (g.1 ++ [LF]) = Except.ok g.2)
    (hne : ∀ f ∈ frags, f ≠ [])
    (hdata : frags.flatten = good.flatMap (fun g => g.1 ++ [LF])) :
    watchRun unmarshal ⟨some ⟨200, ⟨frags, IOErr.eof, errWithLast⟩⟩, none⟩
      = some ⟨good.map (fun g => g.2.RunMetadata), WatchStop.closed⟩
    ∧ (good.map (fun g => g.2.RunMetadata)).length = good.length := by
  have hinv := NewReaderSize_inv ⟨frags, IOErr.eof, errWithLast⟩ defaultBufSize (by decide) hne
  have hrest : (NewReaderSize ⟨frags, IOErr.eof, errWithLast⟩ defaultBufSize).rest
      = good.flatMap (fun g => g.1 ++ [LF]) ++ [] := by
    simp [NewReaderSize, Reader.rest, Source.data, hdata]
  have hlen : (NewReaderSize ⟨frags, IOErr.eof, errWithLast⟩ defaultBufSize).rest.length
      < (Source.data ⟨frags, IOErr.eof, errWithLast⟩).length + 1 := by
    simp [NewReaderSize, Reader.rest]
  obtain ⟨b', n', hinv', hwire', hrest', hn', heq⟩ := watchRunLoop_lines_then unmarshal good []
    _ [] _ hinv hrest hlen hgood
  refine ⟨?_, by simp⟩
  have hw : watchRun unmarshal ⟨some ⟨200, ⟨frags, IOErr.eof, errWithLast⟩⟩, none⟩
      = watchRunLoop unmarshal ((Source.data ⟨frags, IOErr.eof, errWithLast⟩).length + 1)
          (NewReaderSize ⟨frags, IOErr.eof, errWithLast⟩ defaultBufSize) [] := by
    simp [watchRun, NewReader]
  rw [hw, heq]
  cases n' with
  | zero => exact absurd hn' (by simp)
  | succ m =>
    obtain ⟨b1, h1, _, _, _⟩ := b'.ReadString_spec LF hinv'
    have hfinal : b'.wire.final = IOErr.eof := by
      rw [hwire']
      rfl
    have hrs : b'.wire.readString LF b'.rest = ([], some IOErr.eof, []) := by
      simp only [Wire.readString, hrest', cutAfter, hfinal]
    rw [hrs] at h1
    rw [watchRunLoop, h1]
    simp

/-- Witness of C19: two snapshots, "Running" then "Succeeded". -/
theorem watchRun_one_event_per_line_witness :
    watchRun exampleUnmarshal ⟨some ⟨200,
        ⟨[ascii "\x7b\"status\":\"Running\"\x7d\n\x7b\"status\":\"Succeeded\"\x7d\n"],
          IOErr.eof, false⟩⟩, none⟩
      = some ⟨[⟨7, "Running", "", none⟩, ⟨7, "Succeeded", "", none⟩], WatchStop.closed⟩ :=
  (watchRun_one_event_per_line exampleUnmarshal
    [(ascii "\x7b\"status\":\"Running\"\x7d", ⟨⟨7, "Running", "", none⟩, ⟨⟨none, some "c"⟩, []⟩⟩),
     (ascii "\x7b\"status\":\"Succeeded\"\x7d",
      ⟨⟨7, "Succeeded", "", none⟩, ⟨⟨none, some "c"⟩, []⟩⟩)]
    [ascii "\x7b\"status\":\"Running\"\x7d\n\x7b\"status\":\"Succeeded\"\x7d\n"] false
    (fun g hg => by
      simp only [List.mem_cons, List.mem_singleton, List.not_mem_nil, or_false] at hg
      rcases hg with hg | hg <;> subst hg <;> exact ⟨by decide, rfl⟩)
    (by decide) (by decide)).1

/-! ## The access token in verbose mode -/

/-- C20: in verbose mode, with a token that is not empty, the request dumped on
stderr carries the header `Authorization: Bearer --REDACTED--` and nothing of
the token, so the lines printed are the same for any two such tokens; the
request sent afterwards carries one `Authorization` header, `Bearer <token>`,
in place of the placeholder. -/
theorem InvokeRequest_redacts_token (serverUri : String) (body : Option (List Byte))
    (DumpRequestOut : HttpRequest → Except String String) (method relativeUri : String)
    (token token' : String) (htoken : token ≠ "") (htoken' : token' ≠ "") :
    InvokeRequest serverUri true (Except.ok token) (body.map Except.ok) none DumpRequestOut
        method relativeUri true
      = Except.ok
          ⟨match DumpRequestOut ⟨method, serverUri ++ "/" ++ relativeUri,
              [("Content-Type", ["application/json"]),
               ("Authorization", ["Bearer --REDACTED--"])], body⟩ with
            | Except.ok debugOutput => ["====REQUEST=====", debugOutput, "==END REQUEST===", ""]
            | Except.error _ => [],
           ⟨method, serverUri ++ "/" ++ relativeUri,
              [("Content-Type", ["application/json"]), ("Authorization", ["Bearer " ++ token])],
              body⟩⟩
    ∧ (∀ inv inv',
        InvokeRequest serverUri true (Except.ok token) (body.map Except.ok) none DumpRequestOut
          method relativeUri true = Except.ok inv →
        InvokeRequest serverUri true (Except.ok token') (body.map Except.ok) none DumpRequestOut
          method relativeUri true = Except.ok inv' →
        inv.stderr = inv'.stderr
        ∧ inv.req.Header.Values "Authorization" = ["Bearer " ++ token]
        ∧ inv'.req.Header.Values "Authorization" = ["Bearer " ++ token']) := by
  have hform : ∀ t : String, t ≠ "" →
      InvokeRequest serverUri true (Except.ok t) (body.map Except.ok) none DumpRequestOut
        method relativeUri true
      = Except.ok
          ⟨match DumpRequestOut ⟨method, serverUri ++ "/" ++ relativeUri,
              [("Content-Type", ["application/json"]),
               ("Authorization", ["Bearer --REDACTED--"])], body⟩ with
            | Except.ok debugOutput => ["====REQUEST=====", debugOutput, "==END REQUEST===", ""]
            | Except.error _ => [],
           ⟨method, serverUri ++ "/" ++ relativeUri,
              [("Content-Type", ["application/json"]), ("Authorization", ["Bearer " ++ t])],
              body⟩⟩ := by
    intro t ht
    cases body with
    | none =>
      simp only [InvokeRequest, Header.Set, Header.Add, ne_eq, ht, not_false_eq_true, if_true,
        not_true_eq_false, if_false, Option.map_none']
      cases hd : DumpRequestOut ⟨method, serverUri ++ "/" ++ relativeUri,
        [("Content-Type", ["application/json"]), ("Authorization", ["Bearer --REDACTED--"])],
        none⟩ <;> simp [hd]
    | some bytes =>
      simp only [InvokeRequest, Header.Set, Header.Add, ne_eq, ht, not_false_eq_true, if_true,
        not_true_eq_false, if_false, Option.map_some']
      cases hd : DumpRequestOut ⟨method, serverUri ++ "/" ++ relativeUri,
        [("Content-Type", ["application/json"]), ("Authorization", ["Bearer --REDACTED--"])],
        some bytes⟩ <;> simp [hd]
  refine ⟨hform token htoken, ?_⟩
  intro inv inv' h h'
  rw [hform token htoken] at h
  rw [hform token' htoken'] at h'
  simp only [Except.ok.injEq] at h h'
  subst h h'
  exact ⟨rfl, rfl, rfl⟩

/-- Witness of C20: the tokens `abc` and `xyz`. -/
theorem InvokeRequest_redacts_token_witness :
    InvokeRequest "https://tyger" true (Except.ok "abc") (none.map Except.ok) none
        (fun _ => Except.ok "dump") "GET" "v1/runs" true
      = Except.ok
          ⟨match (fun _ => (Except.ok "dump" : Except String String))
              (⟨"GET", "https://tyger" ++ "/" ++ "v1/runs",
                [("Content-Type", ["application/json"]),
                 ("Authorization", ["Bearer --REDACTED--"])], none⟩ : HttpRequest) with
            | Except.ok debugOutput => ["====REQUEST=====", debugOutput, "==END REQUEST===", ""]
            | Except.error _ => [],
           ⟨"GET", "https://tyger" ++ "/" ++ "v1/runs",
              [("Content-Type", ["application/json"]), ("Authorization", ["Bearer " ++ "abc"])],
              none⟩⟩ :=
  (InvokeRequest_redacts_token "https://tyger" none (fun _ => Except.ok "dump") "GET" "v1/runs"
    "abc" "xyz" (by decide) (by decide)).1

/-! ## The exec watch loop: a stream that ends before a terminal event -/

/-- C24: when the current subscription delivers only "Pending"/"Running"
events, or no event at all, and then the event channel is closed, the watch
loop jumps to `end`: `postCreate` waits for the tasks it started and returns
nil, as for a succeeded run, and `watchRun` is not called again, whatever
later subscriptions would deliver. -/
theorem exec_closed_stream_returns_nil
    (getBufferAccessUri : String → Bool → Except String String) (vars : ExecVars) (run : Run)
    (inputSasUri outputSasUri : String) (c calls n : Nat)
    (evs : List RunMetadata) (rest : List Subscription)
    (huris : accessUris getBufferAccessUri vars run = Except.ok (inputSasUri, outputSasUri))
    (hq : ∀ e ∈ evs, keepsWatching e) :
    execWatch c calls n (⟨evs, WatchStop.closed⟩ :: rest)
        = ⟨ExecResult.returnedNil, calls + 1, n + evs.length⟩
    ∧ postCreate getBufferAccessUri vars (⟨evs, WatchStop.closed⟩ :: rest) run
        = ⟨ExecResult.returnedNil, startedTasks inputSasUri outputSasUri vars.logs,
            startedTasks inputSasUri outputSasUri vars.logs, 1, evs.length⟩ := by
  have hw : ∀ c calls n, execWatch c calls n (⟨evs, WatchStop.closed⟩ :: rest)
      = ⟨ExecResult.returnedNil, calls + 1, n + evs.length⟩ := by
    intro c calls n
    have h := execFor_keepsWatching evs c n [] WatchStop.closed hq
    rw [List.append_nil] at h
    simp [execWatch, h, execFor, execSelect]
  refine ⟨hw c calls n, ?_⟩
  simp [postCreate, huris, hw]

/-- Witness of C24: a "Pending" and a "Running" event, then the channel is
closed while the log task is running. -/
theorem exec_closed_stream_returns_nil_witness :
    postCreate exampleAccess ⟨true, "", ""⟩
        [⟨[⟨7, "Pending", "", none⟩, ⟨7, "Running", "", none⟩], WatchStop.closed⟩,
         ⟨[⟨7, "Failed", "", none⟩], WatchStop.closed⟩] exampleRun
      = ⟨ExecResult.returnedNil, [Task.logs], [Task.logs], 1, 2⟩ :=
  (exec_closed_stream_returns_nil exampleAccess ⟨true, "", ""⟩ exampleRun "" "" 0 0 0
    [⟨7, "Pending", "", none⟩, ⟨7, "Running", "", none⟩] [⟨[⟨7, "Failed", "", none⟩],
      WatchStop.closed⟩] rfl (by decide)).2

/-! ## followLogs and an incomplete timestamp -/

lemma cutAfter_some_getLast {d : Byte} {xs l r : List Byte} (h : cutAfter d xs = some (l, r)) :
    l.getLast? = some d := by
  induction xs generalizing l r with
  | nil => simp [cutAfter] at h
  | cons x xs ih =>
    by_cases hx : x = d
    · rw [cutAfter_cons_eq xs hx] at h
      simp only [Option.some.injEq, Prod.mk.injEq] at h
      rw [← h.1, hx]
      rfl
    · rw [cutAfter_cons_ne xs hx] at h
      cases hc : cutAfter d xs with
      | none => simp [hc] at h
      | some p =>
        obtain ⟨l', r'⟩ := p
        simp only [hc, Option.map_some', Option.some.injEq, Prod.mk.injEq] at h
        have hl := ih hc
        have hne : l' ≠ [] := by
          intro h0
          rw [h0] at hl
          simp at hl
        rw [← h.1]
        cases l' with
        | nil => exact absurd rfl hne
        | cons y ys => simpa [List.getLast?_cons_cons] using hl

/-- The cursor of the loop on the unsplit stream is empty or ends with the
space that ended a timestamp, if it was so at the start. -/
lemma Wire.followLoop_cursor (w : Wire) (includeTimestamps : Bool) :
    ∀ (n : Nat) (rest : List Byte) (atStart : Bool) (last sink : List Byte) (r : FollowResult),
      (last = [] ∨ last.getLast? = some SP) →
      w.followLoop includeTimestamps n rest atStart last sink = some r →
      r.lastTimestamp = [] ∨ r.lastTimestamp.getLast? = some SP := by
  intro n
  induction n with
  | zero => intro _ _ _ _ r _ h; simp [Wire.followLoop] at h
  | succ n ih =>
    intro rest atStart last sink r hlast h
    have hline : ∀ (rest1 last1 sink1 : List Byte),
        (last1 = [] ∨ last1.getLast? = some SP) →
        (match w.readLine rest1 with
          | (_, _, some err, _) => some (⟨sink1, last1, err⟩ : FollowResult)
          | (line, isPrefix, none, rest') =>
            w.followLoop includeTimestamps n rest' (!isPrefix) last1
              (if isPrefix then sink1 ++ line else sink1 ++ line ++ [LF])) = some r →
        r.lastTimestamp = [] ∨ r.lastTimestamp.getLast? = some SP := by
      intro rest1 last1 sink1 hl1 hm
      rcases hrl : w.readLine rest1 with ⟨line, isPrefix, e, rest2⟩
      rw [hrl] at hm
      cases e with
      | some err =>
        simp only [Option.some.injEq] at hm
        rw [← hm]
        exact hl1
      | none => exact ih _ _ _ _ r hl1 hm
    rw [Wire.followLoop] at h
    cases atStart with
    | true =>
      simp only [if_true] at h
      unfold Wire.readString at h
      cases hc : cutAfter SP rest with
      | none =>
        simp only [hc, Option.some.injEq] at h
        rw [← h]
        exact hlast
      | some p =>
        obtain ⟨tok, rest1⟩ := p
        simp only [hc] at h
        exact hline rest1 tok _ (Or.inr (cutAfter_some_getLast hc)) h
    | false =>
      simp only [Bool.false_eq_true, if_false] at h
      exact hline rest last sink hlast h

/-- C25: if the body ends or fails while the timestamp of a line is being read,
after the complete lines `lines` (the bytes `partial` hold no space), nothing
of these bytes is written and the cursor returned is the one of the last
complete line, empty if there is none. And for every body, the cursor returned
is empty or ends with the space up to which a timestamp was read. -/
theorem followLogs_ignores_partial_timestamp (lines : List LogLine) (partialToken : List Byte)
    (frags : List (List Byte)) (final : IOErr) (errWithLast includeTimestamps : Bool)
    (sink : List Byte)
    (hwf : ∀ l ∈ lines, l.wellFormed) (hpart : SP ∉ partialToken)
    (hne : ∀ f ∈ frags, f ≠ [])
    (hdata : frags.flatten = lines.flatMap LogLine.bytes ++ partialToken) :
    followLogs ⟨frags, final, errWithLast⟩ includeTimestamps sink
        = some ⟨sink ++ lines.flatMap (fun l =>
              (if includeTimestamps then l.timestamp ++ [SP] else [])
                ++ stripCR l.payload ++ [LF]),
            lastCursor [] lines, final⟩
    ∧ (∀ (body : Source) (r : FollowResult), (∀ f ∈ body.frags, f ≠ []) →
        followLogs body includeTimestamps sink = some r →
        r.lastTimestamp = [] ∨ r.lastTimestamp.getLast? = some SP) := by
  constructor
  · have h := (followLogsSize_eq_wire defaultBufSize (by decide)
      ⟨frags, final, errWithLast⟩ hne includeTimestamps sink).1
    simp only [Source.data, hdata] at h
    obtain ⟨n1, hn1, hstep⟩ := Wire.followLoop_lines_then ⟨defaultBufSize, final, errWithLast⟩
      (show 2 ≤ defaultBufSize by decide) includeTimestamps lines hwf partialToken [] sink
      ((lines.flatMap LogLine.bytes ++ partialToken).length + 1) (Nat.lt_succ_self _)
    cases n1 with
    | zero => exact absurd hn1 (by simp)
    | succ m =>
      unfold followLogs
      rw [h, hstep, Wire.followLoop]
      simp [Wire.readString, cutAfter_eq_none_iff.mpr hpart]
  · intro body r hb hr
    have h := (followLogsSize_eq_wire defaultBufSize (by decide) body hb includeTimestamps sink).1
    unfold followLogs at hr
    rw [h] at hr
    exact Wire.followLoop_cursor _ includeTimestamps _ _ _ _ _ r (Or.inl rfl) hr

/-- Witness of C25: one complete line, then `t2` without its space and a
connection reset. -/
theorem followLogs_ignores_partial_timestamp_witness :
    followLogs ⟨[ascii "t1 a\nt2"], IOErr.failed "reset", false⟩ true []
      = some ⟨[] ++ [(⟨ascii "t1", ascii "a"⟩ : LogLine)].flatMap (fun l =>
            (if true = true then l.timestamp ++ [SP] else []) ++ stripCR l.payload ++ [LF]),
          lastCursor [] [⟨ascii "t1", ascii "a"⟩], IOErr.failed "reset"⟩ :=
  (followLogs_ignores_partial_timestamp [⟨ascii "t1", ascii "a"⟩] (ascii "t2")
    [ascii "t1 a\nt2"] (IOErr.failed "reset") false true [] (by decide) (by decide) (by decide)
    (by decide)).1

/-! ## Buffer transfer: blocks, the store and the two loops -/

lemma partitionBlocks_flatten (blockSize : Nat) (hb : 0 < blockSize) :
    ∀ (n : Nat) (source : List Byte), source.length ≤ n →
      (partitionBlocks blockSize n source).flatten = source := by
  intro n
  induction n with
  | zero =>
    intro source h
    have h0 : source = [] := List.length_eq_zero.mp (Nat.le_zero.mp h)
    simp [partitionBlocks, h0]
  | succ n ih =>
    intro source h
    by_cases hs : source = []
    · simp [partitionBlocks, hs]
    · have hlen : 0 < source.length := List.length_pos.mpr hs
      have hd : (source.drop blockSize).length ≤ n := by
        rw [List.length_drop]
        omega
      simp [partitionBlocks, hs, ih _ hd]

lemma partitionBlocks_ne_nil (blockSize : Nat) (hb : 0 < blockSize) :
    ∀ (n : Nat) (source : List Byte), ∀ b ∈ partitionBlocks blockSize n source, b ≠ [] := by
  intro n
  induction n with
  | zero => intro source b h; simp [partitionBlocks] at h
  | succ n ih =>
    intro source b h
    by_cases hs : source = []
    · simp [partitionBlocks, hs] at h
    · simp only [partitionBlocks, hs, if_false, List.mem_cons] at h
      rcases h with h | h
      · rw [h]
        cases source with
        | nil => exact absurd rfl hs
        | cons x xs =>
          obtain ⟨k, hk⟩ := Nat.exists_eq_succ_of_ne_zero (Nat.pos_iff_ne_zero.mp hb)
          rw [hk]
          simp
      · exact ih _ b h

/-- Looking a key up in a store whose values are a function of the keys. -/
lemma lookup_of_values (f : Nat → List Byte) :
    ∀ (store : BlockStore), (∀ p ∈ store, p.2 = f p.1) →
      ∀ i, store.lookup i = if i ∈ store.map Prod.fst then some (f i) else none := by
  intro store
  induction store with
  | nil => intro _ i; simp
  | cons p t ih =>
    intro h i
    obtain ⟨k, v⟩ := p
    have hv : v = f k := h (k, v) (List.mem_cons_self _ _)
    have ht := ih (fun q hq => h q (List.mem_cons_of_mem _ hq)) i
    by_cases hik : i = k
    · subst hik
      simp [List.lookup, hv]
    · have hb : (i == k) = false := by simpa using hik
      simp only [List.lookup, hb, ht, List.map_cons, List.mem_cons, hik, false_or]

lemma completes_mem {pick : Nat} {l : List Nat} {i : Nat} (h : completes pick l = some i) :
    i ∈ l := by
  unfold completes at h
  exact List.mem_iff_getElem?.mpr ⟨_, h⟩

lemma completes_eq_none {pick : Nat} {l : List Nat} (h : completes pick l = none) : l = [] := by
  unfold completes at h
  rw [List.getElem?_eq_none_iff] at h
  by_contra hne
  have hpos : 0 < l.length := List.length_pos.mpr hne
  have := Nat.mod_lt pick hpos
  omega

/-- What `writeLoop` leaves in the store: every index below the number of
blocks and no other, each with its block. -/
lemma writeLoop_spec (dop : Nat) (hd : 0 < dop) (blocks : List (List Byte)) :
    ∀ (fuel : Nat) (picks : List Nat) (next : Nat) (inflight : List Nat) (store : BlockStore),
      next ≤ blocks.length →
      (inflight ++ store.map Prod.fst).Perm (List.range next) →
      (∀ p ∈ store, p.2 = blocks.getD p.1 []) →
      blocks.length ≤ fuel + store.length →
      ((writeLoop dop blocks fuel picks next inflight store).map Prod.fst).Perm
          (List.range blocks.length)
        ∧ (∀ p ∈ writeLoop dop blocks fuel picks next inflight store,
            p.2 = blocks.getD p.1 []) := by
  intro fuel
  induction fuel with
  | zero =>
    intro picks next inflight store hn hperm hval hfuel
    have hlen := hperm.length_eq
    simp only [List.length_append, List.length_map, List.length_range] at hlen
    have hin : inflight = [] := List.length_eq_zero.mp (by omega)
    have hnext : next = blocks.length := by omega
    subst hin
    simp only [writeLoop]
    rw [List.nil_append, hnext] at hperm
    exact ⟨hperm, hval⟩
  | succ fuel ih =>
    intro picks next inflight store hn hperm hval hfuel
    have hlen := hperm.length_eq
    simp only [List.length_append, List.length_map, List.length_range] at hlen
    rw [writeLoop]
    generalize hk : min (dop - inflight.length) (blocks.length - next) = started
    have hperm1 : ((inflight ++ List.range' next started) ++ store.map Prod.fst).Perm
        (List.range (next + started)) := by
      have h1 : List.range (next + started) = List.range next ++ List.range' next started := by
        rw [List.range_eq_range', List.range_eq_range']
        have := List.range'_append_1 0 next started
        rw [Nat.zero_add] at this
        rw [Nat.add_comm next started]
        exact this.symm
      rw [h1]
      refine List.Perm.trans ?_ (List.Perm.append_right _ hperm)
      rw [List.append_assoc, List.append_assoc]
      exact List.Perm.append_left _ List.perm_append_comm
    cases hc : completes (picks.headD 0) (inflight ++ List.range' next started) with
    | none =>
      simp only
      have hnil := completes_eq_none hc
      have h1 : inflight = [] := (List.append_eq_nil.mp hnil).1
      have h2 : started = 0 := by
        have := congrArg List.length (List.append_eq_nil.mp hnil).2
        simpa using this
      subst h1
      have hnext : next = blocks.length := by
        simp only [List.length_nil, Nat.sub_zero] at hk
        omega
      rw [List.nil_append, hnext] at hperm
      exact ⟨hperm, hval⟩
    | some i =>
      simp only
      have hi := completes_mem hc
      apply ih
      · omega
      · have h1 : (inflight ++ List.range' next started).Perm
            (i :: (inflight ++ List.range' next started).erase i) := List.perm_cons_erase hi
        refine List.Perm.trans ?_ hperm1
        rw [List.map_append, List.map_cons, List.map_nil]
        refine List.Perm.trans ?_ (List.Perm.append_right _ h1.symm)
        simp only [List.cons_append]
        rw [← List.append_assoc]
        exact List.perm_append_comm.trans (by simp)
      · intro p hp
        rcases List.mem_append.mp hp with hp | hp
        · exact hval p hp
        · simp only [List.mem_singleton] at hp
          rw [hp]
      · simp only [List.length_append, List.length_singleton]
        omega

/-- The store `Write` leaves: the blocks to upload, by index. -/
lemma Write_lookup (dop blockSize : Nat) (hd : 0 < dop) (source : List Byte) (picks : List Nat)
    (i : Nat) :
    (Write dop blockSize source picks).lookup i
      = if i < (blocksToUpload blockSize source).length
          then some ((blocksToUpload blockSize source).getD i []) else none := by
  have h := writeLoop_spec dop hd (blocksToUpload blockSize source)
    (blocksToUpload blockSize source).length picks 0 [] [] (Nat.zero_le _) (by simp)
    (by simp) (by simp)
  unfold Write
  rw [lookup_of_values (fun i => (blocksToUpload blockSize source).getD i []) _ h.2 i]
  simp only [h.1.mem_iff, List.mem_range]

lemma Write_length (dop blockSize : Nat) (hd : 0 < dop) (source : List Byte) (picks : List Nat) :
    (Write dop blockSize source picks).length = (blocksToUpload blockSize source).length := by
  have h := (writeLoop_spec dop hd (blocksToUpload blockSize source)
    (blocksToUpload blockSize source).length picks 0 [] [] (Nat.zero_le _) (by simp)
    (by simp) (by simp)).1.length_eq
  simpa [Write] using h
lemma lookup_some_mem : ∀ (store : BlockStore) (k : Nat) (b : List Byte),
    store.lookup k = some b → (k, b) ∈ store := by
  intro store
  induction store with
  | nil => intro k b h; simp at h
  | cons p t ih =>
    intro k b h
    obtain ⟨k1, v⟩ := p
    by_cases hk : k = k1
    · subst hk
      simp [List.lookup] at h
      simp [h]
    · have hb : (k == k1) = false := by simpa using hk
      simp only [List.lookup, hb] at h
      exact List.mem_cons_of_mem _ (ih k b h)

lemma lookup_none_not_mem : ∀ (store : BlockStore) (k : Nat),
    store.lookup k = none → k ∉ store.map Prod.fst := by
  intro store
  induction store with
  | nil => intro k _; simp
  | cons p t ih =>
    intro k h
    obtain ⟨k1, v⟩ := p
    by_cases hk : k = k1
    · subst hk
      simp [List.lookup] at h
    · have hb : (k == k1) = false := by simpa using hk
      simp only [List.lookup, hb] at h
      simp only [List.map_cons, List.mem_cons, hk, false_or]
      exact ih k h

/-- Taking the block of one index out of the holding area takes one block out. -/
lemma filter_key_length : ∀ (holding : BlockStore) (k : Nat),
    (holding.map Prod.fst).Nodup → k ∈ holding.map Prod.fst →
      (holding.filter (fun p => p.1 != k)).length + 1 = holding.length := by
  intro holding
  induction holding with
  | nil => intro k _ h; simp at h
  | cons p t ih =>
    intro k hnd hk
    obtain ⟨k1, v⟩ := p
    simp only [List.map_cons, List.nodup_cons] at hnd
    by_cases hkk : k1 = k
    · subst hkk
      have hall : t.filter (fun p => p.1 != k1) = t := by
        rw [List.filter_eq_self]
        intro q hq
        have : q.1 ≠ k1 := by
          intro h
          exact hnd.1 (h ▸ List.mem_map_of_mem Prod.fst hq)
        simpa using this
      simp [List.filter, hall]
    · have hk1 : k ∈ t.map Prod.fst := by
        simp only [List.map_cons, List.mem_cons] at hk
        rcases hk with hk | hk
        · exact absurd hk.symm hkk
        · exact hk
      have := ih k hnd.2 hk1
      have hb : ((k1, v).1 != k) = true := by simpa using hkk
      simp only [List.filter, hb, List.length_cons]
      omega

/-- Distinct indices between two bounds are at most as many as the bounds leave room for. -/
lemma nodup_length_le (l : List Nat) (a n : Nat) (ha : a ≤ n + 1) (hnd : l.Nodup)
    (h : ∀ x ∈ l, a ≤ x ∧ x ≤ n) : l.length + a ≤ n + 1 := by
  have hsub : l ⊆ List.range' a (n + 1 - a) := by
    intro x hx
    have := h x hx
    rw [List.mem_range'_1]
    omega
  have hle := (List.subperm_of_subset hnd hsub).length_le
  rw [List.length_range'] at hle
  omega

lemma getD_terminal (P : List (List Byte)) : (P ++ [[]]).getD P.length [] = [] := by
  simp [List.getD_eq_getElem?_getD]

lemma getD_real (P : List (List Byte)) (i : Nat) (hi : i < P.length) :
    (P ++ [[]]).getD i [] = P[i] := by
  simp [List.getD_eq_getElem?_getD, List.getElem?_append_left hi, List.getElem?_eq_getElem hi]

/-- The loop of `read` delivers the blocks before the zero-length one, in the
order of their indices, whatever the order in which the fetches complete. -/
lemma readLoop_spec (dop : Nat) (hd : 0 < dop) (P : List (List Byte)) (hP : ∀ b ∈ P, b ≠ [])
    (store : BlockStore)
    (hstore : ∀ i, store.lookup i
      = if i < (P ++ [[]]).length then some ((P ++ [[]]).getD i []) else none)
    (sink0 : List Byte) :
    ∀ (fuel : Nat) (picks : List Nat) (nextFetch : Nat) (inflight : List Nat)
      (holding : BlockStore) (nextWrite : Nat) (sink : List Byte),
      nextWrite ≤ P.length → nextWrite ≤ nextFetch →
      sink = sink0 ++ (P.take nextWrite).flatten →
      (∀ p ∈ holding, nextWrite ≤ p.1 ∧ p.1 ≤ P.length ∧ p.1 < nextFetch
        ∧ p.2 = (P ++ [[]]).getD p.1 []) →
      (holding.map Prod.fst).Nodup →
      inflight.Nodup →
      (∀ i ∈ inflight, nextWrite ≤ i ∧ i < nextFetch ∧ i ∉ holding.map Prod.fst) →
      (∀ i, nextWrite ≤ i → i < nextFetch → i ∈ holding.map Prod.fst ∨ i ∈ inflight) →
      2 * (P.length + 1) ≤ fuel + 2 * nextWrite + holding.length →
      readLoop dop store fuel picks nextFetch inflight holding nextWrite sink
        = some (sink0 ++ P.flatten) := by
  intro fuel
  induction fuel with
  | zero =>
    intro picks nextFetch inflight holding nextWrite sink hnw hnf hsink hhold hnd hind hinf hcov hfuel
    have hp := nodup_length_le (holding.map Prod.fst) nextWrite P.length (by omega) hnd
      (by
        intro x hx
        obtain ⟨p, hp, rfl⟩ := List.mem_map.mp hx
        exact ⟨(hhold p hp).1, (hhold p hp).2.1⟩)
    rw [List.length_map] at hp
    omega
  | succ fuel ih =>
    intro picks nextFetch inflight holding nextWrite sink hnw hnf hsink hhold hnd hind hinf hcov hfuel
    rw [readLoop]
    cases hl : holding.lookup nextWrite with
    | some block =>
      simp only
      have hmem := lookup_some_mem holding nextWrite block hl
      have hb := hhold _ hmem
      simp only at hb
      have hkey : nextWrite ∈ holding.map Prod.fst := List.mem_map.mpr ⟨_, hmem, rfl⟩
      by_cases hnil : block = []
      · rw [if_pos hnil]
        have heq : nextWrite = P.length := by
          by_contra hne
          have hlt : nextWrite < P.length := by omega
          have h1 := hb.2.2.2
          rw [getD_real P nextWrite hlt, hnil] at h1
          exact hP _ (List.getElem_mem hlt) h1.symm
        rw [hsink, heq, List.take_length]
      · rw [if_neg hnil]
        have hlt : nextWrite < P.length := by
          by_contra hne
          have heq : nextWrite = P.length := by omega
          have h1 := hb.2.2.2
          rw [heq, getD_terminal] at h1
          exact hnil h1
        have hblock : block = P[nextWrite] := by
          rw [hb.2.2.2, getD_real P nextWrite hlt]
        apply ih
        · omega
        · omega
        · rw [hsink, List.take_succ, List.flatten_append, List.getElem?_eq_getElem hlt, hblock]
          simp
        · intro p hp
          rw [List.mem_filter] at hp
          have h1 := hhold p hp.1
          have h2 : p.1 ≠ nextWrite := by simpa using hp.2
          refine ⟨?_, h1.2⟩
          have := h1.1
          omega
        · exact hnd.sublist ((List.filter_sublist _).map _)
        · exact hind
        · intro i hi
          have h1 := hinf i hi
          have hne : i ≠ nextWrite := fun h => h1.2.2 (h ▸ hkey)
          refine ⟨by omega, h1.2.1, ?_⟩
          intro hin
          exact h1.2.2 (((List.filter_sublist _).map _).subset hin)
        · intro i hi1 hi2
          rcases hcov i (by omega) hi2 with h | h
          · left
            obtain ⟨p, hp, rfl⟩ := List.mem_map.mp h
            refine List.mem_map.mpr ⟨p, List.mem_filter.mpr ⟨hp, ?_⟩, rfl⟩
            have : p.1 ≠ nextWrite := by omega
            simpa using this
          · exact Or.inr h
        · have := filter_key_length holding nextWrite hnd hkey
          omega
    | none =>
      simp only
      have hkey := lookup_none_not_mem holding nextWrite hl
      generalize hk : nextWrite + dop - nextFetch = started
      have hmem' : ∀ j, j ∈ inflight ++ List.range' nextFetch started ↔
          (j ∈ inflight ∨ (nextFetch ≤ j ∧ j < nextFetch + started)) := by
        intro j
        rw [List.mem_append, List.mem_range'_1]
      have hnw_in : nextWrite ∈ inflight ++ List.range' nextFetch started := by
        rw [hmem']
        by_cases h : nextWrite < nextFetch
        · rcases hcov nextWrite (Nat.le_refl _) h with h1 | h1
          · exact absurd h1 hkey
          · exact Or.inl h1
        · right
          omega
      have hnd' : (inflight ++ List.range' nextFetch started).Nodup := by
        refine List.Nodup.append hind (List.nodup_range' _ _) ?_
        intro j hj1 hj2
        rw [List.mem_range'_1] at hj2
        have := (hinf j hj1).2.1
        omega
      cases hc : completes (picks.headD 0)
          ((inflight ++ List.range' nextFetch started).filter
            (fun i => (store.lookup i).isSome)) with
      | none =>
        exfalso
        have h0 := completes_eq_none hc
        have : nextWrite ∈ (inflight ++ List.range' nextFetch started).filter
            (fun i => (store.lookup i).isSome) := by
          rw [List.mem_filter]
          refine ⟨hnw_in, ?_⟩
          rw [hstore, if_pos (by simp; omega)]
          rfl
        rw [h0] at this
        simp at this
      | some i =>
        simp only
        have hi := List.mem_filter.mp (completes_mem hc)
        have hi_lt : i < (P ++ [[]]).length := by
          by_contra hge
          have h2 := hi.2
          rw [hstore, if_neg hge] at h2
          simp at h2
        have hval : (store.lookup i).getD [] = (P ++ [[]]).getD i [] := by
          rw [hstore, if_pos hi_lt]
          rfl
        have hi_in := (hmem' i).mp hi.1
        have hi_bounds : nextWrite ≤ i ∧ i < nextFetch + started ∧ i ∉ holding.map Prod.fst := by
          rcases hi_in with h | h
          · have := hinf i h
            exact ⟨this.1, by omega, this.2.2⟩
          · refine ⟨by omega, h.2, ?_⟩
            intro hin
            obtain ⟨p, hp, hpe⟩ := List.mem_map.mp hin
            have := (hhold p hp).2.2.1
            omega
        simp only [List.length_append, List.length_singleton] at hi_lt
        apply ih
        · exact hnw
        · omega
        · exact hsink
        · intro p hp
          rcases List.mem_cons.mp hp with hp | hp
          · rw [hp]
            exact ⟨hi_bounds.1, by omega, hi_bounds.2.1, hval⟩
          · have := hhold p hp
            exact ⟨this.1, this.2.1, by omega, this.2.2.2⟩
        · rw [List.map_cons, List.nodup_cons]
          exact ⟨hi_bounds.2.2, hnd⟩
        · exact hnd'.erase i
        · intro j hj
          have hj' := (hnd'.mem_erase_iff).mp hj
          have hjb : nextWrite ≤ j ∧ j < nextFetch + started ∧ j ∉ holding.map Prod.fst := by
            rcases (hmem' j).mp hj'.2 with h | h
            · have := hinf j h
              exact ⟨this.1, by omega, this.2.2⟩
            · refine ⟨by omega, h.2, ?_⟩
              intro hin
              obtain ⟨p, hp, hpe⟩ := List.mem_map.mp hin
              have := (hhold p hp).2.2.1
              omega
          refine ⟨hjb.1, hjb.2.1, ?_⟩
          rw [List.map_cons, List.mem_cons]
          rintro (h | h)
          · exact hj'.1 h
          · exact hjb.2.2 h
        · intro j hj1 hj2
          by_cases hji : j = i
          · left
            rw [hji, List.map_cons]
            exact List.mem_cons_self _ _
          · have hjin : j ∈ holding.map Prod.fst ∨ j ∈ inflight ++ List.range' nextFetch started := by
              by_cases h : j < nextFetch
              · rcases hcov j hj1 h with h1 | h1
                · exact Or.inl h1
                · exact Or.inr ((hmem' j).mpr (Or.inl h1))
              · exact Or.inr ((hmem' j).mpr (Or.inr ⟨by omega, hj2⟩))
            rcases hjin with h | h
            · left
              rw [List.map_cons]
              exact List.mem_cons_of_mem _ h
            · right
              exact (hnd'.mem_erase_iff).mpr ⟨hji, h⟩
        · simp only [List.length_cons]
          omega

/-- C23: for every byte sequence `source`, every block size and every number of
workers (all positive), reading the buffer that `Write` left delivers exactly
`source` after what the sink held, whatever the order `uploads` in which the
block uploads completed and the order `fetches` in which the block fetches
complete. -/
theorem buffer_round_trip (source : List Byte) (blockSize writeDop readDop : Nat)
    (uploads fetches : List Nat) (sink : List Byte)
    (hb : 0 < blockSize) (hw : 0 < writeDop) (hr : 0 < readDop) :
    Read (Write writeDop blockSize source uploads) readDop fetches sink
      = some (sink ++ source) := by
  have hflat := partitionBlocks_flatten blockSize hb source.length source (Nat.le_refl _)
  have hne := partitionBlocks_ne_nil blockSize hb source.length source
  have h := readLoop_spec readDop hr (partitionBlocks blockSize source.length source) hne
    (Write writeDop blockSize source uploads)
    (fun i => Write_lookup writeDop blockSize hw source uploads i) sink
    (2 * (Write writeDop blockSize source uploads).length) fetches 0 [] [] 0 sink
    (Nat.zero_le _) (Nat.le_refl _) (by simp) (by simp) (by simp) (by simp) (by simp) (by simp)
    (by
      rw [Write_length writeDop blockSize hw]
      simp [blocksToUpload])
  rw [hflat] at h
  exact h

/-- Witness of C23: eleven bytes in blocks of three, two upload workers and
three fetch workers, uploads and fetches completing out of order. -/
theorem buffer_round_trip_witness :
    Read (Write 2 3 (ascii "hello world") [1, 1, 0, 3]) 3 [2, 1, 0, 5, 1] []
      = some ([] ++ ascii "hello world") :=
  buffer_round_trip (ascii "hello world") 3 2 3 [1, 1, 0, 3] [2, 1, 0, 5, 1] []
    (by decide) (by decide) (by decide)

/-! ## The run specification: replicas from the file and from the flags -/

/-- C21: when `--replicas` is not passed, the job of the run that RunE assembles
and posts has 1 replica, and when `--worker-replicas` is not passed, its worker,
declared in the file or not, has 1 replica: the default of the flag, not the
value of the spec file. -/
theorem replicas_flag_default_replaces_file (ReadFile : String → Except String (List Byte))
    (UnmarshalStrict : List Byte → Except String RunSpec)
    (timeoutSeconds : String → Except String Int) (args : CommandLine) (newRun : RunSpec)
    (h : RunE.newRun ReadFile UnmarshalStrict timeoutSeconds args = Except.ok newRun) :
    (args.replicas = none → newRun.Job.Replicas = 1)
    ∧ (args.workerReplicas = none → ∀ w, newRun.Worker = some w → w.Replicas = 1) := by
  unfold RunE.newRun at h
  cases hr : readSpecFile ReadFile UnmarshalStrict (parseFlags args).specFile with
  | error e => simp [hr] at h
  | ok fileRun =>
    simp only [hr] at h
    have key : ∀ (t : Option Int) (r : RunSpec),
        r = ⟨applyJobFlags (parseFlags args).job fileRun.Job,
          Option.map (applyWorkerFlags (parseFlags args).worker)
            (match fileRun.Worker with
              | some w => some w
              | none => if workerFlagChanged args then some SpecCodeTarget.zero else none),
          (if (parseFlags args).cluster ≠ "" then (parseFlags args).cluster else fileRun.Cluster),
          t⟩ →
        (args.replicas = none → r.Job.Replicas = 1)
        ∧ (args.workerReplicas = none → ∀ w, r.Worker = some w → w.Replicas = 1) := by
      intro t r hr'
      subst hr'
      constructor
      · intro hn
        simp [applyJobFlags, parseFlags, hn]
      · intro hn w hw
        simp only [Option.map_eq_some'] at hw
        obtain ⟨w0, _, hw0⟩ := hw
        rw [← hw0]
        simp [applyWorkerFlags, parseFlags, hn]
    by_cases ht : (parseFlags args).timeout ≠ ""
    · rw [if_pos ht] at h
      cases hs : timeoutSeconds (parseFlags args).timeout with
      | error e => simp [hs] at h
      | ok seconds =>
        simp only [hs, Except.ok.injEq] at h
        exact key (some seconds) newRun h.symm
    · rw [if_neg ht] at h
      simp only [Except.ok.injEq] at h
      exact key fileRun.TimeoutSeconds newRun h.symm

/-- Witness of C21: the spec file asks for 3 job replicas and 4 worker
replicas, the command line passes `--file` alone, and the run assembled has 1
and 1. -/
theorem replicas_flag_default_replaces_file_witness :
    RunE.newRun (fun _ => Except.ok [])
        (fun _ => Except.ok ⟨⟨⟨none, some "c"⟩, none, "", 3⟩,
          some ⟨⟨none, some "w"⟩, none, "", 4⟩, "", none⟩)
        (fun _ => Except.ok 0)
        ⟨some "run.yaml", none, none, none, none, none, none, none, none, none, none, none⟩
      = Except.ok ⟨⟨⟨none, some "c"⟩, none, "", 1⟩, some ⟨⟨none, some "w"⟩, none, "", 1⟩, "", none⟩
    ∧ (⟨⟨⟨none, some "c"⟩, none, "", 1⟩, some ⟨⟨none, some "w"⟩, none, "", 1⟩, "", none⟩
        : RunSpec).Job.Replicas = 1 :=
  ⟨rfl, (replicas_flag_default_replaces_file (fun _ => Except.ok [])
    (fun _ => Except.ok ⟨⟨⟨none, some "c"⟩, none, "", 3⟩,
      some ⟨⟨none, some "w"⟩, none, "", 4⟩, "", none⟩)
    (fun _ => Except.ok 0)
    ⟨some "run.yaml", none, none, none, none, none, none, none, none, none, none, none⟩
    ⟨⟨⟨none, some "c"⟩, none, "", 1⟩, some ⟨⟨none, some "w"⟩, none, "", 1⟩, "", none⟩ rfl).1 rfl⟩

/-! ## Paged listings and the limit -/

/-- The loop over the items of a page stops at the limit. -/
lemma printItems_spec (MarshalIndent : String → Except String String) (limit : Int) :
    ∀ (items : List String) (i : Nat) (st : PageState),
      (st.printed.length : Int) = st.totalPrinted → st.totalPrinted < limit →
      ((printItems MarshalIndent limit i items st).1.printed.length : Int)
          = (printItems MarshalIndent limit i items st).1.totalPrinted
        ∧ (printItems MarshalIndent limit i items st).1.totalPrinted ≤ limit
        ∧ ((printItems MarshalIndent limit i items st).2 = none →
            (printItems MarshalIndent limit i items st).1.totalPrinted < limit)
        ∧ ((printItems MarshalIndent limit i items st).2 = some none →
            (printItems MarshalIndent limit i items st).1.uri = "") := by
  intro items
  induction items with
  | nil =>
    intro i st h1 h2
    simp only [printItems]
    exact ⟨h1, le_of_lt h2, fun _ => h2, fun h => by simp at h⟩
  | cons r rest ih =>
    intro i st h1 h2
    rw [printItems]
    cases hm : MarshalIndent r with
    | error e =>
      simp only
      exact ⟨h1, le_of_lt h2, fun h => by simp at h, fun h => by simp at h⟩
    | ok formattedRun =>
      simp only
      by_cases hl : st.totalPrinted + 1 = limit
      · rw [if_pos hl]
        simp only [List.length_append, List.length_singleton, Nat.cast_add, Nat.cast_one]
        exact ⟨by omega, by omega, fun h => by simp at h, fun _ => trivial⟩
      · rw [if_neg hl]
        apply ih
        · simp only [List.length_append, List.length_singleton, Nat.cast_add, Nat.cast_one]
          omega
        · simp only
          omega

/-- A call that does not take the branch of the single page keeps the count of
printed items within the limit, and leaves room when another call follows. -/
lemma InvokePageRequests_paged (MarshalIndentAll : List String → Except String String)
    (MarshalIndent : String → Except String String) (response : Except String Page)
    (limit : Int) (st : PageState)
    (h1 : (st.printed.length : Int) = st.totalPrinted) (h2 : st.totalPrinted < limit)
    (hb : ∀ page, response = Except.ok page → ¬ (st.firstPage = true ∧ page.NextLink = "")) :
    ((InvokePageRequests MarshalIndentAll MarshalIndent response limit st).2.printed.length : Int)
        = (InvokePageRequests MarshalIndentAll MarshalIndent response limit st).2.totalPrinted
      ∧ (InvokePageRequests MarshalIndentAll MarshalIndent response limit st).2.totalPrinted ≤ limit
      ∧ ((InvokePageRequests MarshalIndentAll MarshalIndent response limit st).1 = none →
          (InvokePageRequests MarshalIndentAll MarshalIndent response limit st).2.uri ≠ "" →
          (InvokePageRequests MarshalIndentAll MarshalIndent response limit st).2.totalPrinted
              < limit
            ∧ (InvokePageRequests MarshalIndentAll MarshalIndent response limit st).2.firstPage
              = false) := by
  cases response with
  | error e =>
    simp only [InvokePageRequests]
    exact ⟨h1, le_of_lt h2, fun h => by simp at h⟩
  | ok page =>
    have hb' := hb page rfl
    have hcond : (st.firstPage && page.NextLink == "") = false := by
      cases hf : st.firstPage with
      | false => simp
      | true =>
        have : page.NextLink ≠ "" := fun h => hb' ⟨hf, h⟩
        simpa using this
    simp only [InvokePageRequests, hcond, Bool.false_eq_true, if_false]
    have hp := printItems_spec MarshalIndent limit page.Items 0
      ⟨st.uri, st.firstPage, st.totalPrinted,
        if st.firstPage then st.stdout ++ "[\n  " else st.stdout, st.printed⟩ h1 h2
    rcases hr : printItems MarshalIndent limit 0 page.Items
      ⟨st.uri, st.firstPage, st.totalPrinted,
        if st.firstPage then st.stdout ++ "[\n  " else st.stdout, st.printed⟩ with ⟨st1, r⟩
    rw [hr] at hp
    cases r with
    | none =>
      simp only
      exact ⟨hp.1, hp.2.1, fun _ _ => ⟨hp.2.2.1 rfl, trivial⟩⟩
    | some result =>
      simp only
      refine ⟨hp.1, hp.2.1, ?_⟩
      intro hnone huri
      subst hnone
      exact absurd (hp.2.2.2 rfl) huri

/-- Every sequence of calls that starts after the first page, or whose first
call does not take the branch of the single page, prints at most `limit`
items. -/
lemma invokePages_le_limit (MarshalIndentAll : List String → Except String String)
    (MarshalIndent : String → Except String String) (limit : Int) :
    ∀ (responses : List (Except String Page)) (st : PageState) (r : Option String × PageState),
      (st.printed.length : Int) = st.totalPrinted → st.totalPrinted < limit →
      (∀ page, responses.head? = some (Except.ok page) →
        ¬ (st.firstPage = true ∧ page.NextLink = "")) →
      invokePages MarshalIndentAll MarshalIndent limit responses st = some r →
      (r.2.printed.length : Int) ≤ limit := by
  intro responses
  induction responses with
  | nil => intro st r _ _ _ h; simp [invokePages] at h
  | cons response responses ih =>
    intro st r h1 h2 hb h
    have hp := InvokePageRequests_paged MarshalIndentAll MarshalIndent response limit st h1 h2
      (fun page hpage => hb page (by simp [hpage]))
    rw [invokePages] at h
    rcases hr : InvokePageRequests MarshalIndentAll MarshalIndent response limit st with ⟨e, st1⟩
    rw [hr] at h hp
    cases e with
    | some err =>
      simp only [Option.some.injEq] at h
      rw [← h]
      simp only at hp ⊢
      omega
    | none =>
      simp only at h hp
      by_cases hu : st1.uri = ""
      · rw [if_pos hu] at h
        simp only [Option.some.injEq] at h
        rw [← h]
        simp only
        omega
      · rw [if_neg hu] at h
        have hn := hp.2.2 trivial hu
        exact ih st1 r hp.1 hn.1 (fun page _ hc => by simp [hn.2] at hc) h

/-- C22: the first call of `InvokePageRequests`, with `firstPage` true and
`totalPrinted` 0, on a page without next link prints every item of the page,
whatever the limit, leaves `totalPrinted` at 0 and empties `uri`, which ends
the sequence of calls: a single page of more than `limit` items is printed
whole. -/
theorem InvokePageRequests_single_page_ignores_limit
    (MarshalIndentAll : List String → Except String String)
    (MarshalIndent : String → Except String String) (items : List String) (formatted uri : String)
    (limit : Int) (hm : MarshalIndentAll items = Except.ok formatted) :
    InvokePageRequests MarshalIndentAll MarshalIndent (Except.ok ⟨items, ""⟩) limit
        ⟨uri, true, 0, "", []⟩
      = (none, ⟨"", true, 0, "" ++ formatted ++ "\n", items⟩) := by
  simp [InvokePageRequests, hm]

/-- Witness of C22: limit 2 and a single page of three items: the three are
printed. -/
theorem InvokePageRequests_single_page_ignores_limit_witness :
    InvokePageRequests (fun l => Except.ok (toString l)) Except.ok
        (Except.ok ⟨["a", "b", "c"], ""⟩) 2 ⟨"v1/codespecs", true, 0, "", []⟩
      = (none, ⟨"", true, 0, "" ++ "[a, b, c]" ++ "\n", ["a", "b", "c"]⟩) :=
  InvokePageRequests_single_page_ignores_limit (fun l => Except.ok (toString l)) Except.ok
    ["a", "b", "c"] "[a, b, c]" "v1/codespecs" 2 rfl

end Tyger
